import Mathlib

/-!
Shallow embedding of the automata kernel of the kntjspr/automata-new
repository: state/transition model, NFA with Thompson construction,
DFA with subset construction and Hopcroft-style minimization, PDA
configuration search, the regex recursive-descent parser, the JSON
serializer, and the Wagner-Fischer edit distance.

C++ values are modelled as follows: `char` (a signed byte) and
`StateId` (`int`) both become `Int`; `std::string` becomes `List Int`;
`std::set` becomes a sorted duplicate-free `List Int` built by ordered
insertion; `std::map` becomes an association list sorted by key with
insert-if-absent (`emplace`) semantics; `std::queue` becomes a two-list
functional queue; `std::vector` becomes a `List` with append at the
end.  Loops are embedded with an explicit fuel parameter; wherever the
C++ loop terminates unconditionally the embedding supplies a fuel that
is proved (or chosen) large enough.
-/

namespace Automata

/-- Epsilon sentinel, mirroring constexpr char EPSILON = 0 in common.hpp. -/
def EPSILON : Int := 0

/-- Stack-bottom marker, mirroring constexpr char STACK_EMPTY in common.hpp. -/
def STACK_EMPTY : Int := 36

/-- Sorted duplicate-free list of `Int`, modelling `std::set<int>` /
`std::set<char>` (signed `char` order is `Int` order). -/
abbrev ISet := List Int

/-- Ordered insert without duplication, modelling std::set insert. -/
def ISet.insert (s : ISet) (x : Int) : ISet :=
  match s with
  | [] => [x]
  | y :: t => if x < y then x :: y :: t
              else if x = y then y :: t
              else y :: ISet.insert t x

/-- Erase one element, modelling std::set erase. -/
def ISet.erase (s : ISet) (x : Int) : ISet :=
  match s with
  | [] => []
  | y :: t => if x = y then t else y :: ISet.erase t x

/-- Insert a whole list: used for `closure.insert(begin, end)`. -/
def ISet.insertMany (s : ISet) (l : List Int) : ISet :=
  l.foldl ISet.insert s

/-- A state: id, label, accepting flag, start flag (`State` in state.hpp).
The constructor `State(id, label, acc, start)` replaces an empty label
with `q<id>`; labels are byte strings. -/
structure State where
  id : Int
  label : List Int
  isAccepting : Bool
  isStart : Bool
deriving DecidableEq, Repr

/-- Decimal digits of a nonnegative number, most significant first. -/
def natDigits (fuel : Nat) (n : Nat) : List Int :=
  match fuel with
  | 0 => []
  | fuel + 1 =>
    if n < 10 then [48 + (n : Int)]
    else natDigits fuel (n / 10) ++ [48 + ((n % 10 : Nat) : Int)]

/-- Model of std::to_string on an int, as a byte string. -/
def intToString (n : Int) : List Int :=
  if n < 0 then 45 :: natDigits (n.natAbs + 1) n.natAbs
  else natDigits (n.natAbs + 1) n.natAbs

/-- Constructor of State: an empty label defaults to the letter q followed by the decimal id. -/
def State.mk' (id : Int) (label : List Int) (acc start : Bool) : State :=
  ⟨id, if label = [] then 113 :: intToString id else label, acc, start⟩

/-- Association list sorted by state id, modelling
`std::map<StateId, State>`. -/
abbrev StateMap := List (Int × State)

/-- Model of std::map emplace: insert only if the key is absent, keeping keys
sorted. -/
def StateMap.emplace (m : StateMap) (k : Int) (v : State) : StateMap :=
  match m with
  | [] => [(k, v)]
  | (k', v') :: t =>
    if k < k' then (k, v) :: (k', v') :: t
    else if k = k' then (k', v') :: t
    else (k', v') :: StateMap.emplace t k v

/-- Key membership, modelling std::map count on keys. -/
def StateMap.hasKey (m : StateMap) (k : Int) : Bool :=
  m.any (fun p => p.1 = k)

/-- Lookup modelling std::map at, with a default (the C++ code only calls
at on keys it has just checked). -/
def StateMap.get (m : StateMap) (k : Int) : State :=
  match m.find? (fun p => p.1 = k) with
  | some p => p.2
  | none => State.mk' k [] false false

/-- Pointwise update of the stored state at a key (models mutating the
state through `states_.at(id)`). -/
def StateMap.modify (m : StateMap) (k : Int) (f : State → State) : StateMap :=
  m.map (fun p => if p.1 = k then (p.1, f p.2) else p)

/-- A finite-automaton transition `(from, to, symbol)`. -/
structure Transition where
  fromId : Int
  toId : Int
  symbol : Int
deriving DecidableEq, Repr

/-- Test for the epsilon symbol, as in Transition::isEpsilon. -/
def Transition.isEpsilon (t : Transition) : Bool := t.symbol = EPSILON

/-- Two-list FIFO queue, modelling `std::queue`. -/
structure Queue (α : Type) where
  front : List α
  back : List α
deriving DecidableEq, Repr

def Queue.empty {α} : Queue α := ⟨[], []⟩

def Queue.push {α} (q : Queue α) (x : α) : Queue α := ⟨q.front, x :: q.back⟩

def Queue.pop? {α} (q : Queue α) : Option (α × Queue α) :=
  match q.front with
  | x :: f => some (x, ⟨f, q.back⟩)
  | [] =>
    match q.back.reverse with
    | [] => none
    | x :: f => some (x, ⟨f, []⟩)

/-- The sequence of elements still in the queue, front first. -/
def Queue.toList {α} (q : Queue α) : List α := q.front ++ q.back.reverse

/-- Decidable equality on Except values, used to evaluate embedded
operations at concrete inputs. -/
instance exceptDecEq {ε α} [DecidableEq ε] [DecidableEq α] : DecidableEq (Except ε α) :=
  fun x y =>
  match x, y with
  | .ok a, .ok b => if h : a = b then isTrue (by rw [h]) else isFalse (by simp [h])
  | .error e, .error f => if h : e = f then isTrue (by rw [h]) else isFalse (by simp [h])
  | .ok _, .error _ => isFalse (by simp)
  | .error _, .ok _ => isFalse (by simp)

/-- Exception kinds thrown by the core (common.hpp): InvalidStateException
carries the offending id; AutomataException covers invariant violations
such as a duplicate deterministic transition; ParseException carries the
position where regex parsing failed. -/
inductive CppError where
  | invalidState (id : Int)
  | automataError
  | parseError (pos : Nat)
  | fuelExhausted
deriving DecidableEq, Repr

/-- Nondeterministic finite automaton (nfa.hpp): states keyed by id,
transition list in insertion order, start id (-1 when unset), accepting
id set, next fresh id. -/
structure NFA where
  states : StateMap
  transitions : List Transition
  startState : Int
  acceptingStates : ISet
  nextStateId : Int
deriving DecidableEq, Repr

/-- Default-constructed NFA. -/
def NFA.empty : NFA := ⟨[], [], -1, [], 0⟩

/-- NFA::addState, returning the fresh id and the updated automaton.
The first state ever added receives the start flag and becomes the
start state. -/
def NFA.addState (n : NFA) (label : List Int) (isAccepting : Bool) : Int × NFA :=
  let id := n.nextStateId
  let states' := n.states.emplace id (State.mk' id label isAccepting (n.states = []))
  let start' := if states'.length = 1 then id else n.startState
  let acc' := if isAccepting then n.acceptingStates.insert id else n.acceptingStates
  (id, ⟨states', n.transitions, start', acc', id + 1⟩)

/-- NFA::setStartState: throws InvalidStateException on an unknown id,
otherwise clears the start flag of the recorded start state (when it
exists) and sets the flag on the new one. -/
def NFA.setStartState (n : NFA) (id : Int) : Except CppError NFA :=
  if ¬ n.states.hasKey id then .error (.invalidState id)
  else
    let n1 := if n.startState ≥ 0 ∧ n.states.hasKey n.startState then
        { n with states := n.states.modify n.startState (fun s => { s with isStart := false }) }
      else n
    .ok { n1 with startState := id,
                  states := n1.states.modify id (fun s => { s with isStart := true }) }

/-- NFA::setAcceptingState: throws InvalidStateException on an unknown
id, otherwise sets the flag and keeps the accepting set in sync. -/
def NFA.setAcceptingState (n : NFA) (id : Int) (accepting : Bool) : Except CppError NFA :=
  if ¬ n.states.hasKey id then .error (.invalidState id)
  else .ok { n with
    states := n.states.modify id (fun s => { s with isAccepting := accepting }),
    acceptingStates := if accepting then n.acceptingStates.insert id
                       else n.acceptingStates.erase id }

/-- NFA::addTransition: validates both endpoints then appends. -/
def NFA.addTransition (n : NFA) (fromId toId symbol : Int) : Except CppError NFA :=
  if ¬ n.states.hasKey fromId then .error (.invalidState fromId)
  else if ¬ n.states.hasKey toId then .error (.invalidState toId)
  else .ok { n with transitions := n.transitions ++ [⟨fromId, toId, symbol⟩] }

/-- Transitions leaving a state with a given symbol, in list order. -/
def NFA.getTransitionsFrom (n : NFA) (state symbol : Int) : List Transition :=
  n.transitions.filter (fun t => t.fromId = state ∧ t.symbol = symbol)

/-- Worklist loop of NFA::epsilonClosure (stack-based): pop a state,
insert the targets of its epsilon transitions that are not yet in the
closure, pushing each inserted target. -/
def eclGo (n : NFA) : Nat → List Int → ISet → ISet
  | 0, _, closure => closure
  | _ + 1, [], closure => closure
  | fuel + 1, current :: stack, closure =>
    let step := (n.getTransitionsFrom current EPSILON).foldl
      (fun (acc : ISet × List Int) t =>
        if t.toId ∈ acc.1 then acc else (acc.1.insert t.toId, t.toId :: acc.2))
      (closure, stack)
    eclGo n fuel step.2 step.1

/-- NFA::epsilonClosure on a single state.  Each loop iteration pops one
stack entry, and entries are pushed only when a new state enters the
closure, so the supplied fuel (one per transition plus the seed and one
spare) always outlasts the loop. -/
def NFA.epsilonClosure (n : NFA) (state : Int) : ISet :=
  eclGo n (n.transitions.length + 2) [state] (ISet.insert [] state)

/-- NFA::epsilonClosure on a set of states: union of the singleton
closures, built in set iteration order. -/
def NFA.epsilonClosureSet (n : NFA) (states : ISet) : ISet :=
  states.foldl (fun closure s => closure.insertMany (n.epsilonClosure s)) []

/-- NFA::move: targets of non-epsilon transitions on the given symbol. -/
def NFA.move (n : NFA) (states : ISet) (symbol : Int) : ISet :=
  states.foldl
    (fun result s =>
      (n.getTransitionsFrom s symbol).foldl (fun r t => r.insert t.toId) result)
    []

/-- NFA::extendedDelta: closure of the seed, then closure-of-move per
input symbol. -/
def NFA.extendedDelta (n : NFA) (states : ISet) (input : List Int) : ISet :=
  input.foldl (fun current c => n.epsilonClosureSet (n.move current c))
    (n.epsilonClosureSet states)

/-- NFA::accepts: false without a start state, else test whether the
extended delta from the start hits an accepting state. -/
def NFA.accepts (n : NFA) (input : List Int) : Bool :=
  if n.startState < 0 then false
  else (n.extendedDelta [n.startState] input).any
    (fun s => decide (s ∈ n.acceptingStates))

/-- One entry of NFA::traceExecution. -/
structure NfaExecutionStep where
  currentStates : ISet
  consumedSymbol : Int
  nextStates : ISet
  isEpsilonMove : Bool
deriving DecidableEq, Repr

/-- Per-symbol body of NFA::traceExecution: record the move, and the
epsilon expansion when it changes the set. -/
def traceStep (n : NFA) (acc : List NfaExecutionStep × ISet) (c : Int) :
    List NfaExecutionStep × ISet :=
  let current := acc.2
  let afterMove := n.move current c
  let withMove := acc.1 ++ [⟨current, c, afterMove, false⟩]
  let afterEps := n.epsilonClosureSet afterMove
  if afterEps ≠ afterMove then
    (withMove ++ [⟨afterMove, EPSILON, afterEps, true⟩], afterEps)
  else (withMove, afterEps)

/-- NFA::traceExecution: empty without a start state; otherwise records
the initial epsilon expansion (when it changes the set) and each
consuming move. -/
def NFA.traceExecution (n : NFA) (input : List Int) : List NfaExecutionStep :=
  if n.startState < 0 then []
  else
    let current : ISet := [n.startState]
    let afterEps := n.epsilonClosureSet current
    let start := if afterEps ≠ current then
        ([(⟨current, EPSILON, afterEps, true⟩ : NfaExecutionStep)], afterEps)
      else (([] : List NfaExecutionStep), current)
    (input.foldl (traceStep n) start).1

/-- NFA::getAlphabet: the non-epsilon symbols of the transition list. -/
def NFA.getAlphabet (n : NFA) : ISet :=
  n.transitions.foldl
    (fun alphabet t => if t.isEpsilon then alphabet else alphabet.insert t.symbol) []

/-- Ordering key of std::pair for the deterministic transition table. -/
def keyLt (a b : Int × Int) : Prop :=
  a.1 < b.1 ∨ (a.1 = b.1 ∧ a.2 < b.2)

instance : DecidablePred fun p : (Int × Int) × (Int × Int) => keyLt p.1 p.2 :=
  fun _ => by unfold keyLt; infer_instance

instance (a b : Int × Int) : Decidable (keyLt a b) := by unfold keyLt; infer_instance

/-- Association list sorted by std::pair order, modelling
std::map of (StateId, Symbol) to StateId. -/
abbrev TTable := List ((Int × Int) × Int)

/-- Sorted insert-or-assign, modelling operator square-brackets
assignment on the table. -/
def TTable.set (m : TTable) (k : Int × Int) (v : Int) : TTable :=
  match m with
  | [] => [(k, v)]
  | (k', v') :: t =>
    if keyLt k k' then (k, v) :: (k', v') :: t
    else if k = k' then (k, v) :: t
    else (k', v') :: TTable.set t k v

/-- Key lookup in the deterministic table. -/
def TTable.find? : TTable → (Int × Int) → Option Int
  | [], _ => none
  | (k0, v0) :: t, k => if k0 = k then some v0 else TTable.find? t k

/-- Deterministic finite automaton (dfa.hpp). -/
structure DFA where
  states : StateMap
  transitions : List Transition
  transitionTable : TTable
  startState : Int
  acceptingStates : ISet
  nextStateId : Int
  alphabet : ISet
deriving DecidableEq, Repr

/-- Default-constructed DFA. -/
def DFA.empty : DFA := ⟨[], [], [], -1, [], 0, []⟩

/-- DFA::addState (same shape as NFA::addState). -/
def DFA.addState (d : DFA) (label : List Int) (isAccepting : Bool) : Int × DFA :=
  let id := d.nextStateId
  let states' := d.states.emplace id (State.mk' id label isAccepting (d.states = []))
  let start' := if states'.length = 1 then id else d.startState
  let acc' := if isAccepting then d.acceptingStates.insert id else d.acceptingStates
  (id, { d with states := states', startState := start', acceptingStates := acc',
                nextStateId := id + 1 })

/-- DFA::setStartState (same shape as NFA::setStartState). -/
def DFA.setStartState (d : DFA) (id : Int) : Except CppError DFA :=
  if ¬ d.states.hasKey id then .error (.invalidState id)
  else
    let d1 := if d.startState ≥ 0 ∧ d.states.hasKey d.startState then
        { d with states := d.states.modify d.startState (fun s => { s with isStart := false }) }
      else d
    .ok { d1 with startState := id,
                  states := d1.states.modify id (fun s => { s with isStart := true }) }

/-- DFA::setAcceptingState (same shape as NFA::setAcceptingState). -/
def DFA.setAcceptingState (d : DFA) (id : Int) (accepting : Bool) : Except CppError DFA :=
  if ¬ d.states.hasKey id then .error (.invalidState id)
  else .ok { d with
    states := d.states.modify id (fun s => { s with isAccepting := accepting }),
    acceptingStates := if accepting then d.acceptingStates.insert id
                       else d.acceptingStates.erase id }

/-- DFA::addTransition: validates both endpoints, refuses a duplicate
(from, symbol) key with AutomataException, then appends to the
transition list, assigns the table entry and extends the alphabet. -/
def DFA.addTransition (d : DFA) (fromId toId symbol : Int) : Except CppError DFA :=
  if ¬ d.states.hasKey fromId then .error (.invalidState fromId)
  else if ¬ d.states.hasKey toId then .error (.invalidState toId)
  else if (d.transitionTable.find? (fromId, symbol)).isSome then .error .automataError
  else .ok { d with
    transitions := d.transitions ++ [⟨fromId, toId, symbol⟩],
    transitionTable := d.transitionTable.set (fromId, symbol) toId,
    alphabet := d.alphabet.insert symbol }

/-- DFA::getNextState: table lookup. -/
def DFA.getNextState (d : DFA) (fromId symbol : Int) : Option Int :=
  d.transitionTable.find? (fromId, symbol)

/-- Iterated table walk used by DFA::accepts. -/
def DFA.deltaStar (d : DFA) (cur : Int) : List Int → Option Int
  | [] => some cur
  | c :: rest =>
    match d.getNextState cur c with
    | none => none
    | some nxt => d.deltaStar nxt rest

/-- DFA::accepts: false without a start state; otherwise walk the table
and accept when the walk survives and ends in an accepting state. -/
def DFA.accepts (d : DFA) (input : List Int) : Bool :=
  if d.startState < 0 then false
  else
    match d.deltaStar d.startState input with
    | none => false
    | some q => decide (q ∈ d.acceptingStates)

/-- One entry of DFA::traceExecution. -/
structure DfaExecutionStep where
  currentState : Int
  consumedSymbol : Int
  nextState : Int
  accepted : Bool
deriving DecidableEq, Repr

/-- Loop of DFA::traceExecution: record each lookup; on a missing
transition record the failed step (next state -1) and stop; the last
step of a fully consumed input is flagged when it ends accepting. -/
def dfaTraceGo (d : DFA) : Int → List Int → List DfaExecutionStep
  | _, [] => []
  | cur, c :: rest =>
    match d.getNextState cur c with
    | none => [⟨cur, c, -1, false⟩]
    | some nxt =>
      ⟨cur, c, nxt, rest = [] ∧ nxt ∈ d.acceptingStates⟩ :: dfaTraceGo d nxt rest

/-- DFA::traceExecution: empty without a start state. -/
def DFA.traceExecution (d : DFA) (input : List Int) : List DfaExecutionStep :=
  if d.startState < 0 then [] else dfaTraceGo d d.startState input

/-- Inner loop of DFA::findAllMatches for start index i: walk while
transitions exist from position j, emitting (i, j+1) at every accepting
state reached. -/
def matchGo (d : DFA) (i : Nat) : Int → Nat → List Int → List (Nat × Nat)
  | _, _, [] => []
  | cur, j, c :: rest =>
    match d.getNextState cur c with
    | none => []
    | some nxt =>
      (if nxt ∈ d.acceptingStates then [(i, j + 1)] else []) ++
        matchGo d i nxt (j + 1) rest

/-- DFA::findAllMatches: for every start index i (ascending), first the
zero-length match (i, i) when the start state is accepting, then the
walk results with ends ascending. -/
def DFA.findAllMatches (d : DFA) (text : List Int) : List (Nat × Nat) :=
  ((List.range text.length).map (fun i =>
    (if d.startState ∈ d.acceptingStates then [(i, i)] else []) ++
      matchGo d i d.startState i (text.drop i))).flatten

/-- DFA::getAlphabet. -/
def DFA.getAlphabet (d : DFA) : ISet := d.alphabet

/-- A PDA transition (transition.hpp): input and pop symbols may be
epsilon; the push string is written bottom-to-top. -/
structure PDATransition where
  fromId : Int
  toId : Int
  inputSymbol : Int
  popSymbol : Int
  pushSymbols : List Int
deriving DecidableEq, Repr

/-- A PDA configuration: state, remaining input, and the stack stored
with the bottom at index 0 and the top at the end. -/
structure Configuration where
  state : Int
  remainingInput : List Int
  stack : List Int
deriving DecidableEq, Repr

/-- Pushdown automaton (pda.hpp). -/
structure PDA where
  states : StateMap
  transitions : List PDATransition
  startState : Int
  acceptingStates : ISet
  nextStateId : Int
  initialStackSymbol : Int
deriving DecidableEq, Repr

/-- Default-constructed PDA: start id -1, initial stack symbol
STACK_EMPTY. -/
def PDA.emptyPda : PDA := ⟨[], [], -1, [], 0, STACK_EMPTY⟩

/-- PDA::addState (same shape as NFA::addState). -/
def PDA.addState (p : PDA) (label : List Int) (isAccepting : Bool) : Int × PDA :=
  let id := p.nextStateId
  let states' := p.states.emplace id (State.mk' id label isAccepting (p.states = []))
  let start' := if states'.length = 1 then id else p.startState
  let acc' := if isAccepting then p.acceptingStates.insert id else p.acceptingStates
  (id, { p with states := states', startState := start', acceptingStates := acc',
                nextStateId := id + 1 })

/-- PDA::setStartState: validates the id, records it and sets its start
flag; unlike the NFA and DFA versions it does not clear the flag of the
previous start state. -/
def PDA.setStartState (p : PDA) (id : Int) : Except CppError PDA :=
  if ¬ p.states.hasKey id then .error (.invalidState id)
  else .ok { p with startState := id,
                    states := p.states.modify id (fun s => { s with isStart := true }) }

/-- PDA::setAcceptingState (same shape as NFA::setAcceptingState). -/
def PDA.setAcceptingState (p : PDA) (id : Int) (accepting : Bool) : Except CppError PDA :=
  if ¬ p.states.hasKey id then .error (.invalidState id)
  else .ok { p with
    states := p.states.modify id (fun s => { s with isAccepting := accepting }),
    acceptingStates := if accepting then p.acceptingStates.insert id
                       else p.acceptingStates.erase id }

/-- PDA::addTransition: appends unconditionally; the endpoints are not
validated. -/
def PDA.addTransition (p : PDA) (fromId toId inputSymbol popSymbol : Int)
    (pushSymbols : List Int) : PDA :=
  { p with transitions := p.transitions ++ [⟨fromId, toId, inputSymbol, popSymbol, pushSymbols⟩] }

/-- Whether a transition is enabled in a configuration, and the
configuration it produces: the body of the loop in PDA::step. -/
def pdaFire (t : PDATransition) (config : Configuration) : Option Configuration :=
  if t.fromId ≠ config.state then none
  else
    let consumeInput := t.inputSymbol ≠ EPSILON
    if consumeInput ∧ (config.remainingInput = [] ∨
        config.remainingInput.head? ≠ some t.inputSymbol) then none
    else
      let popStack := t.popSymbol ≠ EPSILON
      if popStack ∧ (config.stack = [] ∨ config.stack.getLast? ≠ some t.popSymbol) then none
      else some
        { state := t.toId,
          remainingInput := if consumeInput then config.remainingInput.tail
                            else config.remainingInput,
          stack := (if popStack then config.stack.dropLast else config.stack) ++
                   t.pushSymbols }

/-- PDA::step: next configurations, in transition-list order. -/
def PDA.step (p : PDA) (config : Configuration) : List Configuration :=
  p.transitions.foldl
    (fun next t =>
      match pdaFire t config with
      | none => next
      | some c => next ++ [c]) []

/-- BFS loop of PDA::acceptsByFinalState.  Each iteration of the C++
while loop decrements the 10000-iteration budget and pops one
configuration; an already-visited configuration is skipped, otherwise
it is recorded, tested for acceptance (input consumed and state
accepting), and its successors are enqueued. -/
def pdaBfsFS (p : PDA) : Nat → Queue Configuration → List Configuration → Bool
  | 0, _, _ => false
  | fuel + 1, q, visited =>
    match q.pop? with
    | none => false
    | some (current, q') =>
      if current ∈ visited then pdaBfsFS p fuel q' visited
      else if current.remainingInput = [] ∧ current.state ∈ p.acceptingStates then true
      else pdaBfsFS p fuel ((p.step current).foldl Queue.push q') (current :: visited)

/-- PDA::acceptsByFinalState: false without a start state; BFS from the
initial configuration with the 10000-dequeue budget of the source. -/
def PDA.acceptsByFinalState (p : PDA) (input : List Int) : Bool :=
  if p.startState < 0 then false
  else pdaBfsFS p 10000
    (Queue.push Queue.empty ⟨p.startState, input, [p.initialStackSymbol]⟩) []

/-- BFS loop of PDA::acceptsByEmptyStack: identical to the final-state
loop except that acceptance requires consumed input and an empty
stack. -/
def pdaBfsES (p : PDA) : Nat → Queue Configuration → List Configuration → Bool
  | 0, _, _ => false
  | fuel + 1, q, visited =>
    match q.pop? with
    | none => false
    | some (current, q') =>
      if current ∈ visited then pdaBfsES p fuel q' visited
      else if current.remainingInput = [] ∧ current.stack = [] then true
      else pdaBfsES p fuel ((p.step current).foldl Queue.push q') (current :: visited)

/-- PDA::acceptsByEmptyStack with the 10000-dequeue budget of the
source. -/
def PDA.acceptsByEmptyStack (p : PDA) (input : List Int) : Bool :=
  if p.startState < 0 then false
  else pdaBfsES p 10000
    (Queue.push Queue.empty ⟨p.startState, input, [p.initialStackSymbol]⟩) []

/-- One entry of the trace returned by PDA::findAcceptingPath. -/
structure PdaExecutionStep where
  before : Configuration
  transition : Option PDATransition
  after : Configuration
deriving DecidableEq, Repr

/-- Parent-pointer node of the BFS in PDA::findAcceptingPath. -/
structure PathNode where
  config : Configuration
  transition : Option PDATransition
  parent : Int
deriving DecidableEq, Repr

/-- Successor configurations together with the transitions that
produced them: the inline successor loop of PDA::findAcceptingPath
(the same enabling tests as PDA::step). -/
def PDA.stepWith (p : PDA) (config : Configuration) :
    List (Configuration × PDATransition) :=
  p.transitions.foldl
    (fun next t =>
      match pdaFire t config with
      | none => next
      | some c => next ++ [(c, t)]) []

/-- Path reconstruction of PDA::findAcceptingPath: walk parent indices
back to the root, collecting (before, transition, after) steps in
root-to-accept order.  The node list is kept newest-first, so index i
lives at position count - 1 - i. -/
def pdaBuildPath (nodesRev : List PathNode) (count : Nat) :
    Nat → Nat → List PdaExecutionStep → List PdaExecutionStep
  | 0, _, path => path
  | fuel + 1, idx, path =>
    match nodesRev.get? (count - 1 - idx) with
    | none => path
    | some node =>
      if node.parent < 0 then path
      else
        match nodesRev.get? (count - 1 - node.parent.toNat) with
        | none => path
        | some pnode =>
          pdaBuildPath nodesRev count fuel node.parent.toNat
            (⟨pnode.config, node.transition, node.config⟩ :: path)

/-- BFS loop of PDA::findAcceptingPath.  The C++ loop has no iteration
budget; the fuel parameter only bounds how many dequeues the embedding
is willing to evaluate: `none` means the loop was still running when
the fuel ran out, `some none` models the C++ return of nullopt on queue
exhaustion, and `some (some path)` models a found accepting path.  The
queue carries each node index together with its configuration (the C++
queue stores the index and re-reads the configuration from the node
array). -/
def pdaPathGo (p : PDA) :
    Nat → List PathNode → Nat → Queue (Nat × Configuration) → List Configuration →
    Option (Option (List PdaExecutionStep))
  | 0, _, _, _, _ => none
  | fuel + 1, nodesRev, count, q, visited =>
    match q.pop? with
    | none => some none
    | some ((idx, current), q') =>
      if current ∈ visited then pdaPathGo p fuel nodesRev count q' visited
      else if current.remainingInput = [] ∧ current.state ∈ p.acceptingStates then
        some (some (pdaBuildPath nodesRev count count idx []))
      else
        let expanded := (p.stepWith current).foldl
          (fun (acc : List PathNode × Nat × Queue (Nat × Configuration)) ct =>
            (⟨ct.1, some ct.2, (idx : Int)⟩ :: acc.1, acc.2.1 + 1,
             acc.2.2.push (acc.2.1, ct.1)))
          (nodesRev, count, q')
        pdaPathGo p fuel expanded.1 expanded.2.1 expanded.2.2 (current :: visited)

/-- PDA::findAcceptingPath: nullopt without a start state; otherwise
run the parent-pointer BFS (fuel bounds the evaluated dequeues; the C++
function is its limit as the fuel grows). -/
def PDA.findAcceptingPath (p : PDA) (input : List Int) (fuel : Nat) :
    Option (Option (List PdaExecutionStep)) :=
  if p.startState < 0 then some none
  else
    let initial : Configuration := ⟨p.startState, input, [p.initialStackSymbol]⟩
    pdaPathGo p fuel [⟨initial, none, -1⟩] 1 (Queue.push Queue.empty (0, initial)) []

/-- Totalizer for operations whose exception provably cannot fire on
the values the Thompson builders feed them. -/
def okOr {α} (e : Except CppError α) (d : α) : α :=
  match e with
  | .ok x => x
  | .error _ => d

/-- NFA::renumberStates: reassign ids sequentially from the offset in
key order, remap transitions through the resulting mapping (missing
keys default to 0, as operator square-brackets would insert), rebuild
the accepting set and advance nextStateId. -/
def NFA.renumberStates (n : NFA) (offset : Int) : NFA :=
  let mapping : List (Int × Int) :=
    n.states.enum.map (fun p => (p.2.1, offset + (p.1 : Int)))
  let mapOf : Int → Int := fun old =>
    match List.find? (fun q => q.1 = old) mapping with
    | some q => q.2
    | none => 0
  { states := n.states.enum.map (fun p =>
      (offset + (p.1 : Int),
       State.mk' (offset + (p.1 : Int)) [] p.2.2.isAccepting p.2.2.isStart)),
    transitions := n.transitions.map (fun t => ⟨mapOf t.fromId, mapOf t.toId, t.symbol⟩),
    startState := mapOf n.startState,
    acceptingStates := (n.states.enum.filter (fun p => p.2.2.isAccepting)).map
      (fun p => offset + (p.1 : Int)),
    nextStateId := offset + (n.states.length : Int) }

/-- NFA::createEmpty: two states with an epsilon transition. -/
def NFA.createEmpty : NFA :=
  let (s, n1) := NFA.empty.addState [] false
  let (e, n2) := n1.addState [] true
  let n3 := okOr (n2.setStartState s) n2
  okOr (n3.addTransition s e EPSILON) n3

/-- NFA::createSingle: two states with a single-symbol transition. -/
def NFA.createSingle (sym : Int) : NFA :=
  let (s, n1) := NFA.empty.addState [] false
  let (e, n2) := n1.addState [] true
  let n3 := okOr (n2.setStartState s) n2
  okOr (n3.addTransition s e sym) n3

/-- Copy of the states of a renumbered operand into a result automaton
with accepting and start flags cleared, as the union and star builders
do. -/
def copyStatesCleared (dst : StateMap) (src : StateMap) : StateMap :=
  src.foldl (fun (m : StateMap) (p : Int × State) =>
    m.emplace p.1 (State.mk' p.1 [] false false)) dst

/-- NFA::createUnion: renumber both operands, add a fresh start, copy
both operands with cleared flags, add a fresh accepting end, wire the
epsilon transitions and clear the operand accepting flags. -/
def NFA.createUnion (a0 b0 : NFA) : NFA :=
  let a := a0.renumberStates 1
  let b := b0.renumberStates (1 + (a.states.length : Int))
  let (newStart, r0) := NFA.empty.addState [] false
  let r1 := okOr (r0.setStartState newStart) r0
  let r2 := { r1 with states := copyStatesCleared r1.states a.states,
                      transitions := r1.transitions ++ a.transitions }
  let r3 := { r2 with states := copyStatesCleared r2.states b.states,
                      transitions := r2.transitions ++ b.transitions }
  let newEnd : Int := r3.states.length
  let r4 := { r3 with states := r3.states.emplace newEnd (State.mk' newEnd [] true false),
                      acceptingStates := r3.acceptingStates.insert newEnd }
  let r5 := okOr (r4.addTransition newStart a.startState EPSILON) r4
  let r6 := okOr (r5.addTransition newStart b.startState EPSILON) r5
  let r7 := a.acceptingStates.foldl
    (fun (r : NFA) (s : Int) =>
      let r' := { r with states := r.states.modify s (fun st => { st with isAccepting := false }) }
      okOr (r'.addTransition s newEnd EPSILON) r') r6
  let r8 := b.acceptingStates.foldl
    (fun (r : NFA) (s : Int) =>
      let r' := { r with states := r.states.modify s (fun st => { st with isAccepting := false }) }
      okOr (r'.addTransition s newEnd EPSILON) r') r7
  { r8 with nextStateId := newEnd + 1 }

/-- NFA::createConcat: renumber b past a, move a into the result, copy
b keeping its accepting flags, wire epsilon from the a-side accepting
states (those not accepting in b) to the start of b, and make the
accepting set that of b. -/
def NFA.createConcat (a : NFA) (b0 : NFA) : NFA :=
  let b := b0.renumberStates (a.states.length : Int)
  let r1 := { a with
    states := b.states.foldl
      (fun (m : StateMap) (p : Int × State) =>
        m.emplace p.1 (State.mk' p.1 [] p.2.isAccepting false)) a.states,
    transitions := a.transitions ++ b.transitions,
    acceptingStates := b.states.foldl
      (fun (s : ISet) (p : Int × State) =>
        if p.2.isAccepting then s.insert p.1 else s) a.acceptingStates }
  let r2 := r1.acceptingStates.foldl
    (fun (r : NFA) (s : Int) =>
      if s ∈ b.acceptingStates then r
      else
        let r' := { r with states := r.states.modify s (fun st => { st with isAccepting := false }) }
        okOr (r'.addTransition s b.startState EPSILON) r') r1
  { r2 with acceptingStates := b.acceptingStates,
            nextStateId := (r2.states.length : Int) }

/-- NFA::createStar: fresh start and end, epsilon from start to the
operand start and to the end, and from each operand accepting state
back to the operand start and to the end. -/
def NFA.createStar (a0 : NFA) : NFA :=
  let a := a0.renumberStates 1
  let (newStart, r0) := NFA.empty.addState [] false
  let r1 := okOr (r0.setStartState newStart) r0
  let r2 := { r1 with states := copyStatesCleared r1.states a.states,
                      transitions := r1.transitions ++ a.transitions }
  let newEnd : Int := r2.states.length
  let r3 := { r2 with states := r2.states.emplace newEnd (State.mk' newEnd [] true false),
                      acceptingStates := r2.acceptingStates.insert newEnd }
  let r4 := okOr (r3.addTransition newStart a.startState EPSILON) r3
  let r5 := okOr (r4.addTransition newStart newEnd EPSILON) r4
  let r6 := a.acceptingStates.foldl
    (fun (r : NFA) (s : Int) =>
      let r' := okOr (r.addTransition s a.startState EPSILON) r
      okOr (r'.addTransition s newEnd EPSILON) r') r5
  { r6 with nextStateId := newEnd + 1 }

/-- NFA::createPlus: a plus is a concatenated with a star of a copy of
a. -/
def NFA.createPlus (a : NFA) : NFA :=
  NFA.createConcat a (NFA.createStar a)

/-- NFA::createOptional: like the star builder but without the epsilon
transitions back to the operand start. -/
def NFA.createOptional (a0 : NFA) : NFA :=
  let a := a0.renumberStates 1
  let (newStart, r0) := NFA.empty.addState [] false
  let r1 := okOr (r0.setStartState newStart) r0
  let r2 := { r1 with states := copyStatesCleared r1.states a.states,
                      transitions := r1.transitions ++ a.transitions }
  let newEnd : Int := r2.states.length
  let r3 := { r2 with states := r2.states.emplace newEnd (State.mk' newEnd [] true false),
                      acceptingStates := r2.acceptingStates.insert newEnd }
  let r4 := okOr (r3.addTransition newStart a.startState EPSILON) r3
  let r5 := okOr (r4.addTransition newStart newEnd EPSILON) r4
  let r6 := a.acceptingStates.foldl
    (fun (r : NFA) (s : Int) => okOr (r.addTransition s newEnd EPSILON) r) r5
  { r6 with nextStateId := newEnd + 1 }

/-- Typed regex AST: the node kinds of RegexParser::ASTNode.  The C++
node is a record with a kind tag and a children vector; the parser only
ever builds the shapes listed here. -/
inductive ASTNode where
  | epsilonNode
  | charNode (value : Int)
  | anyNode
  | charClassNode (chars : ISet)
  | unionNode (l r : ASTNode)
  | concatNode (l r : ASTNode)
  | starNode (x : ASTNode)
  | plusNode (x : ASTNode)
  | optionalNode (x : ASTNode)
  | groupNode (x : ASTNode)
  | startAnchorNode
  | endAnchorNode
  | repeatNNode (x : ASTNode) (minRepeat maxRepeat : Int)
deriving DecidableEq, Repr

/-- RegexParser::peek: 0 at the end of the pattern. -/
def peekAt (pat : List Int) (pos : Nat) : Int := (pat.get? pos).getD 0

/-- RegexParser::isAtEnd. -/
def isAtEnd (pat : List Int) (pos : Nat) : Bool := pos ≥ pat.length

/-- RegexParser::isMetaChar. -/
def isMetaChar (c : Int) : Bool :=
  c = 40 ∨ c = 41 ∨ c = 91 ∨ c = 93 ∨ c = 42 ∨ c = 43 ∨ c = 63 ∨ c = 124 ∨
  c = 46 ∨ c = 92 ∨ c = 94 ∨ c = 36 ∨ c = 123 ∨ c = 125

/-- Digit test of std::isdigit on a byte. -/
def isDigitByte (c : Int) : Bool := 48 ≤ c ∧ c ≤ 57

/-- Loop of RegexParser::parseNumber: accumulate decimal digits. -/
def parseNumberGo (pat : List Int) : Nat → Nat → Int → Bool → (Int × Nat × Bool)
  | 0, pos, num, hasDigit => (num, pos, hasDigit)
  | fuel + 1, pos, num, hasDigit =>
    if ¬ isAtEnd pat pos ∧ isDigitByte (peekAt pat pos) then
      parseNumberGo pat fuel (pos + 1) (num * 10 + (peekAt pat pos - 48)) true
    else (num, pos, hasDigit)

/-- RegexParser::parseNumber: -1 when no digit was read. -/
def parseNumber (pat : List Int) (pos : Nat) : Int × Nat :=
  let r := parseNumberGo pat (pat.length + 1) pos 0 false
  (if r.2.2 then r.1 else -1, r.2.1)

/-- RegexParser::parseCountedQuantifier: parse a bounds expression
after the opening brace; on any malformed shape the position is
restored (backtracking) and none is returned. -/
def parseCountedQuantifier (pat : List Int) (pos : Nat) : Option (Int × Int × Nat) :=
  if peekAt pat pos ≠ 123 then none
  else
    let pos1 := pos + 1
    let (minRep, pos2) := parseNumber pat pos1
    if minRep < 0 then none
    else if peekAt pat pos2 = 125 then some (minRep, minRep, pos2 + 1)
    else if peekAt pat pos2 = 44 then
      let pos3 := pos2 + 1
      if peekAt pat pos3 = 125 then some (minRep, -1, pos3 + 1)
      else
        let (maxRep, pos4) := parseNumber pat pos3
        if maxRep < 0 ∨ peekAt pat pos4 ≠ 125 then none
        else some (minRep, maxRep, pos4 + 1)
    else none

/-- Range insertion of the loop `for c = start; c <= end; c++` inside
RegexParser::parseCharClass. -/
def insertRange (chars : ISet) (start stop : Int) : ISet :=
  (List.range (stop + 1 - start).toNat).foldl
    (fun s i => s.insert (start + (i : Int))) chars

/-- Scanning loop of RegexParser::parseCharClass. -/
def parseCharClassGo (pat : List Int) : Nat → Nat → ISet → (ISet × Nat)
  | 0, pos, chars => (chars, pos)
  | fuel + 1, pos, chars =>
    if ¬ isAtEnd pat pos ∧ peekAt pat pos ≠ 93 then
      let start := peekAt pat pos
      let pos1 := pos + 1
      if peekAt pat pos1 = 45 ∧ pos1 + 1 < pat.length ∧ peekAt pat (pos1 + 1) ≠ 93 then
        let stop := peekAt pat (pos1 + 1)
        parseCharClassGo pat fuel (pos1 + 2) (insertRange chars start stop)
      else parseCharClassGo pat fuel pos1 (chars.insert start)
    else (chars, pos)

/-- RegexParser::parseCharClass: optional leading caret negates against
printable ASCII 32..126. -/
def parseCharClass (pat : List Int) (pos : Nat) : ISet × Nat :=
  let (negate, pos1) := if peekAt pat pos = 94 then (true, pos + 1) else (false, pos)
  let (chars, pos2) := parseCharClassGo pat (pat.length + 1) pos1 []
  if negate then
    ((List.range 95).foldl
      (fun s i => if (32 + (i : Int)) ∈ chars then s else s.insert (32 + (i : Int))) [],
     pos2)
  else (chars, pos2)

/-- Call shapes of the mutually recursive descent: one constructor per
parsing function of RegexParser (the loops carry their accumulators). -/
inductive PCall where
  | union (pos : Nat)
  | unionLoop (left : ASTNode) (pos : Nat)
  | concat (pos : Nat)
  | concatLoop (pos : Nat)
  | rep (pos : Nat)
  | repLoop (base : ASTNode) (pos : Nat)
  | atom (pos : Nat)
deriving Repr

/-- Results of the descent: a node for the parsing functions, a factor
list for the collection loop of parseConcat. -/
inductive PRes where
  | node (a : ASTNode) (pos : Nat)
  | parts (l : List ASTNode) (pos : Nat)
deriving DecidableEq, Repr

/-- The recursive-descent parser of RegexParser as one structurally
recursive function over fuel; the cases are the bodies of parseUnion,
parseConcat, parseRepeat and parseAtom with their loops.  Fuel
exhaustion and impossible result shapes report ParseError; the supplied
fuel makes them unreachable. -/
def parseStep (pat : List Int) : Nat → PCall → Except CppError PRes
  | 0, _ => .error .fuelExhausted
  | fuel + 1, .union pos => do
    match ← parseStep pat fuel (.concat pos) with
    | .node left pos1 => parseStep pat fuel (.unionLoop left pos1)
    | .parts _ p => .error (.parseError p)
  | fuel + 1, .unionLoop left pos =>
    if peekAt pat pos = 124 then do
      match ← parseStep pat fuel (.concat (pos + 1)) with
      | .node right pos1 => parseStep pat fuel (.unionLoop (.unionNode left right) pos1)
      | .parts _ p => .error (.parseError p)
    else .ok (.node left pos)
  | fuel + 1, .concat pos => do
    match ← parseStep pat fuel (.concatLoop pos) with
    | .parts [] pos1 => .ok (.node .epsilonNode pos1)
    | .parts (pfirst :: prest) pos1 => .ok (.node (prest.foldl ASTNode.concatNode pfirst) pos1)
    | .node _ p => .error (.parseError p)
  | fuel + 1, .concatLoop pos =>
    if ¬ isAtEnd pat pos ∧ peekAt pat pos ≠ 124 ∧ peekAt pat pos ≠ 41 then do
      match ← parseStep pat fuel (.rep pos) with
      | .node part pos1 => do
        match ← parseStep pat fuel (.concatLoop pos1) with
        | .parts parts pos2 => .ok (.parts (part :: parts) pos2)
        | .node _ p => .error (.parseError p)
      | .parts _ p => .error (.parseError p)
    else .ok (.parts [] pos)
  | fuel + 1, .rep pos => do
    match ← parseStep pat fuel (.atom pos) with
    | .node base pos1 => parseStep pat fuel (.repLoop base pos1)
    | .parts _ p => .error (.parseError p)
  | fuel + 1, .repLoop base pos =>
    if isAtEnd pat pos then .ok (.node base pos)
    else
      let c := peekAt pat pos
      if c = 42 then parseStep pat fuel (.repLoop (.starNode base) (pos + 1))
      else if c = 43 then parseStep pat fuel (.repLoop (.plusNode base) (pos + 1))
      else if c = 63 then parseStep pat fuel (.repLoop (.optionalNode base) (pos + 1))
      else if c = 123 then
        match parseCountedQuantifier pat pos with
        | some (minRep, maxRep, pos1) =>
          parseStep pat fuel (.repLoop (.repeatNNode base minRep maxRep) pos1)
        | none => .ok (.node base pos)
      else .ok (.node base pos)
  | fuel + 1, .atom pos =>
    if isAtEnd pat pos then .error (.parseError pos)
    else
      let c := peekAt pat pos
      if c = 40 then do
        match ← parseStep pat fuel (.union (pos + 1)) with
        | .node inner pos1 =>
          if peekAt pat pos1 = 41 then .ok (.node (.groupNode inner) (pos1 + 1))
          else .error (.parseError pos1)
        | .parts _ p => .error (.parseError p)
      else if c = 91 then
        let r := parseCharClass pat (pos + 1)
        if peekAt pat r.2 = 93 then .ok (.node (.charClassNode r.1) (r.2 + 1))
        else .error (.parseError r.2)
      else if c = 46 then .ok (.node .anyNode (pos + 1))
      else if c = 94 then .ok (.node .startAnchorNode (pos + 1))
      else if c = 36 then .ok (.node .endAnchorNode (pos + 1))
      else if c = 92 then
        if isAtEnd pat (pos + 1) then .error (.parseError (pos + 1))
        else .ok (.node (.charNode (peekAt pat (pos + 1))) (pos + 2))
      else if isMetaChar c then .error (.parseError pos)
      else .ok (.node (.charNode c) (pos + 1))

/-- RegexParser::parseUnion. -/
def parseUnion (pat : List Int) (fuel : Nat) (pos : Nat) :
    Except CppError (ASTNode × Nat) :=
  match parseStep pat fuel (.union pos) with
  | .ok (.node a p) => .ok (a, p)
  | .ok (.parts _ p) => .error (.parseError p)
  | .error e => .error e

/-- RegexParser::buildNFA on the typed AST.  The repeat case computes
the same value for every copy of the child, so the child NFA is built
once and reused where the C++ rebuilds it. -/
def buildNFA : ASTNode → NFA
  | .epsilonNode => NFA.createEmpty
  | .charNode v => NFA.createSingle v
  | .anyNode =>
    (List.range 94).foldl
      (fun r i => NFA.createUnion r (NFA.createSingle (33 + (i : Int))))
      (NFA.createSingle 32)
  | .charClassNode chars =>
    match chars with
    | [] => NFA.createEmpty
    | c :: rest => rest.foldl (fun r x => NFA.createUnion r (NFA.createSingle x))
        (NFA.createSingle c)
  | .unionNode l r => NFA.createUnion (buildNFA l) (buildNFA r)
  | .concatNode l r => NFA.createConcat (buildNFA l) (buildNFA r)
  | .starNode x => NFA.createStar (buildNFA x)
  | .plusNode x => NFA.createPlus (buildNFA x)
  | .optionalNode x => NFA.createOptional (buildNFA x)
  | .groupNode x => buildNFA x
  | .startAnchorNode => NFA.createEmpty
  | .endAnchorNode => NFA.createEmpty
  | .repeatNNode x minRep maxRep =>
    if minRep = 0 ∧ maxRep = 0 then NFA.createEmpty
    else
      let bx := buildNFA x
      let req := (List.range minRep.toNat).foldl
        (fun r _ => NFA.createConcat r bx) NFA.createEmpty
      if maxRep = -1 then NFA.createConcat req (NFA.createStar bx)
      else (List.range (maxRep - minRep).toNat).foldl
        (fun r _ => NFA.createConcat r (NFA.createOptional bx)) req

/-- Fuel bound for the mutual parser recursion: every recursive entry
consumes one unit and the grammar nests at most a few levels per input
byte. -/
def parseFuel (pat : List Int) : Nat := 8 * pat.length + 16

/-- RegexParser::parse: an empty pattern builds the empty-string NFA;
otherwise parse a union, require full consumption, and build the
Thompson NFA. -/
def parse (pat : List Int) : Except CppError NFA :=
  if pat = [] then .ok NFA.createEmpty
  else do
    let (ast, pos) ← parseUnion pat (parseFuel pat) 0
    if ¬ isAtEnd pat pos then .error (.parseError pos)
    else .ok (buildNFA ast)

/-- RegexParser::parse up to the AST, for claims about parse outcomes. -/
def parseAst (pat : List Int) : Except CppError ASTNode :=
  if pat = [] then .ok .epsilonNode
  else do
    let (ast, pos) ← parseUnion pat (parseFuel pat) 0
    if ¬ isAtEnd pat pos then .error (.parseError pos)
    else .ok ast

/-- Upper bound on the worklist iterations of the subset construction:
every dequeued subset was enqueued at its discovery, and the discovered
subsets are distinct sorted subsets of the ids occurring in the NFA. -/
def subsetBound (n : NFA) : Nat :=
  2 ^ (n.states.length + n.transitions.length + 1) + 1

/-- Worklist loop of DFA::fromNFA.  The state map pairs each discovered
closure set with its DFA state id; the error case fuelExhausted is not
a C++ exception, it marks insufficient evaluation fuel (never reached
with the bound above). -/
def fromNFAGo (n : NFA) (alphabet : ISet) :
    Nat → DFA → List (ISet × Int) → Queue ISet →
    Except CppError (DFA × List (ISet × Int))
  | 0, _, _, _ => .error .fuelExhausted
  | fuel + 1, dfa, sm, q =>
    match q.pop? with
    | none => .ok (dfa, sm)
    | some (current, q') =>
      let currentDfa := ((List.find? (fun p => p.1 = current) sm).map Prod.snd).getD 0
      let stepResult := alphabet.foldlM
        (fun (acc : DFA × List (ISet × Int) × Queue ISet) symbol => do
          let next := n.epsilonClosureSet (n.move current symbol)
          if next = [] then pure acc
          else
            let expanded : (DFA × List (ISet × Int) × Queue ISet) × Int :=
              match List.find? (fun (p : ISet × Int) => p.1 = next) acc.2.1 with
              | some p => (acc, p.2)
              | none =>
                let isAcc := next.any (fun s => decide (s ∈ n.acceptingStates))
                let na := acc.1.addState [] isAcc
                (((na.2, acc.2.1 ++ [(next, na.1)], acc.2.2.push next)), na.1)
            let dfa' ← expanded.1.1.addTransition currentDfa expanded.2 symbol
            pure (dfa', expanded.1.2.1, expanded.1.2.2))
        (dfa, sm, q')
      match stepResult with
      | .error e => .error e
      | .ok acc' => fromNFAGo n alphabet fuel acc'.1 acc'.2.1 acc'.2.2

/-- DFA::fromNFA: subset construction.  The start subset is the epsilon
closure of the NFA start state; a subset is accepting when it meets the
NFA accepting set. -/
def DFA.fromNFA (n : NFA) : Except CppError DFA := do
  let alphabet := n.getAlphabet
  let initial := n.epsilonClosure n.startState
  let isAcc := initial.any (fun s => decide (s ∈ n.acceptingStates))
  let start := DFA.empty.addState [] isAcc
  let d1 ← start.2.setStartState start.1
  let r ← fromNFAGo n alphabet (subsetBound n) d1 [(initial, start.1)]
    (Queue.push Queue.empty initial)
  pure r.1

/-- Splitter step of DFA::minimize for one symbol: compute the preimage
X of the splitter class A under the table on symbol c, then split every
class of the partition cut by X, updating the worklist exactly as the
source does (replace a split class that is on the worklist by both
parts, otherwise enqueue the smaller part). -/
def refineStep (d : DFA) (A : ISet) (c : Int) (acc0 : List ISet × List ISet) :
    List ISet × List ISet :=
  let X := (d.states.map Prod.fst).filter (fun id =>
    match d.getNextState id c with
    | some nxt => decide (nxt ∈ A)
    | none => false)
  let r := acc0.1.foldl
    (fun (acc : List ISet × List ISet) Y =>
      let inter := Y.filter (fun s => decide (s ∈ X))
      let diff := Y.filter (fun s => decide (s ∉ X))
      if inter ≠ [] ∧ diff ≠ [] then
        if Y ∈ acc.2 then
          (acc.1 ++ [inter, diff], acc.2.erase Y ++ [inter, diff])
        else
          (acc.1 ++ [inter, diff],
           acc.2 ++ [if inter.length ≤ diff.length then inter else diff])
      else (acc.1 ++ [Y], acc.2))
    ([], acc0.2)
  r

/-- Worklist loop of DFA::minimize: pop the last worklist class and
refine the partition by it on every alphabet symbol. -/
def minimizeLoop (d : DFA) : Nat → List ISet → List ISet → List ISet
  | 0, part, _ => part
  | fuel + 1, part, wl =>
    match wl.getLast? with
    | none => part
    | some A =>
      let r := d.alphabet.foldl (fun acc c => refineStep d A c acc) (part, wl.dropLast)
      minimizeLoop d fuel r.1 r.2

/-- Fuel for the minimization worklist: at most one split per state can
ever happen and each split pushes at most two classes. -/
def minimizeFuel (d : DFA) : Nat := 2 * d.states.length + 4

/-- DFA::minimize: Hopcroft-style partition refinement starting from
the accepting / non-accepting split (using the state flags), followed by
the quotient construction, which deduplicates lifted transitions by
exact triples and can therefore still throw on a conflicting pair. -/
def DFA.minimize (d : DFA) : Except CppError DFA :=
  if d.states = [] then .ok d
  else
    let accepting := (d.states.filter (fun p => p.2.isAccepting)).map Prod.fst
    let nonAccepting := (d.states.filter (fun p => ¬ p.2.isAccepting)).map Prod.fst
    let part0 := (if accepting ≠ [] then [accepting] else []) ++
                 (if nonAccepting ≠ [] then [nonAccepting] else [])
    let part := minimizeLoop d (minimizeFuel d) part0 part0
    let stp : List (Int × Int) :=
      (part.enum.map (fun q => q.2.map (fun s => (s, (q.1 : Int))))).flatten
    let stpOf : Int → Int := fun s =>
      ((List.find? (fun r => r.1 = s) stp).map Prod.snd).getD 0
    let m0 := part.foldl
      (fun (m : DFA) cls =>
        (m.addState [] (cls.any (fun s => decide (s ∈ d.acceptingStates)))).2)
      DFA.empty
    do
      let m1 ← m0.setStartState (stpOf d.startState)
      let r ← d.transitions.foldlM
        (fun (acc : DFA × List (Int × Int × Int)) t => do
          let key : Int × Int × Int := (stpOf t.fromId, stpOf t.toId, t.symbol)
          if key ∈ acc.2 then pure acc
          else do
            let m' ← acc.1.addTransition key.1 key.2.1 key.2.2
            pure (m', acc.2 ++ [key]))
        (m1, [])
      pure r.1

/-! Lemmas about the table model. -/

theorem ttable_find_set (m : TTable) (k : Int × Int) (v : Int) (k' : Int × Int) :
    TTable.find? (TTable.set m k v) k' =
      if k' = k then some v else TTable.find? m k' := by
  induction m with
  | nil =>
    by_cases h : k' = k
    · simp [TTable.set, TTable.find?, h]
    · simp [TTable.set, TTable.find?, h, Ne.symm h]
  | cons p t ih =>
    obtain ⟨k0, v0⟩ := p
    simp only [TTable.set]
    by_cases hlt : keyLt k k0
    · by_cases h : k' = k
      · simp [if_pos hlt, TTable.find?, h]
      · simp [if_pos hlt, TTable.find?, h, Ne.symm h]
    · by_cases heq : k = k0
      · subst heq
        by_cases h : k' = k
        · simp [if_neg hlt, TTable.find?, h]
        · simp [if_neg hlt, TTable.find?, h, Ne.symm h]
      · simp only [if_neg hlt, if_neg heq, TTable.find?]
        by_cases h0 : k0 = k'
        · have h' : ¬ (k' = k) := fun hc => heq ((h0.trans hc).symm)
          simp [h0, h']
        · simp [h0, ih]

/-! Claim C10: automata without a start state reject everywhere. -/

/-- Claim C10: an automaton whose start id is the negative sentinel (no
state was ever added) rejects every input without raising: NFA::accepts,
DFA::accepts, PDA::acceptsByFinalState and PDA::acceptsByEmptyStack
return false, NFA::traceExecution and DFA::traceExecution return the
empty trace, and PDA::findAcceptingPath returns nullopt. -/
theorem emptyAutomatonRejects (n : NFA) (d : DFA) (p : PDA) (w : List Int) (fuel : Nat)
    (hn : n.startState < 0) (hd : d.startState < 0) (hp : p.startState < 0) :
    n.accepts w = false ∧ d.accepts w = false ∧
    p.acceptsByFinalState w = false ∧ p.acceptsByEmptyStack w = false ∧
    n.traceExecution w = [] ∧ d.traceExecution w = [] ∧
    p.findAcceptingPath w fuel = some none := by
  refine ⟨?_, ?_, ?_, ?_, ?_, ?_, ?_⟩
  · simp [NFA.accepts, hn]
  · simp [DFA.accepts, hd]
  · simp [PDA.acceptsByFinalState, hp]
  · simp [PDA.acceptsByEmptyStack, hp]
  · simp [NFA.traceExecution, hn]
  · simp [DFA.traceExecution, hd]
  · simp [PDA.findAcceptingPath, hp]

/-- Witness for C10 at the default-constructed automata on a sample
input. -/
theorem emptyAutomatonRejects_witness :
    (NFA.empty.startState < 0 ∧ DFA.empty.startState < 0 ∧
      PDA.emptyPda.startState < 0) ∧
    (NFA.empty.accepts [97] = false ∧ DFA.empty.accepts [97] = false ∧
      PDA.emptyPda.acceptsByFinalState [97] = false ∧
      PDA.emptyPda.acceptsByEmptyStack [97] = false ∧
      NFA.empty.traceExecution [97] = [] ∧ DFA.empty.traceExecution [97] = [] ∧
      PDA.emptyPda.findAcceptingPath [97] 5 = some none) :=
  ⟨⟨by decide, by decide, by decide⟩,
    emptyAutomatonRejects NFA.empty DFA.empty PDA.emptyPda [97] 5
      (by decide) (by decide) (by decide)⟩

/-! Claim C4: determinism invariant of DFA::addTransition. -/

/-- Claim C4: with both endpoints present, DFA::addTransition fails
(with the invariant-violation kind, not InvalidStateError) exactly when
the deterministic table already has an entry for (from, symbol); on
success the table afterwards maps (from, symbol) to the new target and
is unchanged on every other key, so at most one target per (from,
symbol) pair ever exists. -/
theorem dfaAddTransitionDeterminism (d : DFA) (f t sym : Int)
    (hf : d.states.hasKey f = true) (ht : d.states.hasKey t = true) :
    ((d.transitionTable.find? (f, sym)).isSome = true →
      d.addTransition f t sym = .error .automataError) ∧
    ((d.transitionTable.find? (f, sym)).isSome = false →
      ∃ d', d.addTransition f t sym = .ok d' ∧
        d'.transitionTable.find? (f, sym) = some t ∧
        (∀ k, k ≠ (f, sym) → d'.transitionTable.find? k = d.transitionTable.find? k) ∧
        d'.transitions = d.transitions ++ [⟨f, t, sym⟩]) := by
  constructor
  · intro hdup
    simp [DFA.addTransition, hf, ht, hdup]
  · intro hfree
    refine ⟨{ d with
        transitions := d.transitions ++ [⟨f, t, sym⟩],
        transitionTable := d.transitionTable.set (f, sym) t,
        alphabet := d.alphabet.insert sym }, ?_, ?_, ?_, rfl⟩
    · simp [DFA.addTransition, hf, ht, hfree]
    · simp [ttable_find_set]
    · intro k hk
      simp [ttable_find_set, hk]

/-- Two-state DFA used as a concrete instance in witnesses. -/
def dfa01 : DFA := ((DFA.empty.addState [] false).2.addState [] true).2

/-- Witness for C4: on the two-state DFA with an empty table, adding a
transition succeeds and installs exactly the requested table entry. -/
theorem dfaAddTransitionDeterminism_witness :
    ∃ d', dfa01.addTransition 0 1 97 = .ok d' ∧
      d'.transitionTable.find? (0, 97) = some 1 :=
  match dfaAddTransitionDeterminism dfa01 0 1 97 (by decide) (by decide) with
  | ⟨_, h2⟩ =>
    match h2 (by decide) with
    | ⟨d', hok, hfind, _, _⟩ => ⟨d', hok, hfind⟩

/-! Claim C8: validation of StateId arguments. -/

/-- Single-state PDA used in concrete exhibits. -/
def pda0 : PDA := (PDA.emptyPda.addState [] false).2

/-- Claim C8 counterexample: PDA::addTransition performs no validation,
so on a PDA whose only state is 0 it records a transition between the
nonexistent states 5 and 7 instead of raising InvalidStateError, and
the automaton is changed. -/
theorem pdaAddTransitionNoValidation_counterexample :
    pda0.states.hasKey 5 = false ∧ pda0.states.hasKey 7 = false ∧
    PDA.addTransition pda0 5 7 0 0 [] ≠ pda0 ∧
    (PDA.addTransition pda0 5 7 0 0 []).transitions =
      pda0.transitions ++ [⟨5, 7, 0, 0, []⟩] := by
  refine ⟨by decide, by decide, by decide, by decide⟩

/-- Claim C8 (amended): setStartState and setAcceptingState on all
three automaton kinds, and addTransition on NFA and DFA, raise
InvalidStateError on a StateId with no state and perform no mutation
(the exception is thrown before any write); PDA::addTransition performs
no validation and appends the transition unconditionally. -/
theorem invalidStateValidation (n : NFA) (d : DFA) (p : PDA)
    (id f t sym pop : Int) (push : List Int) (b : Bool)
    (hn : n.states.hasKey id = false) (hd : d.states.hasKey id = false)
    (hp : p.states.hasKey id = false) :
    n.setStartState id = .error (.invalidState id) ∧
    n.setAcceptingState id b = .error (.invalidState id) ∧
    n.addTransition id t sym = .error (.invalidState id) ∧
    (n.states.hasKey f = true → n.addTransition f id sym = .error (.invalidState id)) ∧
    d.setStartState id = .error (.invalidState id) ∧
    d.setAcceptingState id b = .error (.invalidState id) ∧
    d.addTransition id t sym = .error (.invalidState id) ∧
    (d.states.hasKey f = true → d.addTransition f id sym = .error (.invalidState id)) ∧
    p.setStartState id = .error (.invalidState id) ∧
    p.setAcceptingState id b = .error (.invalidState id) ∧
    PDA.addTransition p f t sym pop push =
      { p with transitions := p.transitions ++ [⟨f, t, sym, pop, push⟩] } := by
  refine ⟨?_, ?_, ?_, ?_, ?_, ?_, ?_, ?_, ?_, ?_, rfl⟩
  · simp [NFA.setStartState, hn]
  · simp [NFA.setAcceptingState, hn]
  · simp [NFA.addTransition, hn]
  · intro hf; simp [NFA.addTransition, hf, hn]
  · simp [DFA.setStartState, hd]
  · simp [DFA.setAcceptingState, hd]
  · simp [DFA.addTransition, hd]
  · intro hf; simp [DFA.addTransition, hf, hd]
  · simp [PDA.setStartState, hp]
  · simp [PDA.setAcceptingState, hp]

/-- Witness for C8 at concrete automata: a bad id raises
InvalidStateError on an NFA, and the unvalidated PDA append. -/
theorem invalidStateValidation_witness :
    NFA.empty.setStartState 5 = .error (.invalidState 5) ∧
    PDA.addTransition pda0 1 2 97 0 [] =
      { pda0 with transitions := pda0.transitions ++ [⟨1, 2, 97, 0, []⟩] } :=
  match invalidStateValidation NFA.empty DFA.empty pda0 5 1 2 97 0 [] true
      (by decide) (by decide) (by decide) with
  | ⟨h1, _, _, _, _, _, _, _, _, _, h11⟩ => ⟨h1, h11⟩

/-! Claim C5: malformed counted quantifiers. -/

/-- Claim C5: on a brace that does not open a well-formed bounds
expression the quantifier parser backtracks, but the atom parser then
rejects the brace as a metacharacter, so parse throws ParseError at the
brace instead of treating it as a literal (contradicting the inline
comment that says to treat the brace as a literal). -/
theorem malformedBraceThrows :
    parseCountedQuantifier [97, 123] 1 = none ∧
    parseAst [97, 123] = .error (.parseError 1) ∧
    parse [97, 123] = .error (.parseError 1) ∧
    parseAst [123, 97, 125] = .error (.parseError 0) ∧
    parseAst [97, 123, 120, 125] = .error (.parseError 1) := by
  refine ⟨by decide, by decide, by decide, by decide, by decide⟩

/-! Claim C2: characterization of DFA::findAllMatches. -/

theorem matchGo_mem (d : DFA) (i : Nat) (rest : List Int) :
    ∀ (cur : Int) (j : Nat) (a b : Nat),
      (a, b) ∈ matchGo d i cur j rest ↔
        (a = i ∧ ∃ m, 1 ≤ m ∧ m ≤ rest.length ∧ b = j + m ∧
          ∃ q, d.deltaStar cur (rest.take m) = some q ∧ q ∈ d.acceptingStates) := by
  induction rest with
  | nil =>
    intro cur j a b
    simp only [matchGo, List.not_mem_nil, false_iff, not_and]
    rintro - ⟨m, h1, hm, -⟩
    simp at hm
    omega
  | cons c rest ih =>
    intro cur j a b
    simp only [matchGo]
    cases hnx : d.getNextState cur c with
    | none =>
      simp only [List.not_mem_nil, false_iff, not_and]
      rintro - ⟨m, h1, hm, hb, q, hds, hq⟩
      obtain ⟨m', rfl⟩ : ∃ m', m = m' + 1 := ⟨m - 1, by omega⟩
      rw [List.take_succ_cons] at hds
      simp only [DFA.deltaStar, hnx] at hds
      exact Option.noConfusion hds
    | some nxt =>
      rw [List.mem_append]
      constructor
      · rintro (hmem | hmem)
        · by_cases hacc : nxt ∈ d.acceptingStates
          · simp only [if_pos hacc, List.mem_singleton, Prod.mk.injEq] at hmem
            obtain ⟨rfl, rfl⟩ := hmem
            refine ⟨rfl, 1, le_refl 1, by simp, by omega, nxt, ?_, hacc⟩
            simp [DFA.deltaStar, hnx]
          · simp [if_neg hacc] at hmem
        · obtain ⟨ha, m, h1, hm, hb, q, hds, hq⟩ := (ih nxt (j + 1) a b).1 hmem
          refine ⟨ha, m + 1, by omega, by simp; omega, by omega, q, ?_, hq⟩
          rw [List.take_succ_cons]
          simp only [DFA.deltaStar, hnx]
          exact hds
      · rintro ⟨ha, m, h1, hm, hb, q, hds, hq⟩
        subst ha
        subst hb
        obtain ⟨m', rfl⟩ : ∃ m', m = m' + 1 := ⟨m - 1, by omega⟩
        rw [List.take_succ_cons] at hds
        simp only [DFA.deltaStar, hnx] at hds
        cases m' with
        | zero =>
          left
          simp only [DFA.deltaStar, List.take] at hds
          obtain rfl : nxt = q := by simpa using hds
          simp [hq]
        | succ m'' =>
          right
          refine (ih nxt (j + 1) a (j + (m'' + 1) + 1)).2
            ⟨rfl, m'' + 1, by omega, by simp at hm ⊢; omega, by omega, q, hds, hq⟩

theorem matchGo_seconds (d : DFA) (i : Nat) (rest : List Int) :
    ∀ (cur : Int) (j : Nat),
      (matchGo d i cur j rest).Pairwise (fun p q => p.2 < q.2) ∧
      ∀ p ∈ matchGo d i cur j rest, p.1 = i ∧ j < p.2 := by
  induction rest with
  | nil => intro cur j; simp [matchGo]
  | cons c rest ih =>
    intro cur j
    simp only [matchGo]
    cases hnx : d.getNextState cur c with
    | none => simp
    | some nxt =>
      obtain ⟨hpw, hbd⟩ := ih nxt (j + 1)
      constructor
      · refine List.pairwise_append.2 ⟨?_, hpw, ?_⟩
        · by_cases hacc : nxt ∈ d.acceptingStates <;> simp [hacc]
        · intro p hp p' hp'
          have := (hbd p' hp').2
          by_cases hacc : nxt ∈ d.acceptingStates
          · simp [hacc] at hp
            subst hp
            simpa using this
          · simp [hacc] at hp
      · intro p hp
        rcases List.mem_append.1 hp with hp | hp
        · by_cases hacc : nxt ∈ d.acceptingStates
          · simp [hacc] at hp
            subst hp
            exact ⟨rfl, by omega⟩
          · simp [hacc] at hp
        · have := hbd p hp
          exact ⟨this.1, by omega⟩

/-- Claim C2: (i, j) is in DFA::findAllMatches(text) exactly when i is
a starting index of the text and either j = i with the start state
accepting (zero-length match), or i < j ≤ length and the table walk
from the start state over text[i..j-1] is everywhere defined and ends
in an accepting state; and the list is ordered with start positions
ascending and, for a fixed start, ends ascending. -/
theorem findAllMatchesCharacterization (d : DFA) (text : List Int) :
    (∀ i j : Nat, (i, j) ∈ d.findAllMatches text ↔
      (i < text.length ∧
        ((j = i ∧ d.startState ∈ d.acceptingStates) ∨
         (i < j ∧ j ≤ text.length ∧
          ∃ q, d.deltaStar d.startState ((text.drop i).take (j - i)) = some q ∧
               q ∈ d.acceptingStates)))) ∧
    (d.findAllMatches text).Pairwise
      (fun p q => p.1 < q.1 ∨ (p.1 = q.1 ∧ p.2 < q.2)) := by
  constructor
  · intro i j
    simp only [DFA.findAllMatches, List.mem_flatten, List.mem_map, List.mem_range]
    constructor
    · rintro ⟨block, ⟨i0, hi0, rfl⟩, hmem⟩
      rcases List.mem_append.1 hmem with hz | hm
      · by_cases hacc : d.startState ∈ d.acceptingStates
        · simp [hacc] at hz
          obtain ⟨rfl, rfl⟩ := hz
          exact ⟨hi0, Or.inl ⟨rfl, hacc⟩⟩
        · simp [hacc] at hz
      · obtain ⟨rfl, m, h1, hm', rfl, q, hds, hq⟩ :=
          (matchGo_mem d i0 (text.drop i0) d.startState i0 i j).1 hm
        rw [List.length_drop] at hm'
        exact ⟨hi0, Or.inr ⟨by omega, by omega, q, by simpa [Nat.add_sub_cancel_left] using hds, hq⟩⟩
    · rintro ⟨hi, hcase⟩
      refine ⟨_, ⟨i, hi, rfl⟩, ?_⟩
      rcases hcase with ⟨rfl, hacc⟩ | ⟨hij, hjle, q, hds, hq⟩
      · exact List.mem_append.2 (Or.inl (by simp [hacc]))
      · refine List.mem_append.2 (Or.inr ?_)
        refine (matchGo_mem d i (text.drop i) d.startState i i j).2
          ⟨rfl, j - i, by omega, by rw [List.length_drop]; omega, by omega, q, hds, hq⟩
  · simp only [DFA.findAllMatches]
    rw [List.pairwise_flatten]
    refine ⟨?_, ?_⟩
    · intro block hblock
      obtain ⟨i0, hi0, rfl⟩ := List.mem_map.1 hblock
      obtain ⟨hpw, hbd⟩ := matchGo_seconds d i0 (text.drop i0) d.startState i0
      refine List.pairwise_append.2 ⟨?_, ?_, ?_⟩
      · by_cases hacc : d.startState ∈ d.acceptingStates <;> simp [hacc]
      · refine hpw.imp_of_mem ?_
        intro p p' hp hp' h
        exact Or.inr ⟨((hbd p hp).1).trans ((hbd p' hp').1).symm, h⟩
      · intro p hp p' hp'
        by_cases hacc : d.startState ∈ d.acceptingStates
        · simp [hacc] at hp
          subst hp
          have := hbd p' hp'
          exact Or.inr ⟨this.1.symm, this.2⟩
        · simp [hacc] at hp
    · rw [List.pairwise_map]
      refine (List.pairwise_lt_range _).imp ?_
      intro i0 i1 hlt p hp p' hp'
      have h0 : p.1 = i0 := by
        rcases List.mem_append.1 hp with h | h
        · by_cases hacc : d.startState ∈ d.acceptingStates
          · simp [hacc] at h; simp [h]
          · simp [hacc] at h
        · exact ((matchGo_seconds d i0 (text.drop i0) d.startState i0).2 p h).1
      have h1 : p'.1 = i1 := by
        rcases List.mem_append.1 hp' with h | h
        · by_cases hacc : d.startState ∈ d.acceptingStates
          · simp [hacc] at h; simp [h]
          · simp [hacc] at h
        · exact ((matchGo_seconds d i1 (text.drop i1) d.startState i1).2 p' h).1
      exact Or.inl (by omega)

/-! Claim C6: start and accepting invariants under state management. -/

/-- One state-management call: addState, setStartState, or
setAcceptingState. -/
inductive BuildOp where
  | add (label : List Int) (isAccepting : Bool)
  | setStart (id : Int)
  | setAcc (id : Int) (accepting : Bool)
deriving DecidableEq, Repr

/-- Apply one call to an NFA; a thrown InvalidStateException leaves the
automaton unchanged (the source validates before mutating). -/
def NFA.applyOp (n : NFA) : BuildOp → NFA
  | .add label acc => (n.addState label acc).2
  | .setStart id => okOr (n.setStartState id) n
  | .setAcc id b => okOr (n.setAcceptingState id b) n

/-- Run a call sequence against a default-constructed NFA. -/
def NFA.build (ops : List BuildOp) : NFA := ops.foldl NFA.applyOp NFA.empty

/-- Apply one call to a DFA (same semantics as the NFA calls). -/
def DFA.applyOp (d : DFA) : BuildOp → DFA
  | .add label acc => (d.addState label acc).2
  | .setStart id => okOr (d.setStartState id) d
  | .setAcc id b => okOr (d.setAcceptingState id b) d

/-- Run a call sequence against a default-constructed DFA. -/
def DFA.build (ops : List BuildOp) : DFA := ops.foldl DFA.applyOp DFA.empty

/-- Apply one call to a PDA (setStartState does not clear the previous
start flag). -/
def PDA.applyOp (p : PDA) : BuildOp → PDA
  | .add label acc => (p.addState label acc).2
  | .setStart id => okOr (p.setStartState id) p
  | .setAcc id b => okOr (p.setAcceptingState id b) p

/-- Run a call sequence against a default-constructed PDA. -/
def PDA.build (ops : List BuildOp) : PDA := ops.foldl PDA.applyOp PDA.emptyPda

/-- A call sequence is valid when every setStartState and
setAcceptingState call targets an id that has already been added (ids
are assigned sequentially from 0). -/
def validOps : List BuildOp → Nat → Bool
  | [], _ => true
  | .add _ _ :: rest, k => validOps rest (k + 1)
  | .setStart id :: rest, k => (0 ≤ id ∧ id < (k : Int)) ∧ validOps rest k
  | .setAcc id _ :: rest, k => (0 ≤ id ∧ id < (k : Int)) ∧ validOps rest k

/-- Number of addState calls in a sequence. -/
def numAdds : List BuildOp → Nat
  | [] => 0
  | .add _ _ :: rest => numAdds rest + 1
  | _ :: rest => numAdds rest

/-- Accumulator step recording the most recent setStartState target. -/
def lastStep (a : Option Int) : BuildOp → Option Int
  | .setStart id => some id
  | _ => a

/-- The id targeted by the most recent setStartState call, if any. -/
def lastStart? (ops : List BuildOp) : Option Int := ops.foldl lastStep none

/-- The start id the spec predicts: most recent setStartState target,
or the first added state (id 0). -/
def expectedStart (ops : List BuildOp) : Int := (lastStart? ops).getD 0

/-- Ids whose stored state carries the start flag, in map order. -/
def startFlaggedIds (m : StateMap) : List Int :=
  (m.filter (fun p => p.2.isStart)).map Prod.fst

/-- Ids whose stored state carries the accepting flag, in map order. -/
def accFlaggedIds (m : StateMap) : List Int :=
  (m.filter (fun p => p.2.isAccepting)).map Prod.fst

theorem emplace_of_lt (m : StateMap) (k : Int) (v : State)
    (h : ∀ p ∈ m, p.1 < k) : m.emplace k v = m ++ [(k, v)] := by
  induction m with
  | nil => rfl
  | cons p t ih =>
    have hp := h p (List.mem_cons_self p t)
    simp only [StateMap.emplace, if_neg (by omega : ¬ k < p.1),
      if_neg (by omega : ¬ k = p.1), List.cons_append, List.cons.injEq, true_and]
    exact ih (fun q hq => h q (List.mem_cons_of_mem p hq))

theorem iset_insert_of_lt (s : ISet) (y : Int)
    (h : ∀ x ∈ s, x < y) : s.insert y = s ++ [y] := by
  induction s with
  | nil => rfl
  | cons x t ih =>
    have hx := h x (List.mem_cons_self x t)
    simp only [ISet.insert, if_neg (by omega : ¬ y < x), if_neg (by omega : ¬ y = x),
      List.cons_append, List.cons.injEq, true_and]
    exact ih (fun q hq => h q (List.mem_cons_of_mem x hq))

theorem iset_mem_insert (s : ISet) (y x : Int) :
    x ∈ s.insert y ↔ x = y ∨ x ∈ s := by
  induction s with
  | nil => simp [ISet.insert]
  | cons z t ih =>
    rw [ISet.insert]
    by_cases h1 : y < z
    · rw [if_pos h1]
      simp only [List.mem_cons]
    · rw [if_neg h1]
      by_cases h2 : y = z
      · subst h2
        rw [if_pos rfl]
        simp only [List.mem_cons]
        tauto
      · rw [if_neg h2]
        simp only [List.mem_cons, ih]
        tauto

theorem iset_mem_erase (s : ISet) (y x : Int) (hs : s.Pairwise (· < ·)) :
    x ∈ s.erase y ↔ x ∈ s ∧ x ≠ y := by
  induction s with
  | nil => simp [ISet.erase]
  | cons z t ih =>
    rw [List.pairwise_cons] at hs
    obtain ⟨hz, ht⟩ := hs
    by_cases h2 : y = z
    · subst h2
      rw [ISet.erase, if_pos rfl]
      constructor
      · intro hx
        have hlt := hz x hx
        exact ⟨List.mem_cons_of_mem _ hx, by omega⟩
      · rintro ⟨hx, hne⟩
        rcases List.mem_cons.1 hx with rfl | hx
        · exact absurd rfl hne
        · exact hx
    · rw [ISet.erase, if_neg h2, List.mem_cons, List.mem_cons, ih ht]
      constructor
      · rintro (rfl | ⟨hx, hne⟩)
        · exact ⟨Or.inl rfl, fun he => h2 he.symm⟩
        · exact ⟨Or.inr hx, hne⟩
      · rintro ⟨rfl | hx, hne⟩
        · exact Or.inl rfl
        · exact Or.inr ⟨hx, hne⟩

theorem iset_insert_pairwise (s : ISet) (y : Int) (hs : s.Pairwise (· < ·)) :
    (s.insert y).Pairwise (· < ·) := by
  induction s with
  | nil => simp [ISet.insert]
  | cons z t ih =>
    rw [List.pairwise_cons] at hs
    obtain ⟨hz, ht⟩ := hs
    rw [ISet.insert]
    by_cases h1 : y < z
    · rw [if_pos h1]
      refine List.pairwise_cons.2 ⟨?_, List.pairwise_cons.2 ⟨hz, ht⟩⟩
      intro b hb
      rcases List.mem_cons.1 hb with rfl | hb
      · exact h1
      · exact h1.trans (hz b hb)
    · rw [if_neg h1]
      by_cases h2 : y = z
      · rw [if_pos h2]
        exact List.pairwise_cons.2 ⟨hz, ht⟩
      · rw [if_neg h2]
        refine List.pairwise_cons.2 ⟨?_, ih ht⟩
        intro b hb
        rcases (iset_mem_insert t y b).1 hb with rfl | hb
        · omega
        · exact hz b hb

theorem iset_erase_pairwise (s : ISet) (y : Int) (hs : s.Pairwise (· < ·)) :
    (s.erase y).Pairwise (· < ·) := by
  induction s with
  | nil => simp [ISet.erase]
  | cons z t ih =>
    rw [List.pairwise_cons] at hs
    obtain ⟨hz, ht⟩ := hs
    rw [ISet.erase]
    by_cases h2 : y = z
    · rw [if_pos h2]
      exact ht
    · rw [if_neg h2]
      refine List.pairwise_cons.2 ⟨?_, ih ht⟩
      intro b hb
      exact hz b ((iset_mem_erase t y b ht).1 hb).1

theorem modify_shape (k : Nat) (f : Nat → State) (key : Int) (g : State → State) :
    StateMap.modify ((List.range k).map (fun (i : Nat) => ((i : Int), f i))) key g =
      (List.range k).map (fun (i : Nat) => ((i : Int), if (i : Int) = key then g (f i) else f i)) := by
  simp only [StateMap.modify, List.map_map]
  apply List.map_congr_left
  intro i _
  simp only [Function.comp]
  by_cases h : (i : Int) = key
  · simp [h]
  · simp [h]

theorem hasKey_shape (k : Nat) (f : Nat → State) (id : Int) :
    StateMap.hasKey ((List.range k).map (fun (i : Nat) => ((i : Int), f i))) id =
      decide (0 ≤ id ∧ id < (k : Int)) := by
  have hiff : (StateMap.hasKey ((List.range k).map (fun (i : Nat) => ((i : Int), f i))) id = true)
      ↔ (0 ≤ id ∧ id < (k : Int)) := by
    simp only [StateMap.hasKey, List.any_eq_true]
    constructor
    · rintro ⟨p, hp, he⟩
      obtain ⟨i, hi, rfl⟩ := List.mem_map.1 hp
      simp only [List.mem_range] at hi
      have : (i : Int) = id := by simpa using he
      omega
    · rintro ⟨h0, h1⟩
      refine ⟨((id.toNat : Int), f id.toNat),
        List.mem_map.2 ⟨id.toNat, List.mem_range.2 (by omega), rfl⟩, ?_⟩
      simp [Int.toNat_of_nonneg h0]
  by_cases h : 0 ≤ id ∧ id < (k : Int)
  · rw [decide_eq_true h]
    exact hiff.2 h
  · rw [decide_eq_false h]
    exact Bool.eq_false_iff.2 (fun hc => h (hiff.1 hc))

theorem filter_range_single (k : Nat) (sv : Int) (h0 : 0 ≤ sv) (h1 : sv < (k : Int)) :
    (List.range k).filter (fun (i : Nat) => decide ((i : Int) = sv)) = [sv.toNat] := by
  induction k with
  | zero => simp at h1; omega
  | succ k ih =>
    rw [List.range_succ, List.filter_append]
    by_cases he : sv = (k : Int)
    · have hempty : (List.range k).filter (fun (i : Nat) => decide ((i : Int) = sv)) = [] := by
        apply List.filter_eq_nil_iff.2
        intro i hi
        simp only [List.mem_range] at hi
        simp only [decide_eq_true_eq]
        omega
      rw [hempty]
      have hone : List.filter (fun (i : Nat) => decide ((i : Int) = sv)) [k] = [k] := by
        simp [he]
      rw [hone]
      simp only [List.nil_append, List.cons.injEq, and_true]
      omega
    · have hlt : sv < (k : Int) := by omega
      rw [ih hlt]
      have hnone : List.filter (fun (i : Nat) => decide ((i : Int) = sv)) [k] = [] := by
        have : ¬ ((k : Int) = sv) := fun hc => he hc.symm
        simp [this]
      rw [hnone, List.append_nil]

/-- Shape and synchronization invariant maintained by the
state-management calls: states are keyed 0..k-1 in order and described
by f, the next id is k, the recorded start id is in range once a state
exists (-1 before), and the accepting set is sorted, in range, and
agrees with the accepting flags. -/
structure CoreInv (st : StateMap) (acc : ISet) (sv ni : Int) (k : Nat)
    (f : Nat → State) : Prop where
  shape : st = (List.range k).map (fun (i : Nat) => ((i : Int), f i))
  nsid : ni = (k : Int)
  start_lt : 1 ≤ k → 0 ≤ sv ∧ sv < (k : Int)
  start0 : k = 0 → sv = -1
  accFlag : ∀ i, i < k → (f i).isAccepting = decide ((i : Int) ∈ acc)
  accSorted : acc.Pairwise (· < ·)
  accRange : ∀ x ∈ acc, 0 ≤ x ∧ x < (k : Int)

/-- The start flags agree with the recorded start id. -/
def startFlagOk (k : Nat) (f : Nat → State) (sv : Int) : Prop :=
  ∀ i, i < k → (f i).isStart = decide ((i : Int) = sv)

theorem shape_ne_nil (k : Nat) (f : Nat → State) (hk : 1 ≤ k) :
    ((List.range k).map (fun (i : Nat) => ((i : Int), f i))) ≠ [] := by
  simp only [ne_eq, List.map_eq_nil_iff, List.range_eq_nil]
  omega

theorem shape_emplace (k : Nat) (f : Nat → State) (v : State) :
    StateMap.emplace ((List.range k).map (fun (i : Nat) => ((i : Int), f i))) (k : Int) v =
      (List.range (k + 1)).map
        (fun (i : Nat) => ((i : Int), if i < k then f i else v)) := by
  rw [emplace_of_lt]
  · rw [List.range_succ, List.map_append]
    congr 1
    · refine List.map_congr_left ?_
      intro i hi
      simp only [List.mem_range] at hi
      simp [hi]
    · simp
  · intro p hp
    obtain ⟨i, hi, rfl⟩ := List.mem_map.1 hp
    simp only [List.mem_range] at hi
    simp
    omega

/-- Effect of the addState body on the invariant. -/
theorem core_add (st : StateMap) (acc : ISet) (sv ni : Int) (k : Nat) (f : Nat → State)
    (hinv : CoreInv st acc sv ni k f) (label : List Int) (b : Bool) :
    ∃ f', CoreInv (st.emplace ni (State.mk' ni label b (decide (st = []))))
        (if b then acc.insert ni else acc)
        (if (st.emplace ni (State.mk' ni label b (decide (st = [])))).length = 1 then ni else sv)
        (ni + 1) (k + 1) f' ∧
      (startFlagOk k f sv →
        startFlagOk (k + 1) f'
          (if (st.emplace ni (State.mk' ni label b (decide (st = [])))).length = 1 then ni
           else sv)) ∧
      (if (st.emplace ni (State.mk' ni label b (decide (st = [])))).length = 1 then ni
       else sv) = (if k = 0 then 0 else sv) := by
  obtain ⟨hshape, hnsid, hlt, h0, haf, hsort, hrange⟩ := hinv
  subst hshape hnsid
  have hempty : (decide ((((List.range k).map (fun (i : Nat) => ((i : Int), f i)))) = [])) =
      decide (k = 0) := by
    rcases Nat.eq_zero_or_pos k with rfl | hk
    · simp
    · rw [decide_eq_false (shape_ne_nil k f hk), decide_eq_false (by omega)]
  rw [hempty, shape_emplace]
  have hlen : ((List.range (k + 1)).map
      (fun (i : Nat) => ((i : Int), if i < k then f i else State.mk' (k : Int) label b (decide (k = 0))))).length = k + 1 := by
    simp
  rw [hlen]
  have hcond : (k + 1 = 1) ↔ (k = 0) := by omega
  refine ⟨fun i => if i < k then f i else State.mk' (k : Int) label b (decide (k = 0)),
    ⟨rfl, by push_cast; ring, ?_, fun h => absurd h (by omega), ?_, ?_, ?_⟩, ?_, ?_⟩
  · intro _
    rcases Nat.eq_zero_or_pos k with rfl | hk
    · simp
    · rw [if_neg (by omega)]
      have := hlt hk
      constructor
      · omega
      · push_cast
        omega
  · intro i hi
    show (if i < k then f i else State.mk' (k : Int) label b (decide (k = 0))).isAccepting =
      decide ((i : Int) ∈ (if b = true then acc.insert (k : Int) else acc))
    by_cases hik : i < k
    · rw [if_pos hik, haf i hik]
      by_cases hb : b
      · subst hb
        simp only [if_true, decide_eq_decide, iset_mem_insert]
        have hne : ¬ ((i : Int) = (k : Int)) := by omega
        tauto
      · simp only [Bool.not_eq_true] at hb
        subst hb
        simp
    · have hik' : i = k := by omega
      subst hik'
      rw [if_neg (by omega)]
      by_cases hb : b
      · subst hb
        simp [State.mk', iset_mem_insert]
      · simp only [Bool.not_eq_true] at hb
        subst hb
        simp only [if_false, State.mk']
        symm
        rw [decide_eq_false_iff_not]
        intro hc
        have := hrange _ hc
        omega
  · by_cases hb : b
    · simp only [if_pos hb]
      exact iset_insert_pairwise _ _ hsort
    · simpa [hb] using hsort
  · intro x hx
    by_cases hb : b
    · simp only [if_pos hb] at hx
      rcases (iset_mem_insert _ _ _).1 hx with rfl | hx
      · constructor <;> push_cast <;> omega
      · have := hrange x hx
        push_cast
        omega
    · simp only [if_neg hb] at hx
      have := hrange x hx
      push_cast
      omega
  · intro hflag i hi
    show (if i < k then f i else State.mk' (k : Int) label b (decide (k = 0))).isStart =
      decide ((i : Int) = if k + 1 = 1 then (k : Int) else sv)
    by_cases hjk : i < k
    · have hk : 1 ≤ k := by omega
      rw [if_pos hjk, if_neg (by omega : ¬ k + 1 = 1), hflag i hjk]
    · have hjk' : i = k := by omega
      subst hjk'
      rw [if_neg (by omega : ¬ i < i)]
      rcases Nat.eq_zero_or_pos i with rfl | hk
      · simp [State.mk']
      · rw [if_neg (by omega : ¬ i + 1 = 1)]
        have := hlt hk
        simp only [State.mk']
        rw [decide_eq_false (by omega : ¬ i = 0)]
        symm
        rw [decide_eq_false_iff_not]
        omega
  · rcases Nat.eq_zero_or_pos k with rfl | hk
    · simp
    · rw [if_neg (by omega : ¬ k + 1 = 1), if_neg (by omega : ¬ k = 0)]

/-- Effect of the clearing setStartState body (NFA and DFA) on the
invariant: clear the old start flag, set the new one. -/
theorem core_setStart (st : StateMap) (acc : ISet) (sv ni : Int) (k : Nat) (f : Nat → State)
    (hinv : CoreInv st acc sv ni k f) (id : Int) (h0 : 0 ≤ id) (h1 : id < (k : Int)) :
    ∃ f', CoreInv ((st.modify sv (fun s => { s with isStart := false })).modify id
        (fun s => { s with isStart := true })) acc id ni k f' ∧
      (startFlagOk k f sv → startFlagOk k f' id) := by
  obtain ⟨hshape, hnsid, hlt, hst0, haf, hsort, hrange⟩ := hinv
  subst hshape
  rw [modify_shape, modify_shape]
  refine ⟨_, ⟨rfl, hnsid, fun _ => ⟨h0, h1⟩, fun h => absurd h (by omega), ?_, hsort, hrange⟩, ?_⟩
  · intro i hi
    dsimp only
    by_cases hid : (i : Int) = id
    · rw [if_pos hid]
      by_cases hsv : (i : Int) = sv
      · rw [if_pos hsv]
        exact haf i hi
      · rw [if_neg hsv]
        exact haf i hi
    · rw [if_neg hid]
      by_cases hsv : (i : Int) = sv
      · rw [if_pos hsv]
        exact haf i hi
      · rw [if_neg hsv]
        exact haf i hi
  · intro hflag i hi
    dsimp only
    by_cases hid : (i : Int) = id
    · rw [if_pos hid, decide_eq_true hid]
    · rw [if_neg hid, decide_eq_false hid]
      by_cases hsv : (i : Int) = sv
      · rw [if_pos hsv]
      · rw [if_neg hsv, hflag i hi, decide_eq_false hsv]

/-- Effect of the PDA setStartState body: set the new flag without
clearing the previous one. -/
theorem core_setStartNoClear (st : StateMap) (acc : ISet) (sv ni : Int) (k : Nat)
    (f : Nat → State) (hinv : CoreInv st acc sv ni k f) (id : Int)
    (h0 : 0 ≤ id) (h1 : id < (k : Int)) :
    ∃ f', CoreInv (st.modify id (fun s => { s with isStart := true })) acc id ni k f' := by
  obtain ⟨hshape, hnsid, hlt, hst0, haf, hsort, hrange⟩ := hinv
  subst hshape
  rw [modify_shape]
  refine ⟨_, ⟨rfl, hnsid, fun _ => ⟨h0, h1⟩, fun h => absurd h (by omega), ?_, hsort, hrange⟩⟩
  intro i hi
  dsimp only
  by_cases hid : (i : Int) = id
  · rw [if_pos hid]
    exact haf i hi
  · rw [if_neg hid]
    exact haf i hi

/-- Effect of the setAcceptingState body on the invariant. -/
theorem core_setAcc (st : StateMap) (acc : ISet) (sv ni : Int) (k : Nat) (f : Nat → State)
    (hinv : CoreInv st acc sv ni k f) (id : Int) (b : Bool)
    (h0 : 0 ≤ id) (h1 : id < (k : Int)) :
    ∃ f', CoreInv (st.modify id (fun s => { s with isAccepting := b }))
        (if b then acc.insert id else acc.erase id) sv ni k f' ∧
      (startFlagOk k f sv → startFlagOk k f' sv) := by
  obtain ⟨hshape, hnsid, hlt, hst0, haf, hsort, hrange⟩ := hinv
  subst hshape
  rw [modify_shape]
  refine ⟨_, ⟨rfl, hnsid, hlt, hst0, ?_, ?_, ?_⟩, ?_⟩
  · intro i hi
    dsimp only
    by_cases hid : (i : Int) = id
    · rw [if_pos hid]
      by_cases hb : b
      · subst hb
        rw [if_pos rfl]
        symm
        rw [decide_eq_true_eq, iset_mem_insert]
        exact Or.inl hid
      · simp only [Bool.not_eq_true] at hb
        subst hb
        rw [if_neg (by simp)]
        symm
        rw [decide_eq_false_iff_not, iset_mem_erase _ _ _ hsort]
        rintro ⟨-, hne⟩
        exact hne hid
    · rw [if_neg hid, haf i hi]
      by_cases hb : b
      · subst hb
        rw [if_pos rfl]
        simp only [decide_eq_decide, iset_mem_insert]
        constructor
        · exact Or.inr
        · rintro (he | h)
          · exact absurd he hid
          · exact h
      · simp only [Bool.not_eq_true] at hb
        subst hb
        rw [if_neg (by simp)]
        simp only [decide_eq_decide, iset_mem_erase _ _ _ hsort]
        constructor
        · intro h
          exact ⟨h, hid⟩
        · rintro ⟨h, -⟩
          exact h
  · by_cases hb : b
    · subst hb
      rw [if_pos rfl]
      exact iset_insert_pairwise _ _ hsort
    · simp only [Bool.not_eq_true] at hb
      subst hb
      rw [if_neg (by simp)]
      exact iset_erase_pairwise _ _ hsort
  · intro x hx
    by_cases hb : b
    · subst hb
      rw [if_pos rfl] at hx
      rcases (iset_mem_insert _ _ _).1 hx with rfl | hx
      · exact ⟨h0, h1⟩
      · exact hrange x hx
    · simp only [Bool.not_eq_true] at hb
      subst hb
      rw [if_neg (by simp)] at hx
      exact hrange x ((iset_mem_erase _ _ _ hsort).1 hx).1
  · intro hflag i hi
    dsimp only
    by_cases hid : (i : Int) = id
    · rw [if_pos hid]
      exact hflag i hi
    · rw [if_neg hid]
      exact hflag i hi

/-- Number of states after a call sequence, counting from k. -/
def specK : List BuildOp → Nat → Nat
  | [], k => k
  | .add _ _ :: rest, k => specK rest (k + 1)
  | _ :: rest, k => specK rest k

/-- Recorded start id after a call sequence, tracking the source
semantics: the first added state becomes the start, every
setStartState overrides. -/
def specStart : List BuildOp → Nat → Int → Int
  | [], _, sv => sv
  | .add _ _ :: rest, k, sv => specStart rest (k + 1) (if k = 0 then 0 else sv)
  | .setStart id :: rest, k, sv => specStart rest k id
  | .setAcc _ _ :: rest, k, sv => specStart rest k sv

theorem specK_eq (ops : List BuildOp) : ∀ k, specK ops k = k + numAdds ops := by
  induction ops with
  | nil => intro k; simp [specK, numAdds]
  | cons op rest ih =>
    intro k
    cases op with
    | add label b => simp only [specK, numAdds, ih]; omega
    | setStart id => simp only [specK, numAdds, ih]
    | setAcc id b => simp only [specK, numAdds, ih]

theorem lastAux_some (ops : List BuildOp) :
    ∀ (a sv : Int), (ops.foldl lastStep (some a)).getD sv = (ops.foldl lastStep none).getD a := by
  induction ops with
  | nil => intro a sv; rfl
  | cons op rest ih =>
    intro a sv
    cases op with
    | add label b => simp only [List.foldl_cons, lastStep, ih]
    | setStart id =>
      simp only [List.foldl_cons, lastStep]
      rw [ih id sv, ih id a]
    | setAcc id b => simp only [List.foldl_cons, lastStep, ih]

theorem specStart_pos (ops : List BuildOp) :
    ∀ (k : Nat) (sv : Int), 1 ≤ k →
      specStart ops k sv = (ops.foldl lastStep none).getD sv := by
  induction ops with
  | nil => intro k sv _; rfl
  | cons op rest ih =>
    intro k sv hk
    cases op with
    | add label b =>
      simp only [specStart, List.foldl_cons, lastStep]
      rw [if_neg (by omega : ¬ k = 0)]
      exact ih (k + 1) sv (by omega)
    | setStart id =>
      simp only [specStart, List.foldl_cons, lastStep]
      rw [ih k id hk, lastAux_some]
    | setAcc id b =>
      simp only [specStart, List.foldl_cons, lastStep]
      exact ih k sv hk

theorem specStart_zero (ops : List BuildOp) (hv : validOps ops 0 = true)
    (hadd : 1 ≤ numAdds ops) : specStart ops 0 (-1) = expectedStart ops := by
  cases ops with
  | nil => simp [numAdds] at hadd
  | cons op rest =>
    cases op with
    | add label b =>
      have h1 : specStart (BuildOp.add label b :: rest) 0 (-1) = specStart rest 1 0 := by
        simp [specStart]
      rw [h1, specStart_pos rest 1 0 (by omega)]
      rfl
    | setStart id =>
      simp only [validOps, decide_eq_true_eq] at hv
      omega
    | setAcc id b =>
      simp only [validOps, decide_eq_true_eq] at hv
      omega

theorem inv_flagged (st : StateMap) (acc : ISet) (sv ni : Int) (k : Nat) (f : Nat → State)
    (hinv : CoreInv st acc sv ni k f) (hflag : startFlagOk k f sv) (hk : 1 ≤ k) :
    startFlaggedIds st = [sv] := by
  obtain ⟨hshape, -, hlt, -, -, -, -⟩ := hinv
  subst hshape
  rw [startFlaggedIds, List.filter_map, List.map_map]
  have hpred : ((List.range k).filter
      (fun i => ((fun p : Int × State => p.2.isStart) ∘ (fun (i : Nat) => ((i : Int), f i))) i)) =
      (List.range k).filter (fun (i : Nat) => decide ((i : Int) = sv)) := by
    apply List.filter_congr
    intro i hi
    simp only [List.mem_range] at hi
    simp only [Function.comp]
    rw [hflag i hi]
  rw [hpred, filter_range_single k sv (hlt hk).1 (hlt hk).2]
  simp only [List.map_cons, List.map_nil, Function.comp]
  rw [Int.toNat_of_nonneg (hlt hk).1]

theorem inv_accSet (st : StateMap) (acc : ISet) (sv ni : Int) (k : Nat) (f : Nat → State)
    (hinv : CoreInv st acc sv ni k f) : acc = accFlaggedIds st := by
  obtain ⟨hshape, -, -, -, haf, hsort, hrange⟩ := hinv
  subst hshape
  rw [accFlaggedIds, List.filter_map, List.map_map]
  have hs2 : (((List.range k).filter
      (fun i => ((fun p : Int × State => p.2.isAccepting) ∘ (fun (i : Nat) => ((i : Int), f i))) i)).map
        ((fun p : Int × State => p.1) ∘ (fun (i : Nat) => ((i : Int), f i)))).Pairwise (· < ·) := by
    refine List.Pairwise.map _ ?_ ((List.pairwise_lt_range k).sublist (List.filter_sublist _))
    intro a b hab
    simp only [Function.comp]
    exact_mod_cast hab
  refine List.eq_of_perm_of_sorted
    ((List.perm_ext_iff_of_nodup (List.Pairwise.nodup hsort) (List.Pairwise.nodup hs2)).2 ?_)
    hsort hs2
  intro x
  constructor
  · intro hx
    have := hrange x hx
    refine List.mem_map.2 ⟨x.toNat, ?_, by simp [Function.comp]; omega⟩
    refine List.mem_filter.2 ⟨List.mem_range.2 (by omega), ?_⟩
    simp only [Function.comp]
    rw [haf x.toNat (by omega)]
    simp only [decide_eq_true_eq]
    rwa [Int.toNat_of_nonneg this.1]
  · intro hx
    obtain ⟨i, hi, rfl⟩ := List.mem_map.1 hx
    have hmem := List.mem_filter.1 hi
    have hir := List.mem_range.1 hmem.1
    have := hmem.2
    simp only [Function.comp] at this ⊢
    rw [haf i hir] at this
    simpa using this

theorem nfa_applyOp_add (n : NFA) (label : List Int) (b : Bool) :
    NFA.applyOp n (.add label b) =
      { states := n.states.emplace n.nextStateId
          (State.mk' n.nextStateId label b (decide (n.states = []))),
        transitions := n.transitions,
        startState := if (n.states.emplace n.nextStateId
            (State.mk' n.nextStateId label b (decide (n.states = [])))).length = 1
          then n.nextStateId else n.startState,
        acceptingStates := if b then n.acceptingStates.insert n.nextStateId
          else n.acceptingStates,
        nextStateId := n.nextStateId + 1 } := rfl

theorem nfa_applyOp_setStart (n : NFA) (id : Int)
    (hk : n.states.hasKey id = true)
    (h0 : n.startState ≥ 0) (hs : n.states.hasKey n.startState = true) :
    NFA.applyOp n (.setStart id) =
      { n with
        states := (n.states.modify n.startState (fun s => { s with isStart := false })).modify
          id (fun s => { s with isStart := true }),
        startState := id } := by
  simp [NFA.applyOp, NFA.setStartState, hk, h0, hs, okOr]

theorem nfa_applyOp_setAcc (n : NFA) (id : Int) (b : Bool)
    (hk : n.states.hasKey id = true) :
    NFA.applyOp n (.setAcc id b) =
      { n with
        states := n.states.modify id (fun s => { s with isAccepting := b }),
        acceptingStates := if b then n.acceptingStates.insert id
          else n.acceptingStates.erase id } := by
  simp [NFA.applyOp, NFA.setAcceptingState, hk, okOr]

theorem dfa_applyOp_add (d : DFA) (label : List Int) (b : Bool) :
    DFA.applyOp d (.add label b) =
      { d with
        states := d.states.emplace d.nextStateId
          (State.mk' d.nextStateId label b (decide (d.states = []))),
        startState := if (d.states.emplace d.nextStateId
            (State.mk' d.nextStateId label b (decide (d.states = [])))).length = 1
          then d.nextStateId else d.startState,
        acceptingStates := if b then d.acceptingStates.insert d.nextStateId
          else d.acceptingStates,
        nextStateId := d.nextStateId + 1 } := rfl

theorem dfa_applyOp_setStart (d : DFA) (id : Int)
    (hk : d.states.hasKey id = true)
    (h0 : d.startState ≥ 0) (hs : d.states.hasKey d.startState = true) :
    DFA.applyOp d (.setStart id) =
      { d with
        states := (d.states.modify d.startState (fun s => { s with isStart := false })).modify
          id (fun s => { s with isStart := true }),
        startState := id } := by
  simp [DFA.applyOp, DFA.setStartState, hk, h0, hs, okOr]

theorem dfa_applyOp_setAcc (d : DFA) (id : Int) (b : Bool)
    (hk : d.states.hasKey id = true) :
    DFA.applyOp d (.setAcc id b) =
      { d with
        states := d.states.modify id (fun s => { s with isAccepting := b }),
        acceptingStates := if b then d.acceptingStates.insert id
          else d.acceptingStates.erase id } := by
  simp [DFA.applyOp, DFA.setAcceptingState, hk, okOr]

theorem pda_applyOp_add (p : PDA) (label : List Int) (b : Bool) :
    PDA.applyOp p (.add label b) =
      { p with
        states := p.states.emplace p.nextStateId
          (State.mk' p.nextStateId label b (decide (p.states = []))),
        startState := if (p.states.emplace p.nextStateId
            (State.mk' p.nextStateId label b (decide (p.states = [])))).length = 1
          then p.nextStateId else p.startState,
        acceptingStates := if b then p.acceptingStates.insert p.nextStateId
          else p.acceptingStates,
        nextStateId := p.nextStateId + 1 } := rfl

theorem pda_applyOp_setStart (p : PDA) (id : Int)
    (hk : p.states.hasKey id = true) :
    PDA.applyOp p (.setStart id) =
      { p with
        states := p.states.modify id (fun s => { s with isStart := true }),
        startState := id } := by
  simp [PDA.applyOp, PDA.setStartState, hk, okOr]

theorem pda_applyOp_setAcc (p : PDA) (id : Int) (b : Bool)
    (hk : p.states.hasKey id = true) :
    PDA.applyOp p (.setAcc id b) =
      { p with
        states := p.states.modify id (fun s => { s with isAccepting := b }),
        acceptingStates := if b then p.acceptingStates.insert id
          else p.acceptingStates.erase id } := by
  simp [PDA.applyOp, PDA.setAcceptingState, hk, okOr]

theorem nfa_build_go (ops : List BuildOp) :
    ∀ (n : NFA) (k : Nat) (f : Nat → State),
      CoreInv n.states n.acceptingStates n.startState n.nextStateId k f →
      startFlagOk k f n.startState →
      validOps ops k = true →
      ∃ f', CoreInv (ops.foldl NFA.applyOp n).states (ops.foldl NFA.applyOp n).acceptingStates
          (ops.foldl NFA.applyOp n).startState (ops.foldl NFA.applyOp n).nextStateId
          (specK ops k) f' ∧
        startFlagOk (specK ops k) f' (ops.foldl NFA.applyOp n).startState ∧
        (ops.foldl NFA.applyOp n).startState = specStart ops k n.startState := by
  induction ops with
  | nil =>
    intro n k f hinv hflag _
    exact ⟨f, hinv, hflag, rfl⟩
  | cons op rest ih =>
    intro n k f hinv hflag hv
    cases op with
    | add label b =>
      rw [List.foldl_cons, nfa_applyOp_add]
      simp only [validOps] at hv
      obtain ⟨f', hinv', hflagP, hsv⟩ :=
        core_add n.states n.acceptingStates n.startState n.nextStateId k f hinv label b
      obtain ⟨f2, hinv2, hflag2, hsv2⟩ :=
        ih ⟨n.states.emplace n.nextStateId
              (State.mk' n.nextStateId label b (decide (n.states = []))),
            n.transitions,
            (if (n.states.emplace n.nextStateId
                (State.mk' n.nextStateId label b (decide (n.states = [])))).length = 1
             then n.nextStateId else n.startState),
            (if b then n.acceptingStates.insert n.nextStateId else n.acceptingStates),
            n.nextStateId + 1⟩ (k + 1) f' hinv' (hflagP hflag) hv
      refine ⟨f2, by simpa [specK] using hinv2, by simpa [specK] using hflag2, ?_⟩
      rw [hsv2]
      have e : (if (n.states.emplace n.nextStateId
          (State.mk' n.nextStateId label b (decide (n.states = [])))).length = 1
          then n.nextStateId else n.startState) = (if k = 0 then 0 else n.startState) := hsv
      simp only [specStart]
      rw [← e]
    | setStart id =>
      simp only [validOps, decide_eq_true_eq] at hv
      obtain ⟨⟨hid0, hid1⟩, hv⟩ := hv
      have hk1 : 1 ≤ k := by omega
      have hkKey : n.states.hasKey id = true := by
        rw [hinv.shape, hasKey_shape]
        exact decide_eq_true ⟨hid0, hid1⟩
      have hsKey : n.states.hasKey n.startState = true := by
        rw [hinv.shape, hasKey_shape]
        exact decide_eq_true (hinv.start_lt hk1)
      have hge : n.startState ≥ 0 := (hinv.start_lt hk1).1
      rw [List.foldl_cons, nfa_applyOp_setStart n id hkKey hge hsKey]
      obtain ⟨f', hinv', hflagP⟩ :=
        core_setStart n.states n.acceptingStates n.startState n.nextStateId k f hinv id hid0 hid1
      obtain ⟨f2, hinv2, hflag2, hsv2⟩ :=
        ih ⟨(n.states.modify n.startState (fun s => { s with isStart := false })).modify
              id (fun s => { s with isStart := true }),
            n.transitions, id, n.acceptingStates, n.nextStateId⟩ k f' hinv' (hflagP hflag) hv
      refine ⟨f2, hinv2, hflag2, ?_⟩
      rw [hsv2]
      simp only [specStart]
    | setAcc id b =>
      simp only [validOps, decide_eq_true_eq] at hv
      obtain ⟨⟨hid0, hid1⟩, hv⟩ := hv
      have hkKey : n.states.hasKey id = true := by
        rw [hinv.shape, hasKey_shape]
        exact decide_eq_true ⟨hid0, hid1⟩
      rw [List.foldl_cons, nfa_applyOp_setAcc n id b hkKey]
      obtain ⟨f', hinv', hflagP⟩ :=
        core_setAcc n.states n.acceptingStates n.startState n.nextStateId k f hinv id b hid0 hid1
      obtain ⟨f2, hinv2, hflag2, hsv2⟩ :=
        ih ⟨n.states.modify id (fun s => { s with isAccepting := b }),
            n.transitions, n.startState,
            (if b then n.acceptingStates.insert id else n.acceptingStates.erase id),
            n.nextStateId⟩ k f' hinv' (hflagP hflag) hv
      refine ⟨f2, hinv2, hflag2, ?_⟩
      rw [hsv2]
      simp only [specStart]

theorem dfa_build_go (ops : List BuildOp) :
    ∀ (d : DFA) (k : Nat) (f : Nat → State),
      CoreInv d.states d.acceptingStates d.startState d.nextStateId k f →
      startFlagOk k f d.startState →
      validOps ops k = true →
      ∃ f', CoreInv (ops.foldl DFA.applyOp d).states (ops.foldl DFA.applyOp d).acceptingStates
          (ops.foldl DFA.applyOp d).startState (ops.foldl DFA.applyOp d).nextStateId
          (specK ops k) f' ∧
        startFlagOk (specK ops k) f' (ops.foldl DFA.applyOp d).startState ∧
        (ops.foldl DFA.applyOp d).startState = specStart ops k d.startState := by
  induction ops with
  | nil =>
    intro d k f hinv hflag _
    exact ⟨f, hinv, hflag, rfl⟩
  | cons op rest ih =>
    intro d k f hinv hflag hv
    cases op with
    | add label b =>
      rw [List.foldl_cons, dfa_applyOp_add]
      simp only [validOps] at hv
      obtain ⟨f', hinv', hflagP, hsv⟩ :=
        core_add d.states d.acceptingStates d.startState d.nextStateId k f hinv label b
      obtain ⟨f2, hinv2, hflag2, hsv2⟩ :=
        ih ⟨d.states.emplace d.nextStateId
              (State.mk' d.nextStateId label b (decide (d.states = []))),
            d.transitions, d.transitionTable,
            (if (d.states.emplace d.nextStateId
                (State.mk' d.nextStateId label b (decide (d.states = [])))).length = 1
             then d.nextStateId else d.startState),
            (if b then d.acceptingStates.insert d.nextStateId else d.acceptingStates),
            d.nextStateId + 1, d.alphabet⟩ (k + 1) f' hinv' (hflagP hflag) hv
      refine ⟨f2, by simpa [specK] using hinv2, by simpa [specK] using hflag2, ?_⟩
      rw [hsv2]
      have e : (if (d.states.emplace d.nextStateId
          (State.mk' d.nextStateId label b (decide (d.states = [])))).length = 1
          then d.nextStateId else d.startState) = (if k = 0 then 0 else d.startState) := hsv
      simp only [specStart]
      rw [← e]
    | setStart id =>
      simp only [validOps, decide_eq_true_eq] at hv
      obtain ⟨⟨hid0, hid1⟩, hv⟩ := hv
      have hk1 : 1 ≤ k := by omega
      have hkKey : d.states.hasKey id = true := by
        rw [hinv.shape, hasKey_shape]
        exact decide_eq_true ⟨hid0, hid1⟩
      have hsKey : d.states.hasKey d.startState = true := by
        rw [hinv.shape, hasKey_shape]
        exact decide_eq_true (hinv.start_lt hk1)
      have hge : d.startState ≥ 0 := (hinv.start_lt hk1).1
      rw [List.foldl_cons, dfa_applyOp_setStart d id hkKey hge hsKey]
      obtain ⟨f', hinv', hflagP⟩ :=
        core_setStart d.states d.acceptingStates d.startState d.nextStateId k f hinv id hid0 hid1
      obtain ⟨f2, hinv2, hflag2, hsv2⟩ :=
        ih ⟨(d.states.modify d.startState (fun s => { s with isStart := false })).modify
              id (fun s => { s with isStart := true }),
            d.transitions, d.transitionTable, id, d.acceptingStates,
            d.nextStateId, d.alphabet⟩ k f' hinv' (hflagP hflag) hv
      refine ⟨f2, hinv2, hflag2, ?_⟩
      rw [hsv2]
      simp only [specStart]
    | setAcc id b =>
      simp only [validOps, decide_eq_true_eq] at hv
      obtain ⟨⟨hid0, hid1⟩, hv⟩ := hv
      have hkKey : d.states.hasKey id = true := by
        rw [hinv.shape, hasKey_shape]
        exact decide_eq_true ⟨hid0, hid1⟩
      rw [List.foldl_cons, dfa_applyOp_setAcc d id b hkKey]
      obtain ⟨f', hinv', hflagP⟩ :=
        core_setAcc d.states d.acceptingStates d.startState d.nextStateId k f hinv id b hid0 hid1
      obtain ⟨f2, hinv2, hflag2, hsv2⟩ :=
        ih ⟨d.states.modify id (fun s => { s with isAccepting := b }),
            d.transitions, d.transitionTable, d.startState,
            (if b then d.acceptingStates.insert id else d.acceptingStates.erase id),
            d.nextStateId, d.alphabet⟩ k f' hinv' (hflagP hflag) hv
      refine ⟨f2, hinv2, hflag2, ?_⟩
      rw [hsv2]
      simp only [specStart]

theorem pda_build_go (ops : List BuildOp) :
    ∀ (p : PDA) (k : Nat) (f : Nat → State),
      CoreInv p.states p.acceptingStates p.startState p.nextStateId k f →
      validOps ops k = true →
      ∃ f', CoreInv (ops.foldl PDA.applyOp p).states (ops.foldl PDA.applyOp p).acceptingStates
          (ops.foldl PDA.applyOp p).startState (ops.foldl PDA.applyOp p).nextStateId
          (specK ops k) f' ∧
        (ops.foldl PDA.applyOp p).startState = specStart ops k p.startState := by
  induction ops with
  | nil =>
    intro p k f hinv _
    exact ⟨f, hinv, rfl⟩
  | cons op rest ih =>
    intro p k f hinv hv
    cases op with
    | add label b =>
      rw [List.foldl_cons, pda_applyOp_add]
      simp only [validOps] at hv
      obtain ⟨f', hinv', hflagP, hsv⟩ :=
        core_add p.states p.acceptingStates p.startState p.nextStateId k f hinv label b
      obtain ⟨f2, hinv2, hsv2⟩ :=
        ih ⟨p.states.emplace p.nextStateId
              (State.mk' p.nextStateId label b (decide (p.states = []))),
            p.transitions,
            (if (p.states.emplace p.nextStateId
                (State.mk' p.nextStateId label b (decide (p.states = [])))).length = 1
             then p.nextStateId else p.startState),
            (if b then p.acceptingStates.insert p.nextStateId else p.acceptingStates),
            p.nextStateId + 1, p.initialStackSymbol⟩ (k + 1) f' hinv' hv
      refine ⟨f2, by simpa [specK] using hinv2, ?_⟩
      rw [hsv2]
      have e : (if (p.states.emplace p.nextStateId
          (State.mk' p.nextStateId label b (decide (p.states = [])))).length = 1
          then p.nextStateId else p.startState) = (if k = 0 then 0 else p.startState) := hsv
      simp only [specStart]
      rw [← e]
    | setStart id =>
      simp only [validOps, decide_eq_true_eq] at hv
      obtain ⟨⟨hid0, hid1⟩, hv⟩ := hv
      have hkKey : p.states.hasKey id = true := by
        rw [hinv.shape, hasKey_shape]
        exact decide_eq_true ⟨hid0, hid1⟩
      rw [List.foldl_cons, pda_applyOp_setStart p id hkKey]
      obtain ⟨f', hinv'⟩ :=
        core_setStartNoClear p.states p.acceptingStates p.startState p.nextStateId k f hinv id hid0 hid1
      obtain ⟨f2, hinv2, hsv2⟩ :=
        ih ⟨p.states.modify id (fun s => { s with isStart := true }),
            p.transitions, id, p.acceptingStates, p.nextStateId,
            p.initialStackSymbol⟩ k f' hinv' hv
      refine ⟨f2, hinv2, ?_⟩
      rw [hsv2]
      simp only [specStart]
    | setAcc id b =>
      simp only [validOps, decide_eq_true_eq] at hv
      obtain ⟨⟨hid0, hid1⟩, hv⟩ := hv
      have hkKey : p.states.hasKey id = true := by
        rw [hinv.shape, hasKey_shape]
        exact decide_eq_true ⟨hid0, hid1⟩
      rw [List.foldl_cons, pda_applyOp_setAcc p id b hkKey]
      obtain ⟨f', hinv', hflagP⟩ :=
        core_setAcc p.states p.acceptingStates p.startState p.nextStateId k f hinv id b hid0 hid1
      obtain ⟨f2, hinv2, hsv2⟩ :=
        ih ⟨p.states.modify id (fun s => { s with isAccepting := b }),
            p.transitions, p.startState,
            (if b then p.acceptingStates.insert id else p.acceptingStates.erase id),
            p.nextStateId, p.initialStackSymbol⟩ k f' hinv' hv
      refine ⟨f2, hinv2, ?_⟩
      rw [hsv2]
      simp only [specStart]


theorem coreInv_init : CoreInv ([] : StateMap) ([] : ISet) (-1) 0 0
    (fun _ => State.mk' 0 [] false false) := by
  refine ⟨rfl, rfl, ?_, ?_, ?_, ?_, ?_⟩
  · intro h; omega
  · intro _; rfl
  · intro i hi; omega
  · exact List.Pairwise.nil
  · intro x hx; exact absurd hx (List.not_mem_nil x)

theorem startFlagOk_init :
    startFlagOk 0 (fun _ => State.mk' 0 [] false false) (-1) := by
  intro i hi; omega

/-- C6 counterexample: a valid call sequence after which the PDA stores
two states with the start flag set; PDA::setStartState never clears the
previous start flag, so "exactly one state has its start flag set" fails
for the PDA. -/
theorem pdaStartFlagNotUnique_counterexample :
    validOps [BuildOp.add [] false, BuildOp.add [] false, BuildOp.setStart 1] 0 = true ∧
    1 ≤ numAdds [BuildOp.add [] false, BuildOp.add [] false, BuildOp.setStart 1] ∧
    startFlaggedIds (PDA.build
      [BuildOp.add [] false, BuildOp.add [] false, BuildOp.setStart 1]).states = [0, 1] := by
  decide

/-- C6 (amended): for every valid call sequence with at least one
addState, the NFA and DFA store exactly one state with the start flag
set, namely the target of the most recent setStartState call (or the
first added state, id 0, if none), the recorded start id agrees with it,
and the accepting-state set equals the set of ids whose stored state has
the accepting flag; the PDA satisfies the recorded-start-id and
accepting-set parts, but not the unique-start-flag part. -/
theorem startAndAcceptingInvariant (ops : List BuildOp)
    (hv : validOps ops 0 = true) (hadd : 1 ≤ numAdds ops) :
    startFlaggedIds (NFA.build ops).states = [expectedStart ops] ∧
    (NFA.build ops).startState = expectedStart ops ∧
    (NFA.build ops).acceptingStates = accFlaggedIds (NFA.build ops).states ∧
    startFlaggedIds (DFA.build ops).states = [expectedStart ops] ∧
    (DFA.build ops).startState = expectedStart ops ∧
    (DFA.build ops).acceptingStates = accFlaggedIds (DFA.build ops).states ∧
    (PDA.build ops).startState = expectedStart ops ∧
    (PDA.build ops).acceptingStates = accFlaggedIds (PDA.build ops).states := by
  have hk1 : 1 ≤ specK ops 0 := by rw [specK_eq]; omega
  have hexp : specStart ops 0 (-1) = expectedStart ops := specStart_zero ops hv hadd
  have hinitN : CoreInv NFA.empty.states NFA.empty.acceptingStates NFA.empty.startState
      NFA.empty.nextStateId 0 (fun _ => State.mk' 0 [] false false) := coreInv_init
  have hflagN : startFlagOk 0 (fun _ => State.mk' 0 [] false false) NFA.empty.startState :=
    startFlagOk_init
  obtain ⟨fN, hinvN, hflN, hsvN⟩ := nfa_build_go ops NFA.empty 0 _ hinitN hflagN hv
  have hinitD : CoreInv DFA.empty.states DFA.empty.acceptingStates DFA.empty.startState
      DFA.empty.nextStateId 0 (fun _ => State.mk' 0 [] false false) := coreInv_init
  have hflagD : startFlagOk 0 (fun _ => State.mk' 0 [] false false) DFA.empty.startState :=
    startFlagOk_init
  obtain ⟨fD, hinvD, hflD, hsvD⟩ := dfa_build_go ops DFA.empty 0 _ hinitD hflagD hv
  have hinitP : CoreInv PDA.emptyPda.states PDA.emptyPda.acceptingStates PDA.emptyPda.startState
      PDA.emptyPda.nextStateId 0 (fun _ => State.mk' 0 [] false false) := coreInv_init
  obtain ⟨fP, hinvP, hsvP⟩ := pda_build_go ops PDA.emptyPda 0 _ hinitP hv
  have hstartN : (NFA.build ops).startState = expectedStart ops := by
    show (ops.foldl NFA.applyOp NFA.empty).startState = expectedStart ops
    rw [hsvN]
    exact hexp
  have hstartD : (DFA.build ops).startState = expectedStart ops := by
    show (ops.foldl DFA.applyOp DFA.empty).startState = expectedStart ops
    rw [hsvD]
    exact hexp
  have hstartP : (PDA.build ops).startState = expectedStart ops := by
    show (ops.foldl PDA.applyOp PDA.emptyPda).startState = expectedStart ops
    rw [hsvP]
    exact hexp
  have hflN2 : startFlaggedIds (NFA.build ops).states = [(NFA.build ops).startState] :=
    inv_flagged _ _ _ _ _ fN hinvN hflN hk1
  have hflD2 : startFlaggedIds (DFA.build ops).states = [(DFA.build ops).startState] :=
    inv_flagged _ _ _ _ _ fD hinvD hflD hk1
  refine ⟨?_, hstartN, inv_accSet _ _ _ _ _ fN hinvN, ?_, hstartD,
    inv_accSet _ _ _ _ _ fD hinvD, hstartP, inv_accSet _ _ _ _ _ fP hinvP⟩
  · rw [hflN2, hstartN]
  · rw [hflD2, hstartD]

def opsW6 : List BuildOp :=
  [.add [] true, .add [] false, .setStart 1, .setAcc 0 false, .setAcc 1 true]

theorem startAndAcceptingInvariant_witness :
    validOps opsW6 0 = true ∧ 1 ≤ numAdds opsW6 ∧
    (startFlaggedIds (NFA.build opsW6).states = [expectedStart opsW6] ∧
     (NFA.build opsW6).startState = expectedStart opsW6 ∧
     (NFA.build opsW6).acceptingStates = accFlaggedIds (NFA.build opsW6).states ∧
     startFlaggedIds (DFA.build opsW6).states = [expectedStart opsW6] ∧
     (DFA.build opsW6).startState = expectedStart opsW6 ∧
     (DFA.build opsW6).acceptingStates = accFlaggedIds (DFA.build opsW6).states ∧
     (PDA.build opsW6).startState = expectedStart opsW6 ∧
     (PDA.build opsW6).acceptingStates = accFlaggedIds (PDA.build opsW6).states) :=
  ⟨by decide, by decide, startAndAcceptingInvariant opsW6 (by decide) (by decide)⟩

/-- The epsilon self-loop transition of the budget-exhausting PDA. -/
def selfT : PDATransition := ⟨0, 0, EPSILON, EPSILON, []⟩

/-- The epsilon transition to the accepting state of the
budget-exhausting PDA. -/
def accT : PDATransition := ⟨0, 1, EPSILON, EPSILON, []⟩

/-- Initial configuration of the budget-exhausting PDA on empty
input. -/
def c3c0 : Configuration := ⟨0, [], [STACK_EMPTY]⟩

/-- Accepting configuration of the budget-exhausting PDA. -/
def c3c1 : Configuration := ⟨1, [], [STACK_EMPTY]⟩

/-- Two states: q0 (start) and q1 (accepting). -/
def capBase : PDA := ((PDA.emptyPda.addState [] false).2.addState [] true).2

/-- A PDA with 10000 epsilon self-loops on the start state followed by
one epsilon transition to the accepting state: breadth-first search
must dequeue more than 10000 configurations before it reaches the
accepting one. -/
def capPda : PDA :=
  ((List.replicate 10000 ()).foldl
    (fun p _ => p.addTransition 0 0 EPSILON EPSILON []) capBase).addTransition
    0 1 EPSILON EPSILON []

theorem capFold (n : Nat) : ∀ (p : PDA),
    (List.replicate n ()).foldl (fun p _ => p.addTransition 0 0 EPSILON EPSILON []) p =
      { p with transitions := p.transitions ++ List.replicate n selfT } := by
  induction n with
  | zero => intro p; simp
  | succ n ih =>
    intro p
    rw [List.replicate_succ, List.foldl_cons, ih]
    simp [PDA.addTransition, selfT, List.replicate_succ, List.append_assoc]

theorem capPda_eq :
    capPda = { capBase with transitions := List.replicate 10000 selfT ++ [accT] } := by
  rw [capPda, capFold]
  rfl

theorem capStart : capPda.startState = 0 := by rw [capPda_eq]; rfl

theorem capAcc : capPda.acceptingStates = [1] := by rw [capPda_eq]; rfl

theorem capStack : capPda.initialStackSymbol = STACK_EMPTY := by rw [capPda_eq]; rfl

theorem capTrans : capPda.transitions = List.replicate 10000 selfT ++ [accT] := by
  rw [capPda_eq]

theorem fire_self : pdaFire selfT c3c0 = some c3c0 := rfl

theorem fire_acc : pdaFire accT c3c0 = some c3c1 := rfl

theorem step_fold_self (n : Nat) : ∀ (acc : List Configuration),
    (List.replicate n selfT).foldl
      (fun next t =>
        match pdaFire t c3c0 with
        | none => next
        | some c => next ++ [c]) acc = acc ++ List.replicate n c3c0 := by
  induction n with
  | zero => intro acc; simp
  | succ n ih =>
    intro acc
    simp only [List.replicate_succ, List.foldl_cons, fire_self]
    rw [ih]
    simp [List.replicate_succ, List.append_assoc]

theorem capStep : capPda.step c3c0 = List.replicate 10000 c3c0 ++ [c3c1] := by
  show capPda.transitions.foldl _ [] = _
  rw [capTrans, List.foldl_append, step_fold_self]
  simp only [List.foldl_cons, List.foldl_nil, fire_acc]
  rw [List.nil_append]

theorem push_fold {α : Type} (xs : List α) : ∀ (q : Queue α),
    xs.foldl Queue.push q = ⟨q.front, xs.reverse ++ q.back⟩ := by
  induction xs with
  | nil => intro q; rfl
  | cons x xs ih =>
    intro q
    rw [List.foldl_cons, ih]
    simp [Queue.push, List.reverse_cons, List.append_assoc]

theorem bfsFS_unrev (p : PDA) (fuel : Nat) (back visited : List Configuration) :
    pdaBfsFS p fuel ⟨[], back⟩ visited = pdaBfsFS p fuel ⟨back.reverse, []⟩ visited := by
  cases fuel with
  | zero => rfl
  | succ fuel =>
    cases hb : back.reverse with
    | nil => simp [pdaBfsFS, Queue.pop?, hb]
    | cons x f => simp [pdaBfsFS, Queue.pop?, hb]

theorem bfsFS_skip_under (p : PDA) (es : List Configuration) :
    ∀ (fuel : Nat) (rest back visited : List Configuration), fuel ≤ es.length →
      (∀ c ∈ es, c ∈ visited) →
      pdaBfsFS p fuel ⟨es ++ rest, back⟩ visited = false := by
  induction es with
  | nil =>
    intro fuel rest back visited hf _
    have h0 : fuel = 0 := Nat.le_zero.mp (by simpa using hf)
    subst h0
    rfl
  | cons e es ih =>
    intro fuel rest back visited hf hv
    cases fuel with
    | zero => rfl
    | succ fuel =>
      simp only [List.cons_append, pdaBfsFS, Queue.pop?]
      rw [if_pos (hv e (List.mem_cons_self e es))]
      exact ih fuel rest back visited (by simpa using hf)
        (fun c hc => hv c (List.mem_cons_of_mem e hc))

theorem bfsES_unrev (p : PDA) (fuel : Nat) (back visited : List Configuration) :
    pdaBfsES p fuel ⟨[], back⟩ visited = pdaBfsES p fuel ⟨back.reverse, []⟩ visited := by
  cases fuel with
  | zero => rfl
  | succ fuel =>
    cases hb : back.reverse with
    | nil => simp [pdaBfsES, Queue.pop?, hb]
    | cons x f => simp [pdaBfsES, Queue.pop?, hb]

theorem bfsES_skip_under (p : PDA) (es : List Configuration) :
    ∀ (fuel : Nat) (rest back visited : List Configuration), fuel ≤ es.length →
      (∀ c ∈ es, c ∈ visited) →
      pdaBfsES p fuel ⟨es ++ rest, back⟩ visited = false := by
  induction es with
  | nil =>
    intro fuel rest back visited hf _
    have h0 : fuel = 0 := Nat.le_zero.mp (by simpa using hf)
    subst h0
    rfl
  | cons e es ih =>
    intro fuel rest back visited hf hv
    cases fuel with
    | zero => rfl
    | succ fuel =>
      simp only [List.cons_append, pdaBfsES, Queue.pop?]
      rw [if_pos (hv e (List.mem_cons_self e es))]
      exact ih fuel rest back visited (by simpa using hf)
        (fun c hc => hv c (List.mem_cons_of_mem e hc))

theorem capBfsFirst : pdaBfsFS capPda 10000 ⟨[], [c3c0]⟩ [] =
    pdaBfsFS capPda 9999 ((capPda.step c3c0).foldl Queue.push ⟨[], []⟩) [c3c0] := by
  show pdaBfsFS capPda (9999 + 1) ⟨[], [c3c0]⟩ [] = _
  rw [pdaBfsFS]
  simp only [Queue.pop?, List.reverse_cons, List.reverse_nil, List.nil_append,
    List.not_mem_nil, if_false]
  rw [if_neg (by simp [c3c0, capAcc])]

theorem capBoolFS : PDA.acceptsByFinalState capPda [] = false := by
  rw [PDA.acceptsByFinalState, capStart, capStack]
  rw [if_neg (by norm_num)]
  show pdaBfsFS capPda 10000 ⟨[], [c3c0]⟩ [] = false
  rw [capBfsFirst, capStep, push_fold, bfsFS_unrev]
  simp only [List.append_nil, List.reverse_reverse]
  exact bfsFS_skip_under capPda (List.replicate 10000 c3c0) 9999 [c3c1] [] [c3c0]
    (by norm_num) (fun c hc => by rw [List.eq_of_mem_replicate hc]; exact List.mem_cons_self _ _)

theorem capEsFirst : pdaBfsES capPda 10000 ⟨[], [c3c0]⟩ [] =
    pdaBfsES capPda 9999 ((capPda.step c3c0).foldl Queue.push ⟨[], []⟩) [c3c0] := by
  show pdaBfsES capPda (9999 + 1) ⟨[], [c3c0]⟩ [] = _
  rw [pdaBfsES]
  simp only [Queue.pop?, List.reverse_cons, List.reverse_nil, List.nil_append,
    List.not_mem_nil, if_false]
  rw [if_neg (by simp [c3c0])]

theorem capBoolES : PDA.acceptsByEmptyStack capPda [] = false := by
  rw [PDA.acceptsByEmptyStack, capStart, capStack]
  rw [if_neg (by norm_num)]
  show pdaBfsES capPda 10000 ⟨[], [c3c0]⟩ [] = false
  rw [capEsFirst, capStep, push_fold, bfsES_unrev]
  simp only [List.append_nil, List.reverse_reverse]
  exact bfsES_skip_under capPda (List.replicate 10000 c3c0) 9999 [c3c1] [] [c3c0]
    (by norm_num) (fun c hc => by rw [List.eq_of_mem_replicate hc]; exact List.mem_cons_self _ _)

theorem stepWith_fold (n : Nat) : ∀ (acc : List (Configuration × PDATransition)),
    (List.replicate n selfT).foldl
      (fun next t =>
        match pdaFire t c3c0 with
        | none => next
        | some c => next ++ [(c, t)]) acc =
      acc ++ List.replicate n ((c3c0, selfT) : Configuration × PDATransition) := by
  induction n with
  | zero => intro acc; simp
  | succ n ih =>
    intro acc
    simp only [List.replicate_succ, List.foldl_cons, fire_self]
    rw [ih]
    simp [List.replicate_succ, List.append_assoc]

theorem capStepWith :
    capPda.stepWith c3c0 =
      List.replicate 10000 ((c3c0, selfT) : Configuration × PDATransition) ++ [(c3c1, accT)] := by
  show capPda.transitions.foldl _ [] = _
  rw [capTrans, List.foldl_append, stepWith_fold]
  simp only [List.foldl_cons, List.foldl_nil, fire_acc]
  rw [List.nil_append]

theorem pathGo_unrev (p : PDA) (fuel : Nat) (nodes : List PathNode) (count : Nat)
    (back : List (Nat × Configuration)) (visited : List Configuration) :
    pdaPathGo p fuel nodes count ⟨[], back⟩ visited =
      pdaPathGo p fuel nodes count ⟨back.reverse, []⟩ visited := by
  cases fuel with
  | zero => rfl
  | succ fuel =>
    cases hb : back.reverse with
    | nil => simp [pdaPathGo, Queue.pop?, hb]
    | cons x f =>
      obtain ⟨i, c⟩ := x
      simp [pdaPathGo, Queue.pop?, hb]

theorem pathGo_skip (p : PDA) (es : List (Nat × Configuration)) :
    ∀ (fuel : Nat) (nodes : List PathNode) (count : Nat)
      (rest back : List (Nat × Configuration)) (visited : List Configuration),
      (∀ e ∈ es, e.2 ∈ visited) →
      pdaPathGo p (es.length + fuel) nodes count ⟨es ++ rest, back⟩ visited =
        pdaPathGo p fuel nodes count ⟨rest, back⟩ visited := by
  induction es with
  | nil => intro fuel nodes count rest back visited _; simp
  | cons e es ih =>
    intro fuel nodes count rest back visited hv
    obtain ⟨i, c⟩ := e
    have hlen : ((i, c) :: es).length + fuel = (es.length + fuel) + 1 := by
      simp [List.length_cons]
      omega
    rw [hlen, pdaPathGo]
    simp only [List.cons_append, Queue.pop?]
    rw [if_pos (hv (i, c) (List.mem_cons_self _ _))]
    exact ih fuel nodes count rest back visited (fun e he => hv e (List.mem_cons_of_mem _ he))

theorem pathGo_skip_under (p : PDA) (es : List (Nat × Configuration)) :
    ∀ (fuel : Nat) (nodes : List PathNode) (count : Nat)
      (rest back : List (Nat × Configuration)) (visited : List Configuration),
      fuel ≤ es.length → (∀ e ∈ es, e.2 ∈ visited) →
      pdaPathGo p fuel nodes count ⟨es ++ rest, back⟩ visited = none := by
  induction es with
  | nil =>
    intro fuel nodes count rest back visited hf _
    have h0 : fuel = 0 := Nat.le_zero.mp (by simpa using hf)
    subst h0
    rfl
  | cons e es ih =>
    intro fuel nodes count rest back visited hf hv
    cases fuel with
    | zero => rfl
    | succ fuel =>
      obtain ⟨i, c⟩ := e
      rw [pdaPathGo]
      simp only [List.cons_append, Queue.pop?]
      rw [if_pos (hv (i, c) (List.mem_cons_self _ _))]
      exact ih fuel nodes count rest back visited (by simpa using hf)
        (fun e he => hv e (List.mem_cons_of_mem _ he))

theorem expand_fold (j : Nat) (n : Nat) :
    ∀ (acc : List PathNode × Nat × Queue (Nat × Configuration)),
      (List.replicate n ((c3c0, selfT) : Configuration × PDATransition)).foldl
        (fun (acc : List PathNode × Nat × Queue (Nat × Configuration)) ct =>
          (⟨ct.1, some ct.2, (j : Int)⟩ :: acc.1, acc.2.1 + 1,
           acc.2.2.push (acc.2.1, ct.1)))
        acc =
      (List.replicate n (⟨c3c0, some selfT, (j : Int)⟩ : PathNode) ++ acc.1,
       acc.2.1 + n,
       ⟨acc.2.2.front,
        ((List.range' acc.2.1 n).map (fun i => (i, c3c0))).reverse ++ acc.2.2.back⟩) := by
  induction n with
  | zero => intro acc; rfl
  | succ n ih =>
    intro acc
    rw [List.replicate_succ, List.foldl_cons, ih]
    dsimp only [Queue.push]
    simp only [Prod.mk.injEq, Queue.mk.injEq]
    refine ⟨?_, ?_, ?_, ?_⟩
    · simp [List.replicate_succ', List.append_assoc]
    · omega
    · trivial
    · simp [List.range'_succ, List.reverse_cons, List.append_assoc]

/-- Parent-pointer node recorded for the initial configuration. -/
def rootN : PathNode := ⟨c3c0, none, -1⟩

/-- Parent-pointer node recorded for each self-loop successor. -/
def nodeSelf : PathNode := ⟨c3c0, some selfT, ((0 : Nat) : Int)⟩

/-- Parent-pointer node recorded for the accepting successor. -/
def nodeAcc : PathNode := ⟨c3c1, some accT, ((0 : Nat) : Int)⟩

/-- Node array (newest first) after the first BFS expansion. -/
def nodesAll : List PathNode := nodeAcc :: (List.replicate 10000 nodeSelf ++ [rootN])

/-- Queue contents after the first BFS expansion. -/
def qAll : Queue (Nat × Configuration) :=
  ⟨[], (10001, c3c1) :: ((List.range' 1 10000).map (fun i => (i, c3c0))).reverse⟩

theorem capPathFirst (fuel : Nat) :
    PDA.findAcceptingPath capPda [] (fuel + 1) =
      pdaPathGo capPda fuel nodesAll 10002 qAll [c3c0] := by
  rw [PDA.findAcceptingPath, capStart, capStack]
  rw [if_neg (by norm_num)]
  show pdaPathGo capPda (fuel + 1) [rootN] 1 ⟨[], [(0, c3c0)]⟩ [] = _
  rw [pdaPathGo]
  simp only [Queue.pop?, List.reverse_cons, List.reverse_nil, List.nil_append,
    List.not_mem_nil, if_false]
  rw [if_neg (by simp [c3c0, capAcc])]
  rw [capStepWith, List.foldl_append, expand_fold]
  simp only [List.foldl_cons, List.foldl_nil]
  dsimp only [Queue.push]
  norm_num [nodesAll, nodeAcc, nodeSelf, rootN, qAll]

theorem nodesAll_split : nodesAll = (nodeAcc :: List.replicate 10000 nodeSelf) ++ [rootN] := by
  show nodeAcc :: (List.replicate 10000 nodeSelf ++ [rootN]) = _
  rw [List.cons_append]

theorem buildPath_cap :
    pdaBuildPath nodesAll 10002 10002 10001 [] = [⟨c3c0, some accT, c3c1⟩] := by
  have hget0 : nodesAll.get? 0 = some nodeAcc := rfl
  have hlen : (nodeAcc :: List.replicate 10000 nodeSelf).length = 10001 := by
    rw [List.length_cons, List.length_replicate]
  have hgetLast : nodesAll.get? 10001 = some rootN := by
    rw [nodesAll_split]
    rw [show (10001 : Nat) = (nodeAcc :: List.replicate 10000 nodeSelf).length from hlen.symm]
    exact List.get?_concat_length _ _
  show pdaBuildPath nodesAll 10002 (10001 + 1) 10001 [] = _
  rw [pdaBuildPath]
  rw [show (10002 : Nat) - 1 - 10001 = 0 from by norm_num]
  rw [hget0]
  simp only
  rw [if_neg (by simp [nodeAcc])]
  rw [show (10002 : Nat) - 1 - (nodeAcc.parent).toNat = 10001 from by simp [nodeAcc]]
  rw [hgetLast]
  simp only
  show pdaBuildPath nodesAll 10002 (10000 + 1) nodeAcc.parent.toNat _ = _
  rw [pdaBuildPath]
  rw [show (10002 : Nat) - 1 - (nodeAcc.parent).toNat = 10001 from by simp [nodeAcc]]
  rw [hgetLast]
  simp only
  rw [if_pos (by simp [rootN])]
  simp [rootN, nodeAcc]

theorem capPathFound :
    PDA.findAcceptingPath capPda [] 10002 = some (some [⟨c3c0, some accT, c3c1⟩]) := by
  rw [show (10002 : Nat) = 10001 + 1 from rfl, capPathFirst]
  show pdaPathGo capPda 10001 nodesAll 10002
    ⟨[], (10001, c3c1) :: ((List.range' 1 10000).map (fun i => (i, c3c0))).reverse⟩ [c3c0] = _
  rw [pathGo_unrev]
  simp only [List.reverse_cons, List.reverse_reverse]
  have hmem : ∀ e ∈ (List.range' 1 10000).map (fun i => (i, c3c0)), e.2 ∈ [c3c0] := by
    intro e he
    obtain ⟨i, hi, rfl⟩ := List.mem_map.1 he
    exact List.mem_cons_self _ _
  have hskip := pathGo_skip capPda ((List.range' 1 10000).map (fun i => (i, c3c0))) 1
    nodesAll 10002 [(10001, c3c1)] [] [c3c0] hmem
  rw [show ((List.range' 1 10000).map (fun i => (i, c3c0))).length + 1 = 10001 from by
    rw [List.length_map, List.length_range']] at hskip
  rw [hskip]
  show pdaPathGo capPda (0 + 1) nodesAll 10002 ⟨[(10001, c3c1)], []⟩ [c3c0] = _
  rw [pdaPathGo]
  simp only [Queue.pop?]
  rw [if_neg (by simp [c3c1, c3c0])]
  rw [if_pos ⟨rfl, by rw [capAcc]; simp [c3c1]⟩]
  rw [buildPath_cap]

theorem capPathStillGoing : PDA.findAcceptingPath capPda [] 10000 = none := by
  rw [show (10000 : Nat) = 9999 + 1 from rfl, capPathFirst]
  show pdaPathGo capPda 9999 nodesAll 10002
    ⟨[], (10001, c3c1) :: ((List.range' 1 10000).map (fun i => (i, c3c0))).reverse⟩ [c3c0] = none
  rw [pathGo_unrev]
  simp only [List.reverse_cons, List.reverse_reverse]
  exact pathGo_skip_under capPda ((List.range' 1 10000).map (fun i => (i, c3c0)))
    9999 nodesAll 10002 [(10001, c3c1)] [] [c3c0]
    (by rw [List.length_map, List.length_range']; norm_num)
    (fun e he => by
      obtain ⟨i, hi, rfl⟩ := List.mem_map.1 he
      exact List.mem_cons_self _ _)


/-- C3 counterexample: the trace-returning entry point has no iteration
cap and no IterationLimitExceeded error exists in the source.  On a PDA
whose accepting configuration is first dequeued on the 10002nd
breadth-first-search dequeue, acceptsByFinalState gives up at its
10000-dequeue budget and returns false, while findAcceptingPath keeps
running past that budget (still unfinished after 10000 dequeues) and
returns the accepting path rather than reporting an error. -/
theorem findAcceptingPathUncapped_counterexample :
    PDA.acceptsByFinalState capPda [] = false ∧
    PDA.findAcceptingPath capPda [] 10000 = none ∧
    PDA.findAcceptingPath capPda [] 10002 =
      some (some [⟨c3c0, some accT, c3c1⟩]) :=
  ⟨capBoolFS, capPathStillGoing, capPathFound⟩

/-- C3 (amended): the boolean entry points acceptsByFinalState and
acceptsByEmptyStack are bounded by a hard cap of 10,000 dequeues and
return false (they never raise) when the cap is exhausted without
finding an accepting configuration; findAcceptingPath is not bounded:
it searches until the queue empties (nullopt) or an accepting
configuration is found, and can therefore run past 10,000 dequeues and
still return a path.  Demonstrated on a PDA that needs 10,002 dequeues
to reach acceptance. -/
theorem pdaIterationCap :
    PDA.acceptsByFinalState capPda [] = false ∧
    PDA.acceptsByEmptyStack capPda [] = false ∧
    PDA.findAcceptingPath capPda [] 10000 = none ∧
    PDA.findAcceptingPath capPda [] 10002 =
      some (some [⟨c3c0, some accT, c3c1⟩]) :=
  ⟨capBoolFS, capBoolES, capPathStillGoing, capPathFound⟩

/-- Recursive Levenshtein distance used to characterize the dynamic
program of ApproximateMatcher::editDistance (head recursion mirrors the
table recurrence applied to reversed prefixes). -/
def lev : List Int → List Int → Nat
  | [], t => t.length
  | c1 :: s, [] => (c1 :: s).length
  | c1 :: s, c2 :: t =>
    if c1 = c2 then lev s t
    else 1 + min (lev s (c2 :: t)) (min (lev (c1 :: s) t) (lev s t))
termination_by s t => (s.length, t.length)

/-- Inner loop of ApproximateMatcher::editDistance: walk the remaining
columns, reading dp entries of the previous row (headed by the diagonal
dp entry) and the entry just written to the left. -/
def rowNext (c1 : Int) : List Int → List Nat → Nat → List Nat
  | [], _, _ => []
  | c2 :: s2, prev, left =>
    match prev with
    | [] => []
    | pdiag :: ptail =>
      let pup := ptail.headD 0
      let cur := if c1 = c2 then pdiag else 1 + min pup (min left pdiag)
      cur :: rowNext c1 s2 ptail cur

/-- Outer loop of ApproximateMatcher::editDistance: one row per char of
s1; row i starts with dp at column 0 equal to i (only the previous row
is retained, as each dp row depends just on it). -/
def edRows (s2 : List Int) : List Int → Nat → List Nat → List Nat
  | [], _, prev => prev
  | c1 :: s1, i, prev => edRows s2 s1 (i + 1) ((i + 1) :: rowNext c1 s2 prev (i + 1))

/-- ApproximateMatcher::editDistance: row 0 is dp entries 0..n, the
outer loop fills the remaining rows, and the answer is dp of m and n,
the last entry of the final row. -/
def editDistance (s1 s2 : List Int) : Nat :=
  (edRows s2 s1 0 (List.range (s2.length + 1))).getLastD 0

/-- Expected dp row tail: entry per remaining column, where x is the
reversed prefix of s1 for this row and w the reversed consumed prefix
of s2. -/
def rowSpec (x : List Int) : List Int → List Int → List Nat
  | _, [] => []
  | w, c2 :: s2 => lev x (c2 :: w) :: rowSpec x (c2 :: w) s2

theorem lev_nil_right : ∀ s : List Int, lev s [] = s.length
  | [] => by rw [lev]
  | _ :: _ => by rw [lev]

theorem rowNext_ok (c1 : Int) (u : List Int) :
    ∀ (s2 w : List Int),
      rowNext c1 s2 (lev u w :: rowSpec u w s2) (lev (c1 :: u) w) =
        rowSpec (c1 :: u) w s2 := by
  intro s2
  induction s2 with
  | nil => intro w; rfl
  | cons c2 s2 ih =>
    intro w
    rw [rowSpec, rowNext]
    simp only [List.headD_cons]
    have hcur : (if c1 = c2 then lev u w
        else 1 + min (lev u (c2 :: w)) (min (lev (c1 :: u) w) (lev u w))) =
        lev (c1 :: u) (c2 :: w) := by rw [lev]
    rw [hcur, ih (c2 :: w), rowSpec]

theorem edRows_ok (s2 : List Int) : ∀ (s1 u : List Int),
    edRows s2 s1 (lev u []) (lev u [] :: rowSpec u [] s2) =
      lev (s1.reverse ++ u) [] :: rowSpec (s1.reverse ++ u) [] s2 := by
  intro s1
  induction s1 with
  | nil => intro u; simp [edRows]
  | cons c1 s1 ih =>
    intro u
    rw [edRows]
    rw [show lev u [] + 1 = lev (c1 :: u) [] from by
      rw [lev_nil_right, lev_nil_right]; rfl]
    rw [rowNext_ok c1 u s2 []]
    rw [ih (c1 :: u)]
    have harr : s1.reverse ++ (c1 :: u) = (c1 :: s1).reverse ++ u := by
      simp [List.reverse_cons, List.append_assoc]
    rw [harr]

theorem rowSpec_nil : ∀ (s2 w : List Int),
    rowSpec [] w s2 = List.range' (w.length + 1) s2.length := by
  intro s2
  induction s2 with
  | nil => intro w; rfl
  | cons c2 s2 ih =>
    intro w
    rw [rowSpec, ih (c2 :: w)]
    simp [lev, List.range'_succ]

theorem rowSpec_getLast (x : List Int) : ∀ (s2 w : List Int) (d : Nat),
    (lev x w :: rowSpec x w s2).getLastD d = lev x (s2.reverse ++ w) := by
  intro s2
  induction s2 with
  | nil => intro w d; rfl
  | cons c2 s2 ih =>
    intro w d
    rw [rowSpec, List.getLastD_cons, ih (c2 :: w)]
    simp [List.reverse_cons, List.append_assoc]

theorem editDistance_eq_lev (s1 s2 : List Int) :
    editDistance s1 s2 = lev s1.reverse s2.reverse := by
  show (edRows s2 s1 0 (List.range (s2.length + 1))).getLastD 0 = _
  have hrow0 : List.range (s2.length + 1) = lev [] [] :: rowSpec [] [] s2 := by
    rw [rowSpec_nil, List.range_eq_range', List.range'_succ]
    simp [lev]
  rw [hrow0]
  rw [show (0 : Nat) = lev [] [] from (lev_nil_right []).symm]
  rw [edRows_ok, List.append_nil, rowSpec_getLast, List.append_nil]

theorem lev_self : ∀ s : List Int, lev s s = 0 := by
  intro s
  induction s with
  | nil => simp [lev]
  | cons c s ih => rw [lev, if_pos rfl, ih]

theorem lev_symm_aux : ∀ (N : Nat) (s t : List Int), s.length + t.length ≤ N →
    lev s t = lev t s := by
  intro N
  induction N with
  | zero =>
    intro s t h
    have hs : s = [] := List.length_eq_zero.mp (by omega)
    have ht : t = [] := List.length_eq_zero.mp (by omega)
    subst hs; subst ht; rfl
  | succ N ih =>
    intro s t h
    cases s with
    | nil => rw [lev_nil_right, lev]
    | cons c1 s1 =>
      cases t with
      | nil => rw [lev_nil_right, lev]
      | cons c2 t2 =>
        rw [lev, lev]
        by_cases hc : c1 = c2
        · subst hc
          rw [if_pos rfl, if_pos rfl]
          exact ih s1 t2 (by simp only [List.length_cons] at h; omega)
        · rw [if_neg hc, if_neg (Ne.symm hc)]
          have h1 : lev s1 (c2 :: t2) = lev (c2 :: t2) s1 :=
            ih _ _ (by simp only [List.length_cons] at h ⊢; omega)
          have h2 : lev (c1 :: s1) t2 = lev t2 (c1 :: s1) :=
            ih _ _ (by simp only [List.length_cons] at h ⊢; omega)
          have h3 : lev s1 t2 = lev t2 s1 :=
            ih _ _ (by simp only [List.length_cons] at h ⊢; omega)
          rw [h1, h2, h3, min_left_comm]

theorem lev_symm (s t : List Int) : lev s t = lev t s :=
  lev_symm_aux (s.length + t.length) s t le_rfl

theorem lev_perturb : ∀ (N : Nat) (s t : List Int), s.length + t.length ≤ N →
    (∀ c, lev (c :: s) t ≤ 1 + lev s t) ∧
    (∀ c, lev s (c :: t) ≤ 1 + lev s t) ∧
    (∀ c, lev s t ≤ 1 + lev (c :: s) t) ∧
    (∀ c, lev s t ≤ 1 + lev s (c :: t)) := by
  intro N
  induction N with
  | zero =>
    intro s t h
    have hs : s = [] := List.length_eq_zero.mp (by omega)
    have ht : t = [] := List.length_eq_zero.mp (by omega)
    subst hs; subst ht
    refine ⟨?_, ?_, ?_, ?_⟩ <;> intro c <;> simp [lev, lev_nil_right]
  | succ N ih =>
    intro s t hst
    have part1 : ∀ (s t : List Int), s.length + t.length ≤ N + 1 →
        ∀ c, lev (c :: s) t ≤ 1 + lev s t := by
      intro s t h c
      cases t with
      | nil => rw [lev_nil_right, lev_nil_right]; simp only [List.length_cons]; omega
      | cons d t' =>
        rw [lev]
        by_cases hcd : c = d
        · rw [if_pos hcd]
          exact (ih s t' (by simp only [List.length_cons] at h; omega)).2.2.2 d
        · rw [if_neg hcd]
          have hm : min (lev s (d :: t')) (min (lev (c :: s) t') (lev s t')) ≤
              lev s (d :: t') := min_le_left _ _
          omega
    have part4 : ∀ (s t : List Int), s.length + t.length ≤ N + 1 →
        ∀ c, lev s t ≤ 1 + lev s (c :: t) := by
      intro s t h c
      cases s with
      | nil => rw [lev, lev]; simp only [List.length_cons]; omega
      | cons a s' =>
        rw [lev]
        by_cases hac : a = c
        · rw [if_pos hac]
          exact (ih s' t (by simp only [List.length_cons] at h; omega)).1 a
        · rw [if_neg hac]
          have hX : lev (a :: s') t ≤ 2 + lev s' (c :: t) := by
            have h1 := (ih s' t (by simp only [List.length_cons] at h; omega)).1 a
            have h2 := (ih s' t (by simp only [List.length_cons] at h; omega)).2.2.2 c
            omega
          have hZ : lev (a :: s') t ≤ 2 + lev s' t := by
            have h1 := (ih s' t (by simp only [List.length_cons] at h; omega)).1 a
            omega
          have hmin : lev (a :: s') t ≤
              1 + (1 + min (lev s' (c :: t)) (min (lev (a :: s') t) (lev s' t))) := by
            simp only [Nat.min_def]
            split_ifs <;> omega
          exact hmin
    have part2 : ∀ c, lev s (c :: t) ≤ 1 + lev s t := by
      intro c
      rw [lev_symm s (c :: t), lev_symm s t]
      exact part1 t s (by omega) c
    have part3 : ∀ c, lev s t ≤ 1 + lev (c :: s) t := by
      intro c
      rw [lev_symm s t, lev_symm (c :: s) t]
      exact part4 t s (by omega) c
    exact ⟨part1 s t hst, part2, part3, part4 s t hst⟩

theorem lev_del_le (s t : List Int) (c : Int) : lev (c :: s) t ≤ 1 + lev s t :=
  (lev_perturb (s.length + t.length) s t le_rfl).1 c

theorem lev_ins_le (s t : List Int) (c : Int) : lev s (c :: t) ≤ 1 + lev s t :=
  (lev_perturb (s.length + t.length) s t le_rfl).2.1 c

/-- Edit scripts between two strings with their cost: the graph over
which the dp recurrence minimizes. -/
inductive Align : List Int → List Int → Nat → Prop where
  | nil : Align [] [] 0
  | keep {s t : List Int} {n : Nat} (c : Int) : Align s t n → Align (c :: s) (c :: t) n
  | sub {s t : List Int} {n : Nat} (a b : Int) : Align s t n → Align (a :: s) (b :: t) (n + 1)
  | del {s t : List Int} {n : Nat} (a : Int) : Align s t n → Align (a :: s) t (n + 1)
  | ins {s t : List Int} {n : Nat} (b : Int) : Align s t n → Align s (b :: t) (n + 1)

theorem align_nil_left : ∀ t : List Int, Align [] t t.length
  | [] => Align.nil
  | c :: t => Align.ins c (align_nil_left t)

theorem align_nil_right : ∀ s : List Int, Align s [] s.length
  | [] => Align.nil
  | c :: s => Align.del c (align_nil_right s)

theorem align_lev_aux : ∀ (N : Nat) (s t : List Int), s.length + t.length ≤ N →
    Align s t (lev s t) := by
  intro N
  induction N with
  | zero =>
    intro s t h
    have hs : s = [] := List.length_eq_zero.mp (by omega)
    have ht : t = [] := List.length_eq_zero.mp (by omega)
    subst hs; subst ht
    rw [show lev ([] : List Int) [] = 0 from by simp [lev]]
    exact Align.nil
  | succ N ih =>
    intro s t h
    cases s with
    | nil =>
      rw [lev]
      exact align_nil_left t
    | cons c1 s1 =>
      cases t with
      | nil =>
        rw [lev_nil_right]
        exact align_nil_right _
      | cons c2 t2 =>
        rw [lev]
        by_cases hc : c1 = c2
        · rw [if_pos hc]
          subst hc
          exact Align.keep c1 (ih s1 t2 (by simp only [List.length_cons] at h; omega))
        · rw [if_neg hc]
          rcases le_or_lt (lev s1 (c2 :: t2)) (min (lev (c1 :: s1) t2) (lev s1 t2)) with h1 | h1
          · rw [min_eq_left h1, Nat.add_comm]
            exact Align.del c1 (ih s1 (c2 :: t2) (by simp only [List.length_cons] at h ⊢; omega))
          · rw [min_eq_right h1.le]
            rcases le_or_lt (lev (c1 :: s1) t2) (lev s1 t2) with h2 | h2
            · rw [min_eq_left h2, Nat.add_comm]
              exact Align.ins c2 (ih (c1 :: s1) t2 (by simp only [List.length_cons] at h ⊢; omega))
            · rw [min_eq_right h2.le, Nat.add_comm]
              exact Align.sub c1 c2 (ih s1 t2 (by simp only [List.length_cons] at h; omega))

theorem align_ge : ∀ {s t : List Int} {n : Nat}, Align s t n → lev s t ≤ n := by
  intro s t n A
  induction A with
  | nil => simp [lev]
  | @keep s t n c A ih => rw [lev, if_pos rfl]; exact ih
  | @sub s t n a b A ih =>
    by_cases hab : a = b
    · rw [lev, if_pos hab]; omega
    · rw [lev, if_neg hab]
      have hm : min (lev s (b :: t)) (min (lev (a :: s) t) (lev s t)) ≤ lev s t :=
        le_trans (min_le_right _ _) (min_le_right _ _)
      omega
  | @del s t n a A ih =>
    have := lev_del_le s t a
    omega
  | @ins s t n b A ih =>
    have := lev_ins_le s t b
    omega

theorem align_comp : ∀ (L : Nat) (s t u : List Int) (m n : Nat),
    Align s t m → Align t u n → s.length + t.length + u.length ≤ L →
    ∃ k, k ≤ m + n ∧ Align s u k := by
  intro L
  induction L with
  | zero =>
    intro s t u m n D1 D2 hL
    have hs : s = [] := List.length_eq_zero.mp (by omega)
    have ht : t = [] := List.length_eq_zero.mp (by omega)
    have hu : u = [] := List.length_eq_zero.mp (by omega)
    subst hs; subst ht; subst hu
    cases D1
    cases D2
    exact ⟨0, le_rfl, Align.nil⟩
  | succ L ih =>
    intro s t u m n D1 D2 hL
    cases D1 with
    | nil => exact ⟨n, by omega, D2⟩
    | keep c D1' =>
      cases D2 with
      | keep cx D2' =>
        obtain ⟨k, hk, A⟩ := ih _ _ _ _ _ D1' D2'
          (by simp only [List.length_cons] at hL; omega)
        exact ⟨k, by omega, Align.keep c A⟩
      | sub bx d D2' =>
        obtain ⟨k, hk, A⟩ := ih _ _ _ _ _ D1' D2'
          (by simp only [List.length_cons] at hL; omega)
        exact ⟨k + 1, by omega, Align.sub c d A⟩
      | del ax D2' =>
        obtain ⟨k, hk, A⟩ := ih _ _ _ _ _ D1' D2'
          (by simp only [List.length_cons] at hL ⊢; omega)
        exact ⟨k + 1, by omega, Align.del c A⟩
      | ins d D2' =>
        obtain ⟨k, hk, A⟩ := ih _ _ _ _ _ (Align.keep c D1') D2'
          (by simp only [List.length_cons] at hL ⊢; omega)
        exact ⟨k + 1, by omega, Align.ins d A⟩
    | sub a b D1' =>
      cases D2 with
      | keep cx D2' =>
        obtain ⟨k, hk, A⟩ := ih _ _ _ _ _ D1' D2'
          (by simp only [List.length_cons] at hL; omega)
        exact ⟨k + 1, by omega, Align.sub a b A⟩
      | sub bx d D2' =>
        obtain ⟨k, hk, A⟩ := ih _ _ _ _ _ D1' D2'
          (by simp only [List.length_cons] at hL; omega)
        exact ⟨k + 1, by omega, Align.sub a d A⟩
      | del ax D2' =>
        obtain ⟨k, hk, A⟩ := ih _ _ _ _ _ D1' D2'
          (by simp only [List.length_cons] at hL ⊢; omega)
        exact ⟨k + 1, by omega, Align.del a A⟩
      | ins d D2' =>
        obtain ⟨k, hk, A⟩ := ih _ _ _ _ _ (Align.sub a b D1') D2'
          (by simp only [List.length_cons] at hL ⊢; omega)
        exact ⟨k + 1, by omega, Align.ins d A⟩
    | del a D1' =>
      obtain ⟨k, hk, A⟩ := ih _ _ _ _ _ D1' D2
        (by simp only [List.length_cons] at hL ⊢; omega)
      exact ⟨k + 1, by omega, Align.del a A⟩
    | ins b D1' =>
      cases D2 with
      | keep cx D2' =>
        obtain ⟨k, hk, A⟩ := ih _ _ _ _ _ D1' D2'
          (by simp only [List.length_cons] at hL; omega)
        exact ⟨k + 1, by omega, Align.ins b A⟩
      | sub bx d D2' =>
        obtain ⟨k, hk, A⟩ := ih _ _ _ _ _ D1' D2'
          (by simp only [List.length_cons] at hL; omega)
        exact ⟨k + 1, by omega, Align.ins d A⟩
      | del ax D2' =>
        obtain ⟨k, hk, A⟩ := ih _ _ _ _ _ D1' D2'
          (by simp only [List.length_cons] at hL ⊢; omega)
        exact ⟨k, by omega, A⟩
      | ins d D2' =>
        obtain ⟨k, hk, A⟩ := ih _ _ _ _ _ (Align.ins b D1') D2'
          (by simp only [List.length_cons] at hL ⊢; omega)
        exact ⟨k + 1, by omega, Align.ins d A⟩

theorem lev_triangle (s t u : List Int) : lev s u ≤ lev s t + lev t u := by
  obtain ⟨k, hk, A⟩ := align_comp (s.length + t.length + u.length) s t u (lev s t) (lev t u)
    (align_lev_aux (s.length + t.length) s t le_rfl)
    (align_lev_aux (t.length + u.length) t u le_rfl) le_rfl
  exact le_trans (align_ge A) hk

/-- C9: editDistance vanishes on equal strings, is symmetric, and
satisfies the triangle inequality. -/
theorem editDistanceMetric (s t u : List Int) :
    editDistance s s = 0 ∧
    editDistance s t = editDistance t s ∧
    editDistance s u ≤ editDistance s t + editDistance t u := by
  refine ⟨?_, ?_, ?_⟩
  · rw [editDistance_eq_lev, lev_self]
  · rw [editDistance_eq_lev, editDistance_eq_lev, lev_symm]
  · rw [editDistance_eq_lev, editDistance_eq_lev, editDistance_eq_lev]
    exact lev_triangle _ _ _


/-- Lowercase hex digit used by the escape of control characters. -/
def hexDigit (n : Int) : Int := if n < 10 then 48 + n else 87 + n

/-- JsonSerializer::escape: quote, backslash, newline, carriage return
and tab get two-character escapes, other bytes in 0..31 get a lowercase
four-digit unicode escape, and everything else (including negative
bytes, as char is signed) passes through raw. -/
def escapeJ : List Int → List Int
  | [] => []
  | c :: s =>
    (if c = 34 then [92, 34]
     else if c = 92 then [92, 92]
     else if c = 10 then [92, 110]
     else if c = 13 then [92, 114]
     else if c = 9 then [92, 116]
     else if 0 ≤ c ∧ c < 32 then [92, 117, 48, 48, hexDigit (c / 16), hexDigit (c % 16)]
     else [c]) ++ escapeJ s

/-- JsonSerializer::stringify on a string: quoted escaped bytes. -/
def stringifyStr (s : List Int) : List Int := 34 :: (escapeJ s ++ [34])

/-- JsonSerializer::stringify on a bool. -/
def stringifyBool (b : Bool) : List Int :=
  if b then [116, 114, 117, 101] else [102, 97, 108, 115, 101]

/-- ObjectBuilder::build over already-rendered key and value byte
strings. -/
def joinComma : List (List Int) → List Int
  | [] => []
  | [x] => x
  | x :: y :: t => x ++ (44 :: joinComma (y :: t))

def jObj (fields : List (List Int × List Int)) : List Int :=
  if fields = [] then [123, 125]
  else 123 :: (joinComma
    (fields.map (fun p => 34 :: (p.1 ++ (34 :: 58 :: p.2))))) ++ [125]

/-- ArrayBuilder::build over already-rendered items. -/
def jArr (items : List (List Int)) : List Int :=
  if items = [] then [91, 93] else 91 :: joinComma items ++ [93]

/-- symbolToString from common.hpp: epsilon renders as the two UTF-8
bytes of the epsilon letter (signed chars), other symbols as
themselves. -/
def symbolToString (s : Int) : List Int :=
  if s = EPSILON then [-50, -75] else [s]

/-- State::toJson. -/
def State.toJson (st : State) : List Int :=
  jObj [([105, 100], intToString st.id),
        ([108, 97, 98, 101, 108], stringifyStr st.label),
        ([105, 115, 65, 99, 99, 101, 112, 116, 105, 110, 103], stringifyBool st.isAccepting),
        ([105, 115, 83, 116, 97, 114, 116], stringifyBool st.isStart)]

/-- Transition::toJson. -/
def Transition.toJson (t : Transition) : List Int :=
  jObj [([102, 114, 111, 109], intToString t.fromId),
        ([116, 111], intToString t.toId),
        ([115, 121, 109, 98, 111, 108], stringifyStr (symbolToString t.symbol)),
        ([105, 115, 69, 112, 115, 105, 108, 111, 110], stringifyBool (decide (t.symbol = EPSILON)))]

/-- PDATransition::toJson. -/
def PDATransition.toJson (t : PDATransition) : List Int :=
  jObj [([102, 114, 111, 109], intToString t.fromId),
        ([116, 111], intToString t.toId),
        ([105, 110, 112, 117, 116, 83, 121, 109, 98, 111, 108], stringifyStr
          (if t.inputSymbol = EPSILON then [-50, -75] else [t.inputSymbol])),
        ([112, 111, 112, 83, 121, 109, 98, 111, 108], stringifyStr
          (if t.popSymbol = EPSILON then [-50, -75] else [t.popSymbol])),
        ([112, 117, 115, 104, 83, 121, 109, 98, 111, 108, 115], stringifyStr
          (if t.pushSymbols = [] then [-50, -75] else t.pushSymbols))]

/-- NFA::toJson: type tag, start id, accepting array, state array in
map order, transition array in insertion order. -/
def NFA.toJson (n : NFA) : List Int :=
  jObj [([116, 121, 112, 101], stringifyStr [78, 70, 65]),
        ([115, 116, 97, 114, 116, 83, 116, 97, 116, 101], intToString n.startState),
        ([97, 99, 99, 101, 112, 116, 105, 110, 103, 83, 116, 97, 116, 101, 115], jArr (n.acceptingStates.map intToString)),
        ([115, 116, 97, 116, 101, 115], jArr (n.states.map (fun p => State.toJson p.2))),
        ([116, 114, 97, 110, 115, 105, 116, 105, 111, 110, 115], jArr (n.transitions.map Transition.toJson))]

/-- DFA::toJson (same five fields; the transition table and alphabet
are not serialized). -/
def DFA.toJson (d : DFA) : List Int :=
  jObj [([116, 121, 112, 101], stringifyStr [68, 70, 65]),
        ([115, 116, 97, 114, 116, 83, 116, 97, 116, 101], intToString d.startState),
        ([97, 99, 99, 101, 112, 116, 105, 110, 103, 83, 116, 97, 116, 101, 115], jArr (d.acceptingStates.map intToString)),
        ([115, 116, 97, 116, 101, 115], jArr (d.states.map (fun p => State.toJson p.2))),
        ([116, 114, 97, 110, 115, 105, 116, 105, 111, 110, 115], jArr (d.transitions.map Transition.toJson))]

/-- PDA::toJson. -/
def PDA.toJson (p : PDA) : List Int :=
  jObj [([116, 121, 112, 101], stringifyStr [80, 68, 65]),
        ([115, 116, 97, 114, 116, 83, 116, 97, 116, 101], intToString p.startState),
        ([105, 110, 105, 116, 105, 97, 108, 83, 116, 97, 99, 107, 83, 121, 109, 98, 111, 108], stringifyStr [p.initialStackSymbol]),
        ([97, 99, 99, 101, 112, 116, 105, 110, 103, 83, 116, 97, 116, 101, 115], jArr (p.acceptingStates.map intToString)),
        ([115, 116, 97, 116, 101, 115], jArr (p.states.map (fun pr => State.toJson pr.2))),
        ([116, 114, 97, 110, 115, 105, 116, 105, 111, 110, 115], jArr (p.transitions.map PDATransition.toJson))]

/-- Modelled from the spec: consume an exact byte sequence. -/
def parseLit : List Int → List Int → Option (List Int)
  | [], s => some s
  | _ :: _, [] => none
  | c :: pre, d :: s => if c = d then parseLit pre s else none

/-- Modelled from the spec: consume a run of decimal digits,
accumulating the value. -/
def parseDigitsJ : List Int → Int → Int × List Int
  | [], acc => (acc, [])
  | c :: s, acc =>
    if 48 ≤ c ∧ c ≤ 57 then parseDigitsJ s (acc * 10 + (c - 48)) else (acc, c :: s)

/-- Modelled from the spec: parse an optionally negated decimal
integer. -/
def parseIntJ (s : List Int) : Option (Int × List Int) :=
  match s with
  | [] => none
  | c :: rest =>
    if c = 45 then
      match rest with
      | [] => none
      | d :: rest2 =>
        if 48 ≤ d ∧ d ≤ 57 then
          let r := parseDigitsJ rest2 (d - 48)
          some (-r.1, r.2)
        else none
    else if 48 ≤ c ∧ c ≤ 57 then
      let r := parseDigitsJ rest (c - 48)
      some (r.1, r.2)
    else none

/-- Modelled from the spec: value of a hex digit. -/
def hexVal (c : Int) : Option Int :=
  if 48 ≤ c ∧ c ≤ 57 then some (c - 48)
  else if 97 ≤ c ∧ c ≤ 102 then some (c - 87)
  else if 65 ≤ c ∧ c ≤ 70 then some (c - 55)
  else none

/-- Modelled from the spec: undo the escape inside a quoted string,
stopping at the closing quote. -/
def unescGo : Nat → List Int → List Int → Option (List Int × List Int)
  | 0, _, _ => none
  | fuel + 1, acc, s =>
    match s with
    | [] => none
    | c :: rest =>
      if c = 34 then some (acc.reverse, rest)
      else if c = 92 then
        match rest with
        | [] => none
        | e :: rest2 =>
          if e = 34 then unescGo fuel (34 :: acc) rest2
          else if e = 92 then unescGo fuel (92 :: acc) rest2
          else if e = 110 then unescGo fuel (10 :: acc) rest2
          else if e = 114 then unescGo fuel (13 :: acc) rest2
          else if e = 116 then unescGo fuel (9 :: acc) rest2
          else if e = 117 then
            match rest2 with
            | h1 :: h2 :: h3 :: h4 :: rest3 =>
              match hexVal h1, hexVal h2, hexVal h3, hexVal h4 with
              | some v1, some v2, some v3, some v4 =>
                unescGo fuel ((((v1 * 16 + v2) * 16 + v3) * 16 + v4) :: acc) rest3
              | _, _, _, _ => none
            | _ => none
          else none
      else unescGo fuel (c :: acc) rest

/-- Modelled from the spec: parse a quoted string. -/
def parseStringJ (s : List Int) : Option (List Int × List Int) :=
  match s with
  | [] => none
  | c :: rest => if c = 34 then unescGo (rest.length + 1) [] rest else none

/-- Modelled from the spec: parse a boolean literal. -/
def parseBoolJ (s : List Int) : Option (Bool × List Int) :=
  match parseLit [116, 114, 117, 101] s with
  | some rest => some (true, rest)
  | none =>
    match parseLit [102, 97, 108, 115, 101] s with
    | some rest => some (false, rest)
    | none => none

/-- Modelled from the spec: parse comma-separated array elements up to
the closing bracket. -/
def parseArrGo {α : Type} (p : List Int → Option (α × List Int)) :
    Nat → List Int → List α → Option (List α × List Int)
  | 0, _, _ => none
  | fuel + 1, s, acc =>
    match p s with
    | none => none
    | some (v, rest) =>
      match rest with
      | [] => none
      | c :: rest2 =>
        if c = 44 then parseArrGo p fuel rest2 (v :: acc)
        else if c = 93 then some ((v :: acc).reverse, rest2)
        else none

/-- Modelled from the spec: parse a JSON array with the given element
parser. -/
def parseArrJ {α : Type} (p : List Int → Option (α × List Int)) (s : List Int) :
    Option (List α × List Int) :=
  match s with
  | [] => none
  | c :: rest =>
    if c = 91 then
      match rest with
      | [] => none
      | d :: rest2 =>
        if d = 93 then some ([], rest2)
        else parseArrGo p (rest.length + 1) rest []
    else none

/-- Modelled from the spec: consume a rendered object key. -/
def parseKey (k : List Int) (s : List Int) : Option (List Int) :=
  parseLit (34 :: (k ++ [34, 58])) s

/-- Modelled from the spec: parse one serialized State object. -/
def parseStateJ (s : List Int) : Option (State × List Int) :=
  match parseLit [123] s with
  | none => none
  | some s1 =>
  match parseKey [105, 100] s1 with
  | none => none
  | some s2 =>
  match parseIntJ s2 with
  | none => none
  | some (idv, s3) =>
  match parseLit [44] s3 with
  | none => none
  | some s4 =>
  match parseKey [108, 97, 98, 101, 108] s4 with
  | none => none
  | some s5 =>
  match parseStringJ s5 with
  | none => none
  | some (lab, s6) =>
  match parseLit [44] s6 with
  | none => none
  | some s7 =>
  match parseKey [105, 115, 65, 99, 99, 101, 112, 116, 105, 110, 103] s7 with
  | none => none
  | some s8 =>
  match parseBoolJ s8 with
  | none => none
  | some (accv, s9) =>
  match parseLit [44] s9 with
  | none => none
  | some s10 =>
  match parseKey [105, 115, 83, 116, 97, 114, 116] s10 with
  | none => none
  | some s11 =>
  match parseBoolJ s11 with
  | none => none
  | some (stv, s12) =>
  match parseLit [125] s12 with
  | none => none
  | some s13 => some (⟨idv, lab, accv, stv⟩, s13)

/-- Modelled from the spec: decode a rendered symbol string, the
epsilon letter standing for the epsilon symbol. -/
def decodeSymbol (chars : List Int) : Option Int :=
  if chars = [-50, -75] then some EPSILON
  else match chars with
    | [c] => some c
    | _ => none

/-- Modelled from the spec: parse one serialized NFA transition. -/
def parseTransJ (s : List Int) : Option (Transition × List Int) :=
  match parseLit [123] s with
  | none => none
  | some s1 =>
  match parseKey [102, 114, 111, 109] s1 with
  | none => none
  | some s2 =>
  match parseIntJ s2 with
  | none => none
  | some (fv, s3) =>
  match parseLit [44] s3 with
  | none => none
  | some s4 =>
  match parseKey [116, 111] s4 with
  | none => none
  | some s5 =>
  match parseIntJ s5 with
  | none => none
  | some (tv, s6) =>
  match parseLit [44] s6 with
  | none => none
  | some s7 =>
  match parseKey [115, 121, 109, 98, 111, 108] s7 with
  | none => none
  | some s8 =>
  match parseStringJ s8 with
  | none => none
  | some (symChars, s9) =>
  match decodeSymbol symChars with
  | none => none
  | some symv =>
  match parseLit [44] s9 with
  | none => none
  | some s10 =>
  match parseKey [105, 115, 69, 112, 115, 105, 108, 111, 110] s10 with
  | none => none
  | some s11 =>
  match parseBoolJ s11 with
  | none => none
  | some (_, s12) =>
  match parseLit [125] s12 with
  | none => none
  | some s13 => some (⟨fv, tv, symv⟩, s13)

/-- Modelled from the spec: parse one serialized PDA transition. -/
def parsePdaTransJ (s : List Int) : Option (PDATransition × List Int) :=
  match parseLit [123] s with
  | none => none
  | some s1 =>
  match parseKey [102, 114, 111, 109] s1 with
  | none => none
  | some s2 =>
  match parseIntJ s2 with
  | none => none
  | some (fv, s3) =>
  match parseLit [44] s3 with
  | none => none
  | some s4 =>
  match parseKey [116, 111] s4 with
  | none => none
  | some s5 =>
  match parseIntJ s5 with
  | none => none
  | some (tv, s6) =>
  match parseLit [44] s6 with
  | none => none
  | some s7 =>
  match parseKey [105, 110, 112, 117, 116, 83, 121, 109, 98, 111, 108] s7 with
  | none => none
  | some s8 =>
  match parseStringJ s8 with
  | none => none
  | some (inChars, s9) =>
  match decodeSymbol inChars with
  | none => none
  | some inv =>
  match parseLit [44] s9 with
  | none => none
  | some s10 =>
  match parseKey [112, 111, 112, 83, 121, 109, 98, 111, 108] s10 with
  | none => none
  | some s11 =>
  match parseStringJ s11 with
  | none => none
  | some (popChars, s12) =>
  match decodeSymbol popChars with
  | none => none
  | some popv =>
  match parseLit [44] s12 with
  | none => none
  | some s13 =>
  match parseKey [112, 117, 115, 104, 83, 121, 109, 98, 111, 108, 115] s13 with
  | none => none
  | some s14 =>
  match parseStringJ s14 with
  | none => none
  | some (pushChars, s15) =>
  match parseLit [125] s15 with
  | none => none
  | some s16 =>
    some (⟨fv, tv, inv, popv, if pushChars = [-50, -75] then [] else pushChars⟩, s16)

/-- Modelled from the spec: NFA::fromJson inverts NFA::toJson,
rebuilding the state map from the listed states (id of each state as
key) and taking the next fresh id past the largest listed id. -/
def NFA.fromJson (s : List Int) : Option NFA :=
  match parseLit [123] s with
  | none => none
  | some s1 =>
  match parseKey [116, 121, 112, 101] s1 with
  | none => none
  | some s2 =>
  match parseLit [34, 78, 70, 65, 34] s2 with
  | none => none
  | some s3 =>
  match parseLit [44] s3 with
  | none => none
  | some s4 =>
  match parseKey [115, 116, 97, 114, 116, 83, 116, 97, 116, 101] s4 with
  | none => none
  | some s5 =>
  match parseIntJ s5 with
  | none => none
  | some (sv, s6) =>
  match parseLit [44] s6 with
  | none => none
  | some s7 =>
  match parseKey [97, 99, 99, 101, 112, 116, 105, 110, 103, 83, 116, 97, 116, 101, 115] s7 with
  | none => none
  | some s8 =>
  match parseArrJ parseIntJ s8 with
  | none => none
  | some (accs, s9) =>
  match parseLit [44] s9 with
  | none => none
  | some s10 =>
  match parseKey [115, 116, 97, 116, 101, 115] s10 with
  | none => none
  | some s11 =>
  match parseArrJ parseStateJ s11 with
  | none => none
  | some (sts, s12) =>
  match parseLit [44] s12 with
  | none => none
  | some s13 =>
  match parseKey [116, 114, 97, 110, 115, 105, 116, 105, 111, 110, 115] s13 with
  | none => none
  | some s14 =>
  match parseArrJ parseTransJ s14 with
  | none => none
  | some (trs, s15) =>
  match parseLit [125] s15 with
  | none => none
  | some _ =>
    some ⟨sts.map (fun st => (st.id, st)), trs, sv, accs,
          sts.foldl (fun m st => max m (st.id + 1)) 0⟩

/-- Modelled from the spec: DFA::fromJson inverts DFA::toJson; the
deterministic table and the alphabet, which are not serialized, are
rebuilt from the listed transitions. -/
def DFA.fromJson (s : List Int) : Option DFA :=
  match parseLit [123] s with
  | none => none
  | some s1 =>
  match parseKey [116, 121, 112, 101] s1 with
  | none => none
  | some s2 =>
  match parseLit [34, 68, 70, 65, 34] s2 with
  | none => none
  | some s3 =>
  match parseLit [44] s3 with
  | none => none
  | some s4 =>
  match parseKey [115, 116, 97, 114, 116, 83, 116, 97, 116, 101] s4 with
  | none => none
  | some s5 =>
  match parseIntJ s5 with
  | none => none
  | some (sv, s6) =>
  match parseLit [44] s6 with
  | none => none
  | some s7 =>
  match parseKey [97, 99, 99, 101, 112, 116, 105, 110, 103, 83, 116, 97, 116, 101, 115] s7 with
  | none => none
  | some s8 =>
  match parseArrJ parseIntJ s8 with
  | none => none
  | some (accs, s9) =>
  match parseLit [44] s9 with
  | none => none
  | some s10 =>
  match parseKey [115, 116, 97, 116, 101, 115] s10 with
  | none => none
  | some s11 =>
  match parseArrJ parseStateJ s11 with
  | none => none
  | some (sts, s12) =>
  match parseLit [44] s12 with
  | none => none
  | some s13 =>
  match parseKey [116, 114, 97, 110, 115, 105, 116, 105, 111, 110, 115] s13 with
  | none => none
  | some s14 =>
  match parseArrJ parseTransJ s14 with
  | none => none
  | some (trs, s15) =>
  match parseLit [125] s15 with
  | none => none
  | some _ =>
    some ⟨sts.map (fun st => (st.id, st)), trs,
          trs.foldl (fun tb t => TTable.set tb (t.fromId, t.symbol) t.toId) [],
          sv, accs,
          sts.foldl (fun m st => max m (st.id + 1)) 0,
          trs.foldl (fun a t => a.insert t.symbol) []⟩

/-- Modelled from the spec: PDA::fromJson inverts PDA::toJson. -/
def PDA.fromJson (s : List Int) : Option PDA :=
  match parseLit [123] s with
  | none => none
  | some s1 =>
  match parseKey [116, 121, 112, 101] s1 with
  | none => none
  | some s2 =>
  match parseLit [34, 80, 68, 65, 34] s2 with
  | none => none
  | some s3 =>
  match parseLit [44] s3 with
  | none => none
  | some s4 =>
  match parseKey [115, 116, 97, 114, 116, 83, 116, 97, 116, 101] s4 with
  | none => none
  | some s5 =>
  match parseIntJ s5 with
  | none => none
  | some (sv, s6) =>
  match parseLit [44] s6 with
  | none => none
  | some s7 =>
  match parseKey [105, 110, 105, 116, 105, 97, 108, 83, 116, 97, 99, 107, 83, 121, 109, 98, 111, 108] s7 with
  | none => none
  | some s8 =>
  match parseStringJ s8 with
  | none => none
  | some (stkChars, s9) =>
  match stkChars with
  | [stk] =>
    (match parseLit [44] s9 with
    | none => none
    | some s10 =>
    match parseKey [97, 99, 99, 101, 112, 116, 105, 110, 103, 83, 116, 97, 116, 101, 115] s10 with
    | none => none
    | some s11 =>
    match parseArrJ parseIntJ s11 with
    | none => none
    | some (accs, s12) =>
    match parseLit [44] s12 with
    | none => none
    | some s13 =>
    match parseKey [115, 116, 97, 116, 101, 115] s13 with
    | none => none
    | some s14 =>
    match parseArrJ parseStateJ s14 with
    | none => none
    | some (sts, s15) =>
    match parseLit [44] s15 with
    | none => none
    | some s16 =>
    match parseKey [116, 114, 97, 110, 115, 105, 116, 105, 111, 110, 115] s16 with
    | none => none
    | some s17 =>
    match parseArrJ parsePdaTransJ s17 with
    | none => none
    | some (trs, s18) =>
    match parseLit [125] s18 with
    | none => none
    | some _ =>
      some ⟨sts.map (fun st => (st.id, st)), trs, sv, accs,
            sts.foldl (fun m st => max m (st.id + 1)) 0, stk⟩)
  | _ => none

/-- Head byte of the remaining input is not a decimal digit. -/
def headNotDigit (s : List Int) : Bool :=
  match s with
  | [] => true
  | c :: _ => decide (¬ (48 ≤ c ∧ c ≤ 57))

theorem parseLit_self : ∀ (pre rest : List Int), parseLit pre (pre ++ rest) = some rest := by
  intro pre
  induction pre with
  | nil => intro rest; rfl
  | cons c pre ih => intro rest; simp [parseLit, ih]

theorem natDigits_digits : ∀ (fuel n : Nat), n < fuel →
    ∀ d ∈ natDigits fuel n, 48 ≤ d ∧ d ≤ 57 := by
  intro fuel
  induction fuel with
  | zero => intro n h; omega
  | succ fuel ih =>
    intro n h d hd
    rw [natDigits] at hd
    by_cases h10 : n < 10
    · rw [if_pos h10] at hd
      simp only [List.mem_singleton] at hd
      subst hd
      omega
    · rw [if_neg h10] at hd
      rcases List.mem_append.1 hd with h1 | h1
      · exact ih (n / 10) (by omega) d h1
      · simp only [List.mem_singleton] at h1
        subst h1
        have : (n % 10 : Nat) < 10 := Nat.mod_lt n (by omega)
        omega

theorem natDigits_cons : ∀ (fuel n : Nat), n < fuel →
    ∃ d ds, natDigits fuel n = d :: ds := by
  intro fuel
  induction fuel with
  | zero => intro n h; omega
  | succ fuel ih =>
    intro n h
    rw [natDigits]
    by_cases h10 : n < 10
    · rw [if_pos h10]
      exact ⟨48 + n, [], rfl⟩
    · rw [if_neg h10]
      obtain ⟨d, ds, hds⟩ := ih (n / 10) (by omega)
      rw [hds]
      exact ⟨d, ds ++ [48 + ((n % 10 : Nat) : Int)], rfl⟩

theorem natDigits_foldl : ∀ (fuel n : Nat) (a : Int), n < fuel →
    List.foldl (fun acc d => acc * 10 + (d - 48)) a (natDigits fuel n) =
      a * 10 ^ (natDigits fuel n).length + n := by
  intro fuel
  induction fuel with
  | zero => intro n a h; omega
  | succ fuel ih =>
    intro n a h
    rw [natDigits]
    by_cases h10 : n < 10
    · rw [if_pos h10]
      simp only [List.foldl_cons, List.foldl_nil, List.length_singleton, pow_one]
      omega
    · rw [if_neg h10]
      rw [List.foldl_append, ih (n / 10) a (by omega)]
      simp only [List.foldl_cons, List.foldl_nil, List.length_append,
        List.length_singleton]
      have hmod : ((n / 10 : Nat) : Int) * 10 + ((n % 10 : Nat) : Int) = (n : Int) := by
        omega
      rw [pow_succ]
      ring_nf
      ring_nf at hmod ⊢
      nlinarith [hmod]

theorem parseDigitsJ_append : ∀ (ds rest : List Int) (acc : Int),
    (∀ d ∈ ds, 48 ≤ d ∧ d ≤ 57) → headNotDigit rest = true →
    parseDigitsJ (ds ++ rest) acc =
      (List.foldl (fun a d => a * 10 + (d - 48)) acc ds, rest) := by
  intro ds
  induction ds with
  | nil =>
    intro rest acc _ hr
    cases rest with
    | nil => rfl
    | cons c t =>
      rw [headNotDigit] at hr
      simp only [decide_eq_true_eq] at hr
      simp [parseDigitsJ, hr]
  | cons d ds ih =>
    intro rest acc hds hr
    have hd := hds d (List.mem_cons_self d ds)
    simp only [List.cons_append, parseDigitsJ, if_pos hd, List.foldl_cons]
    exact ih rest _ (fun x hx => hds x (List.mem_cons_of_mem d hx)) hr

theorem parseIntJ_render : ∀ (v : Int) (rest : List Int), headNotDigit rest = true →
    parseIntJ (intToString v ++ rest) = some (v, rest) := by
  intro v rest hr
  by_cases hv : v < 0
  · rw [intToString, if_pos hv]
    obtain ⟨d, ds, hds⟩ := natDigits_cons (v.natAbs + 1) v.natAbs (by omega)
    have hdig := natDigits_digits (v.natAbs + 1) v.natAbs (by omega)
    have hd : 48 ≤ d ∧ d ≤ 57 := hdig d (by rw [hds]; exact List.mem_cons_self d ds)
    rw [hds]
    simp only [List.cons_append, parseIntJ, if_pos rfl]
    rw [if_pos hd]
    rw [parseDigitsJ_append ds rest (d - 48)
      (fun x hx => hdig x (by rw [hds]; exact List.mem_cons_of_mem d hx)) hr]
    have hval : List.foldl (fun a d => a * 10 + (d - 48)) (d - 48) ds = v.natAbs := by
      have h0 := natDigits_foldl (v.natAbs + 1) v.natAbs 0 (by omega)
      rw [hds] at h0
      simp only [List.foldl_cons] at h0
      have : (0 : Int) * 10 + (d - 48) = d - 48 := by ring
      rw [this] at h0
      rw [h0]
      simp
    simp only [hval]
    have : -(v.natAbs : Int) = v := by omega
    rw [this]
    simp
  · rw [intToString, if_neg hv]
    obtain ⟨d, ds, hds⟩ := natDigits_cons (v.natAbs + 1) v.natAbs (by omega)
    have hdig := natDigits_digits (v.natAbs + 1) v.natAbs (by omega)
    have hd : 48 ≤ d ∧ d ≤ 57 := hdig d (by rw [hds]; exact List.mem_cons_self d ds)
    rw [hds]
    simp only [List.cons_append, parseIntJ]
    rw [if_neg (by omega : ¬ d = 45), if_pos hd]
    rw [parseDigitsJ_append ds rest (d - 48)
      (fun x hx => hdig x (by rw [hds]; exact List.mem_cons_of_mem d hx)) hr]
    have hval : List.foldl (fun a d => a * 10 + (d - 48)) (d - 48) ds = v.natAbs := by
      have h0 := natDigits_foldl (v.natAbs + 1) v.natAbs 0 (by omega)
      rw [hds] at h0
      simp only [List.foldl_cons] at h0
      have : (0 : Int) * 10 + (d - 48) = d - 48 := by ring
      rw [this] at h0
      rw [h0]
      simp
    simp only [hval]
    have : (v.natAbs : Int) = v := by omega
    rw [this]

theorem hexVal_hexDigit (x : Int) (h0 : 0 ≤ x) (h1 : x < 16) :
    hexVal (hexDigit x) = some x := by
  rw [hexDigit]
  by_cases h10 : x < 10
  · rw [if_pos h10, hexVal, if_pos (by omega)]
    norm_num
  · rw [if_neg h10, hexVal, if_neg (by omega), if_pos (by omega)]
    norm_num

theorem unesc_step_close (fuel : Nat) (acc T : List Int) :
    unescGo (fuel + 1) acc (34 :: T) = some (acc.reverse, T) := rfl

theorem unesc_step_quote (fuel : Nat) (acc T : List Int) :
    unescGo (fuel + 1) acc (92 :: 34 :: T) = unescGo fuel (34 :: acc) T := rfl

theorem unesc_step_bslash (fuel : Nat) (acc T : List Int) :
    unescGo (fuel + 1) acc (92 :: 92 :: T) = unescGo fuel (92 :: acc) T := rfl

theorem unesc_step_nl (fuel : Nat) (acc T : List Int) :
    unescGo (fuel + 1) acc (92 :: 110 :: T) = unescGo fuel (10 :: acc) T := rfl

theorem unesc_step_cr (fuel : Nat) (acc T : List Int) :
    unescGo (fuel + 1) acc (92 :: 114 :: T) = unescGo fuel (13 :: acc) T := rfl

theorem unesc_step_tab (fuel : Nat) (acc T : List Int) :
    unescGo (fuel + 1) acc (92 :: 116 :: T) = unescGo fuel (9 :: acc) T := rfl

theorem unesc_step_hex (fuel : Nat) (acc T : List Int) (c : Int)
    (h0 : 0 ≤ c) (h1 : c < 32) :
    unescGo (fuel + 1) acc
      (92 :: 117 :: 48 :: 48 :: hexDigit (c / 16) :: hexDigit (c % 16) :: T) =
      unescGo fuel (c :: acc) T := by
  show (match hexVal 48, hexVal 48, hexVal (hexDigit (c / 16)), hexVal (hexDigit (c % 16)) with
       | some v1, some v2, some v3, some v4 =>
         unescGo fuel ((((v1 * 16 + v2) * 16 + v3) * 16 + v4) :: acc) T
       | _, _, _, _ => none) = _
  rw [hexVal_hexDigit (c / 16) (by omega) (by omega),
    hexVal_hexDigit (c % 16) (by omega) (by omega)]
  rw [show hexVal 48 = some 0 from rfl]
  show unescGo fuel ((((0 * 16 + 0) * 16 + c / 16) * 16 + c % 16) :: acc) T = _
  rw [show (((0 : Int) * 16 + 0) * 16 + c / 16) * 16 + c % 16 = c from by omega]

theorem unesc_step_raw (fuel : Nat) (acc T : List Int) (c : Int)
    (h1 : ¬ c = 34) (h2 : ¬ c = 92) :
    unescGo (fuel + 1) acc (c :: T) = unescGo fuel (c :: acc) T := by
  rw [unescGo.eq_def]
  dsimp only
  rw [if_neg h1, if_neg h2]

theorem unescGo_render : ∀ (l : List Int) (fuel : Nat) (acc rest : List Int),
    l.length < fuel →
    unescGo fuel acc (escapeJ l ++ (34 :: rest)) = some (acc.reverse ++ l, rest) := by
  intro l
  induction l with
  | nil =>
    intro fuel acc rest hf
    cases fuel with
    | zero => omega
    | succ fuel =>
      rw [escapeJ, List.nil_append, unesc_step_close]
      simp
  | cons c l ih =>
    intro fuel acc rest hf
    cases fuel with
    | zero => simp only [List.length_cons] at hf; omega
    | succ fuel =>
      have hfl : l.length < fuel := by simp only [List.length_cons] at hf; omega
      rw [escapeJ]
      by_cases h1 : c = 34
      · subst h1
        rw [if_pos rfl]
        simp only [List.cons_append, List.nil_append, List.append_assoc]
        rw [unesc_step_quote, ih fuel _ rest hfl]
        simp
      · rw [if_neg h1]
        by_cases h2 : c = 92
        · subst h2
          rw [if_pos rfl]
          simp only [List.cons_append, List.nil_append, List.append_assoc]
          rw [unesc_step_bslash, ih fuel _ rest hfl]
          simp
        · rw [if_neg h2]
          by_cases h3 : c = 10
          · subst h3
            rw [if_pos rfl]
            simp only [List.cons_append, List.nil_append, List.append_assoc]
            rw [unesc_step_nl, ih fuel _ rest hfl]
            simp
          · rw [if_neg h3]
            by_cases h4 : c = 13
            · subst h4
              rw [if_pos rfl]
              simp only [List.cons_append, List.nil_append, List.append_assoc]
              rw [unesc_step_cr, ih fuel _ rest hfl]
              simp
            · rw [if_neg h4]
              by_cases h5 : c = 9
              · subst h5
                rw [if_pos rfl]
                simp only [List.cons_append, List.nil_append, List.append_assoc]
                rw [unesc_step_tab, ih fuel _ rest hfl]
                simp
              · rw [if_neg h5]
                by_cases h6 : 0 ≤ c ∧ c < 32
                · rw [if_pos h6]
                  simp only [List.cons_append, List.nil_append, List.append_assoc]
                  rw [unesc_step_hex fuel acc _ c h6.1 h6.2, ih fuel _ rest hfl]
                  simp
                · rw [if_neg h6]
                  simp only [List.cons_append, List.nil_append, List.append_assoc]
                  rw [unesc_step_raw fuel acc _ c h1 h2, ih fuel _ rest hfl]
                  simp

theorem escapeJ_length : ∀ l : List Int, l.length ≤ (escapeJ l).length := by
  intro l
  induction l with
  | nil => simp [escapeJ]
  | cons c l ih =>
    rw [escapeJ, List.length_append, List.length_cons]
    have h1 : 1 ≤ (if c = 34 then [92, 34]
        else if c = 92 then [92, 92]
        else if c = 10 then [92, 110]
        else if c = 13 then [92, 114]
        else if c = 9 then [92, 116]
        else if 0 ≤ c ∧ c < 32 then [92, 117, 48, 48, hexDigit (c / 16), hexDigit (c % 16)]
        else [c]).length := by
      split_ifs <;> simp
    omega

theorem parseStringJ_render (l rest : List Int) :
    parseStringJ (stringifyStr l ++ rest) = some (l, rest) := by
  rw [stringifyStr]
  simp only [List.cons_append, List.append_assoc, List.singleton_append]
  rw [parseStringJ]
  norm_num
  rw [unescGo_render l _ [] rest (by
    have h2 := escapeJ_length l
    have h3 : (escapeJ l ++ 34 :: rest).length = (escapeJ l).length + rest.length + 1 := by
      simp [List.length_append]
      omega
    omega)]
  simp

theorem parseBoolJ_render (b : Bool) (rest : List Int) :
    parseBoolJ (stringifyBool b ++ rest) = some (b, rest) := by
  cases b <;> simp [stringifyBool, parseBoolJ, parseLit]

theorem joinComma_len {α : Type} (render : α → List Int)
    (hne : ∀ x, 1 ≤ (render x).length) :
    ∀ xs : List α, xs.length ≤ (joinComma (xs.map render)).length := by
  intro xs
  induction xs with
  | nil => simp [joinComma]
  | cons x xs ih =>
    cases xs with
    | nil =>
      simp only [List.map_cons, List.map_nil, joinComma, List.length_cons, List.length_nil]
      have := hne x
      omega
    | cons y ys =>
      simp only [List.map_cons, joinComma, List.length_append, List.length_cons] at ih ⊢
      have := hne x
      omega

/-- The remaining input starts with an array separator or terminator. -/
def headSep (s : List Int) : Bool :=
  match s with
  | [] => false
  | c :: _ => decide (c = 44 ∨ c = 93)

theorem parseArrGo_render {α : Type} (p : List Int → Option (α × List Int))
    (render : α → List Int) :
    ∀ (xs : List α) (x : α) (acc : List α) (rest : List Int) (fuel : Nat),
      (∀ y ∈ x :: xs, ∀ r, headSep r = true → p (render y ++ r) = some (y, r)) →
      xs.length < fuel →
      parseArrGo p fuel (joinComma ((x :: xs).map render) ++ (93 :: rest)) acc =
        some (acc.reverse ++ (x :: xs), rest) := by
  intro xs
  induction xs with
  | nil =>
    intro x acc rest fuel hp hf
    cases fuel with
    | zero => omega
    | succ fuel =>
      simp only [List.map_cons, List.map_nil, joinComma]
      rw [parseArrGo, hp x (List.mem_cons_self _ _) (93 :: rest) (by rw [headSep]; decide)]
      show some ((x :: acc).reverse, rest) = _
      simp
  | cons y xs ih =>
    intro x acc rest fuel hp hf
    cases fuel with
    | zero => simp only [List.length_cons] at hf; omega
    | succ fuel =>
      simp only [List.map_cons, joinComma]
      simp only [List.append_assoc, List.cons_append]
      rw [parseArrGo, hp x (List.mem_cons_self _ _) _ (by rw [headSep]; decide)]
      show parseArrGo p fuel (joinComma (render y :: List.map render xs) ++ (93 :: rest))
        (x :: acc) = _
      have h2 := ih y (x :: acc) rest fuel
        (fun z hz => hp z (List.mem_cons_of_mem x hz))
        (by simp only [List.length_cons] at hf ⊢; omega)
      simp only [List.map_cons] at h2
      rw [h2]
      simp

theorem parseArrJ_render {α : Type} (p : List Int → Option (α × List Int))
    (render : α → List Int)
    (hne : ∀ x, ∃ c cs, render x = c :: cs ∧ ¬ c = 93) :
    ∀ (xs : List α) (rest : List Int),
      (∀ y ∈ xs, ∀ r, headSep r = true → p (render y ++ r) = some (y, r)) →
      parseArrJ p (jArr (xs.map render) ++ rest) = some (xs, rest) := by
  intro xs rest hp
  cases xs with
  | nil => simp [jArr, parseArrJ]
  | cons x xs =>
    rw [jArr, if_neg (by simp)]
    simp only [List.cons_append, List.append_assoc, List.singleton_append]
    obtain ⟨c, cs, hxr, hc93⟩ := hne x
    have hshape : ∃ T, joinComma ((x :: xs).map render) ++ (93 :: rest) = c :: T := by
      cases xs with
      | nil =>
        refine ⟨cs ++ (93 :: rest), ?_⟩
        simp only [List.map_cons, List.map_nil, joinComma, hxr, List.cons_append]
      | cons y ys =>
        refine ⟨(cs ++ (44 :: joinComma ((y :: ys).map render))) ++ (93 :: rest), ?_⟩
        simp only [List.map_cons, joinComma, hxr, List.cons_append, List.append_assoc]
    obtain ⟨T, hT⟩ := hshape
    rw [parseArrJ.eq_def]
    dsimp only
    rw [if_pos rfl]
    simp only [List.nil_append]
    rw [hT]
    show (if c = 93 then some ([], T)
      else parseArrGo p ((c :: T).length + 1) (c :: T) []) = _
    rw [if_neg hc93, ← hT]
    have hj := joinComma_len render (fun z => by
      obtain ⟨cz, csz, hz, -⟩ := hne z
      rw [hz]
      simp) (x :: xs)
    have hfuel : xs.length <
        (joinComma (List.map render (x :: xs)) ++ 93 :: rest).length + 1 := by
      simp only [List.length_cons] at hj
      simp only [List.length_append, List.length_cons]
      omega
    rw [parseArrGo_render p render xs x [] rest _ hp hfuel]
    simp

theorem parseLit_cons (c : Int) (pre s : List Int) :
    parseLit (c :: pre) (c :: s) = parseLit pre s := by simp [parseLit]

theorem parseLit_nil (s : List Int) : parseLit [] s = some s := rfl

theorem decode_inline (s : Int) :
    decodeSymbol (if s = EPSILON then [-50, -75] else [s]) = some s := by
  by_cases h : s = EPSILON
  · subst h
    rfl
  · rw [if_neg h, decodeSymbol, if_neg (by simp)]

theorem decodeSymbol_symbolToString (s : Int) :
    decodeSymbol (symbolToString s) = some s := by
  rw [symbolToString]
  exact decode_inline s

theorem parseStateJ_render (st : State) (rest : List Int) :
    parseStateJ (State.toJson st ++ rest) = some (st, rest) := by
  rw [State.toJson, jObj, if_neg (by simp)]
  simp only [List.map_cons, List.map_nil, joinComma]
  simp only [List.cons_append, List.append_assoc, List.nil_append]
  rw [parseStateJ.eq_def]
  simp [parseKey, parseLit_cons, parseLit_nil, List.append_assoc,
    parseIntJ_render, parseStringJ_render, parseBoolJ_render, headNotDigit]

theorem parseTransJ_render (t : Transition) (rest : List Int) :
    parseTransJ (Transition.toJson t ++ rest) = some (t, rest) := by
  rw [Transition.toJson, jObj, if_neg (by simp)]
  simp only [List.map_cons, List.map_nil, joinComma]
  simp only [List.cons_append, List.append_assoc, List.nil_append]
  rw [parseTransJ.eq_def]
  simp [parseKey, parseLit_cons, parseLit_nil, List.append_assoc,
    parseIntJ_render, parseStringJ_render, parseBoolJ_render, headNotDigit,
    decodeSymbol_symbolToString]

/-- Canonical push string reconstructed by the parser: the empty string
and the epsilon letter both come back empty (both render as the epsilon
letter). -/
def pushCanon (l : List Int) : List Int :=
  if l = [] ∨ l = [-50, -75] then [] else l

theorem parsePdaTransJ_render (t : PDATransition) (rest : List Int) :
    parsePdaTransJ (PDATransition.toJson t ++ rest) =
      some (⟨t.fromId, t.toId, t.inputSymbol, t.popSymbol, pushCanon t.pushSymbols⟩, rest) := by
  rw [PDATransition.toJson, jObj, if_neg (by simp)]
  simp only [List.map_cons, List.map_nil, joinComma]
  simp only [List.cons_append, List.append_assoc, List.nil_append]
  rw [parsePdaTransJ.eq_def]
  simp [parseKey, parseLit_cons, parseLit_nil, List.append_assoc,
    parseIntJ_render, parseStringJ_render, headNotDigit, decode_inline]
  by_cases hp : t.pushSymbols = []
  · simp [pushCanon, hp]
  · by_cases he : t.pushSymbols = [-50, -75]
    · simp [pushCanon, hp, he]
    · simp [pushCanon, hp, he]

/-- Re-rendering is insensitive to the push canonicalization. -/
theorem pdaTransJson_canon (t : PDATransition) :
    PDATransition.toJson
      ⟨t.fromId, t.toId, t.inputSymbol, t.popSymbol, pushCanon t.pushSymbols⟩ =
      PDATransition.toJson t := by
  rw [PDATransition.toJson, PDATransition.toJson]
  by_cases hp : t.pushSymbols = []
  · simp [pushCanon, hp]
  · by_cases he : t.pushSymbols = [-50, -75]
    · simp [pushCanon, he]
    · simp [pushCanon, hp, he]

theorem parseIntJ_sep : ∀ (x : Int) (rest : List Int), headSep rest = true →
    parseIntJ (intToString x ++ rest) = some (x, rest) := by
  intro x rest hsep
  apply parseIntJ_render
  cases rest with
  | nil => rw [headSep] at hsep; exact absurd hsep (by decide)
  | cons c T =>
    rw [headSep] at hsep
    rw [headNotDigit]
    simp only [decide_eq_true_eq] at hsep ⊢
    rcases hsep with h | h <;> omega

theorem intToString_shape : ∀ x : Int, ∃ c cs, intToString x = c :: cs ∧ ¬ c = 93 := by
  intro x
  rw [intToString]
  by_cases hx : x < 0
  · rw [if_pos hx]
    exact ⟨45, _, rfl, by decide⟩
  · rw [if_neg hx]
    obtain ⟨d, ds, hds⟩ := natDigits_cons (x.natAbs + 1) x.natAbs (by omega)
    have hd := natDigits_digits (x.natAbs + 1) x.natAbs (by omega) d
      (by rw [hds]; exact List.mem_cons_self d ds)
    exact ⟨d, ds, hds, by omega⟩

theorem stateJson_shape : ∀ st : State, ∃ c cs, State.toJson st = c :: cs ∧ ¬ c = 93 := by
  intro st
  rw [State.toJson, jObj, if_neg (by simp)]
  exact ⟨123, _, rfl, by decide⟩

theorem transJson_shape : ∀ t : Transition, ∃ c cs, Transition.toJson t = c :: cs ∧ ¬ c = 93 := by
  intro t
  rw [Transition.toJson, jObj, if_neg (by simp)]
  exact ⟨123, _, rfl, by decide⟩

theorem pdaTransJson_shape : ∀ t : PDATransition,
    ∃ c cs, PDATransition.toJson t = c :: cs ∧ ¬ c = 93 := by
  intro t
  rw [PDATransition.toJson, jObj, if_neg (by simp)]
  exact ⟨123, _, rfl, by decide⟩

/-- The automaton NFA::fromJson rebuilds: states keyed by their own id,
next id past the largest. -/
def nfaRecon (n : NFA) : NFA :=
  ⟨(n.states.map Prod.snd).map (fun st => (st.id, st)), n.transitions, n.startState,
   n.acceptingStates, (n.states.map Prod.snd).foldl (fun m st => max m (st.id + 1)) 0⟩

theorem nfaFromJson_render (n : NFA) :
    NFA.fromJson (NFA.toJson n) = some (nfaRecon n) := by
  have hsts : n.states.map (fun p => State.toJson p.2) =
      (n.states.map Prod.snd).map State.toJson := by
    rw [List.map_map]
    rfl
  rw [NFA.toJson, hsts, jObj, if_neg (by simp)]
  rw [show stringifyStr [78, 70, 65] = [34, 78, 70, 65, 34] from rfl]
  simp only [List.map_cons, List.map_nil, joinComma]
  simp only [List.cons_append, List.append_assoc, List.nil_append]
  rw [NFA.fromJson.eq_def]
  have hArrInt := fun xs rest => parseArrJ_render parseIntJ intToString intToString_shape
    xs rest (fun y _ => parseIntJ_sep y)
  have hArrState := fun xs rest => parseArrJ_render parseStateJ State.toJson
    stateJson_shape xs rest (fun st _ rest2 _ => parseStateJ_render st rest2)
  have hArrTrans := fun xs rest => parseArrJ_render parseTransJ Transition.toJson
    transJson_shape xs rest (fun t _ rest2 _ => parseTransJ_render t rest2)
  simp [parseKey, parseLit_cons, parseLit_nil, List.append_assoc,
    parseIntJ_render, headNotDigit, hArrInt, hArrState, hArrTrans, nfaRecon,
    -List.map_map]

theorem nfaRecon_toJson (n : NFA) : NFA.toJson (nfaRecon n) = NFA.toJson n := by
  rw [NFA.toJson, NFA.toJson]
  simp only [nfaRecon, List.map_map]
  rfl

/-- The automaton DFA::fromJson rebuilds (table and alphabet re-derived
from the transitions). -/
def dfaRecon (d : DFA) : DFA :=
  ⟨(d.states.map Prod.snd).map (fun st => (st.id, st)), d.transitions,
   d.transitions.foldl (fun tb t => TTable.set tb (t.fromId, t.symbol) t.toId) [],
   d.startState, d.acceptingStates,
   (d.states.map Prod.snd).foldl (fun m st => max m (st.id + 1)) 0,
   d.transitions.foldl (fun a t => a.insert t.symbol) []⟩

theorem dfaFromJson_render (d : DFA) :
    DFA.fromJson (DFA.toJson d) = some (dfaRecon d) := by
  have hsts : d.states.map (fun p => State.toJson p.2) =
      (d.states.map Prod.snd).map State.toJson := by
    rw [List.map_map]
    rfl
  rw [DFA.toJson, hsts, jObj, if_neg (by simp)]
  rw [show stringifyStr [68, 70, 65] = [34, 68, 70, 65, 34] from rfl]
  simp only [List.map_cons, List.map_nil, joinComma]
  simp only [List.cons_append, List.append_assoc, List.nil_append]
  rw [DFA.fromJson.eq_def]
  have hArrInt := fun xs rest => parseArrJ_render parseIntJ intToString intToString_shape
    xs rest (fun y _ => parseIntJ_sep y)
  have hArrState := fun xs rest => parseArrJ_render parseStateJ State.toJson
    stateJson_shape xs rest (fun st _ rest2 _ => parseStateJ_render st rest2)
  have hArrTrans := fun xs rest => parseArrJ_render parseTransJ Transition.toJson
    transJson_shape xs rest (fun t _ rest2 _ => parseTransJ_render t rest2)
  simp [parseKey, parseLit_cons, parseLit_nil, List.append_assoc,
    parseIntJ_render, headNotDigit, hArrInt, hArrState, hArrTrans, dfaRecon,
    -List.map_map]

theorem dfaRecon_toJson (d : DFA) : DFA.toJson (dfaRecon d) = DFA.toJson d := by
  rw [DFA.toJson, DFA.toJson]
  simp only [dfaRecon, List.map_map]
  rfl

theorem pushCanon_idem (l : List Int) : pushCanon (pushCanon l) = pushCanon l := by
  by_cases h : l = [] ∨ l = [-50, -75]
  · simp [pushCanon, h]
  · simp [pushCanon, h]

/-- The automaton PDA::fromJson rebuilds; push strings equal to the
epsilon letter come back empty (rendering is unchanged). -/
def pdaRecon (p : PDA) : PDA :=
  ⟨(p.states.map Prod.snd).map (fun st => (st.id, st)),
   p.transitions.map (fun t =>
     ⟨t.fromId, t.toId, t.inputSymbol, t.popSymbol, pushCanon t.pushSymbols⟩),
   p.startState, p.acceptingStates,
   (p.states.map Prod.snd).foldl (fun m st => max m (st.id + 1)) 0,
   p.initialStackSymbol⟩

theorem pdaFromJson_render (p : PDA) :
    PDA.fromJson (PDA.toJson p) = some (pdaRecon p) := by
  have hsts : p.states.map (fun pr => State.toJson pr.2) =
      (p.states.map Prod.snd).map State.toJson := by
    rw [List.map_map]
    rfl
  have htr : p.transitions.map PDATransition.toJson =
      (p.transitions.map (fun t =>
        (⟨t.fromId, t.toId, t.inputSymbol, t.popSymbol,
          pushCanon t.pushSymbols⟩ : PDATransition))).map PDATransition.toJson := by
    rw [List.map_map]
    exact (List.map_congr_left (fun t _ => pdaTransJson_canon t)).symm
  rw [PDA.toJson, hsts, htr, jObj, if_neg (by simp)]
  rw [show stringifyStr [80, 68, 65] = [34, 80, 68, 65, 34] from rfl]
  simp only [List.map_cons, List.map_nil, joinComma]
  simp only [List.cons_append, List.append_assoc, List.nil_append]
  rw [PDA.fromJson.eq_def]
  have hArrInt := fun xs rest => parseArrJ_render parseIntJ intToString intToString_shape
    xs rest (fun y _ => parseIntJ_sep y)
  have hArrState := fun xs rest => parseArrJ_render parseStateJ State.toJson
    stateJson_shape xs rest (fun st _ rest2 _ => parseStateJ_render st rest2)
  have hArrPda := parseArrJ_render parsePdaTransJ PDATransition.toJson
    pdaTransJson_shape
    (p.transitions.map (fun t =>
      (⟨t.fromId, t.toId, t.inputSymbol, t.popSymbol,
        pushCanon t.pushSymbols⟩ : PDATransition)))
  have hpCanon : ∀ y ∈ p.transitions.map (fun t =>
      (⟨t.fromId, t.toId, t.inputSymbol, t.popSymbol,
        pushCanon t.pushSymbols⟩ : PDATransition)), ∀ r, headSep r = true →
      parsePdaTransJ (PDATransition.toJson y ++ r) = some (y, r) := by
    intro y hy r _
    obtain ⟨t, ht, rfl⟩ := List.mem_map.1 hy
    rw [parsePdaTransJ_render]
    simp [pushCanon_idem]
  have hArrPda2 := fun rest => hArrPda rest hpCanon
  simp [parseKey, parseLit_cons, parseLit_nil, List.append_assoc,
    parseIntJ_render, headNotDigit, parseStringJ_render, hArrInt, hArrState, hArrPda2,
    pdaRecon, -List.map_map]

theorem pdaRecon_toJson (p : PDA) : PDA.toJson (pdaRecon p) = PDA.toJson p := by
  rw [PDA.toJson, PDA.toJson]
  simp only [pdaRecon, List.map_map]
  have htr : List.map (PDATransition.toJson ∘ fun t =>
      (⟨t.fromId, t.toId, t.inputSymbol, t.popSymbol,
        pushCanon t.pushSymbols⟩ : PDATransition)) p.transitions =
      List.map PDATransition.toJson p.transitions :=
    List.map_congr_left (fun t _ => pdaTransJson_canon t)
  rw [htr]
  rfl

/-- C7: for each automaton kind, fromJson accepts the automaton's own
toJson output and the reconstructed automaton re-serializes to exactly
the same bytes. -/
theorem fromJsonRoundTrip (n : NFA) (d : DFA) (p : PDA) :
    (∃ n2, NFA.fromJson (NFA.toJson n) = some n2 ∧ NFA.toJson n2 = NFA.toJson n) ∧
    (∃ d2, DFA.fromJson (DFA.toJson d) = some d2 ∧ DFA.toJson d2 = DFA.toJson d) ∧
    (∃ p2, PDA.fromJson (PDA.toJson p) = some p2 ∧ PDA.toJson p2 = PDA.toJson p) :=
  ⟨⟨nfaRecon n, nfaFromJson_render n, nfaRecon_toJson n⟩,
   ⟨dfaRecon d, dfaFromJson_render d, dfaRecon_toJson d⟩,
   ⟨pdaRecon p, pdaFromJson_render p, pdaRecon_toJson p⟩⟩


/-- Did an Except-valued operation succeed. -/
def exOk {α : Type} : Except CppError α → Bool
  | .ok _ => true
  | .error _ => false

/-- The NFA the parser builds for the pattern a-star. -/
def c1n : NFA := okOr (parse [97, 42]) NFA.empty

/-- Its subset-construction DFA. -/
def c1d : DFA := okOr (DFA.fromNFA c1n) DFA.empty

/-- The minimized DFA. -/
def c1m : DFA := okOr (DFA.minimize c1d) DFA.empty

/-- C1: the pipeline stages do not agree on every input string.  For
the pattern a-star, parsing, subset construction and minimization all
succeed, the three automata agree on the input a, but on the one-byte
input NUL the NFA accepts while both DFAs reject: NFA::move with
symbol zero follows epsilon-labelled transitions (EPSILON is the NUL
character), so NFA::accepts consumes a NUL input byte along an epsilon
transition, whereas the DFA alphabet excludes epsilon and both DFAs
reject. -/
theorem nulInputBreaksPipelineAgreement :
    exOk (parse [97, 42]) = true ∧ exOk (DFA.fromNFA c1n) = true ∧
    exOk (DFA.minimize c1d) = true ∧
    NFA.accepts c1n [0] = true ∧ DFA.accepts c1d [0] = false ∧
    DFA.accepts c1m [0] = false ∧
    NFA.accepts c1n [97] = true ∧ DFA.accepts c1d [97] = true ∧
    DFA.accepts c1m [97] = true := by decide

end Automata
